import Mathlib

/-!
A shallow embedding of the core of the fog-of-war grid project
(`src/grid.py`, `src/search.py`, `src/agent.py`) together with proofs of the
specification's testable properties.

Modelling conventions
- Python `int` coordinates are `Int × Int`; sizes are `Nat`.
- Python list indexing `l[i]` (which accepts negative indices and raises
  `IndexError` outside `[-len l, len l)`) is `pyGet`/`pySet` returning `Option`.
- A function that can raise at runtime returns `Option`; `none` models an
  uncaught exception (or divergence, for the fuelled search loops).
- Functions that *return* Python `None` on some branch (e.g. `Grid.passable`
  out of bounds) return `Option` as their value type; for those functions
  `none` models the Python value `None`, as noted at each definition.
- Python `set`/`dict` are association lists; only membership/lookup order
  semantics (first match = latest insertion) are relied upon.
-/

set_option autoImplicit false

namespace Fog

/-- A grid coordinate `(row, col)`, matching the Python `tuple[int, int]`. -/
abbrev Coord : Type := Int × Int

/-- The four validated map symbols `"0"`, `"1"`, `"S"`, `"G"`. -/
inductive Tile : Type where
  | free : Tile
  | wall : Tile
  | start : Tile
  | goal : Tile
deriving DecidableEq, Repr

/-- Python list index resolution: `some k` gives the physical index for
logical index `i` of a list of length `n` (negative indices wrap), `none`
models `IndexError`. -/
def pyIdx (n : Nat) (i : Int) : Option Nat :=
  if 0 ≤ i ∧ i < n then some i.toNat
  else if -(n : Int) ≤ i ∧ i < 0 then some (i + n).toNat
  else none

/-- Python `l[i]`. -/
def pyGet {α : Type} (l : List α) (i : Int) : Option α :=
  (pyIdx l.length i).bind fun k => l[k]?

/-- Python `l[i] = a`. -/
def pySet {α : Type} (l : List α) (i : Int) (a : α) : Option (List α) :=
  (pyIdx l.length i).map (fun k => l.set k a)

/-- The `Grid` dataclass from `src/grid.py`. -/
structure Grid : Type where
  grid : List (List Tile)
  start : Coord
  goal : Coord
  visible : List (List Bool)
  height : Nat
  width : Nat
deriving DecidableEq, Repr

namespace Grid

/-- `Grid.in_bounds`. -/
def in_bounds (g : Grid) (r c : Int) : Bool :=
  0 ≤ r && r < (g.height : Int) && 0 ≤ c && c < (g.width : Int)

/-- `Grid.is_wall`. Out of bounds the Python method falls through and returns
the value `None` (modelled by `none`); it never raises on a well-formed grid. -/
def is_wall (g : Grid) (r c : Int) : Option Bool :=
  if g.in_bounds r c then
    (pyGet g.grid r).bind fun row => (pyGet row c).map (fun t => t = Tile.wall)
  else none

/-- `Grid.passable`. Out of bounds the Python method falls through and returns
the value `None` (modelled by `none`); it never raises on a well-formed grid. -/
def passable (g : Grid) (r c : Int) : Option Bool :=
  if g.in_bounds r c then
    (pyGet g.grid r).bind fun row =>
      (pyGet row c).map (fun t => t = Tile.free ∨ t = Tile.start ∨ t = Tile.goal)
  else none

/-- `Grid.neighbors4`: in-bounds 4-neighbours of `(r, c)` in the fixed order
Up, Right, Down, Left; `[]` when `(r, c)` itself is out of bounds. -/
def neighbors4 (g : Grid) (r c : Int) : List Coord :=
  if g.in_bounds r c then
    [(r - 1, c), (r, c + 1), (r + 1, c), (r, c - 1)].filter
      (fun p => g.in_bounds p.1 p.2)
  else []

/-- `Grid.tile_at`. Out of bounds the Python method falls through and returns
the value `None` (modelled by `none`). -/
def tile_at (g : Grid) (r c : Int) : Option Tile :=
  if g.in_bounds r c then (pyGet g.grid r).bind fun row => pyGet row c
  else none

/-- `Grid.is_visible`: `False` out of bounds, else `bool(visible[r][c])`.
On a well-formed grid the in-bounds reads cannot fail; `getD false` only
covers the (impossible) ragged case. -/
def is_visible (g : Grid) (r c : Int) : Bool :=
  if g.in_bounds r c then ((pyGet g.visible r).bind fun row => pyGet row c).getD false
  else false

/-- The single mutation `self.visible[r][c] = True` of `Grid.reveal_from`;
`none` models `IndexError` from either subscript. -/
def setVisible (g : Grid) (r c : Int) : Option Grid :=
  (pyGet g.visible r).bind fun row =>
    (pySet row c true).bind fun row' =>
      (pySet g.visible r row').map fun vis' => { g with visible := vis' }

/-- The neighbour loop of `Grid.reveal_from`: reveal each not-yet-visible
neighbour, appending it to the accumulator `rev`. -/
def revealLoop (g : Grid) (rev : List Coord) : List Coord → Option (List Coord × Grid)
  | [] => some (rev, g)
  | n :: ns =>
    if g.is_visible n.1 n.2 then revealLoop g rev ns
    else
      match g.setVisible n.1 n.2 with
      | none => none
      | some g' => revealLoop g' (rev ++ [n]) ns

/-- `Grid.reveal_from`. Returns the list of newly revealed coordinates and the
updated grid; `none` models the `IndexError` raised by the unguarded
`self.visible[pos[0]][pos[1]]` subscript when `pos` is outside Python's
index range. -/
def reveal_from (g : Grid) (pos : Coord) : Option (List Coord × Grid) :=
  let neighbors := g.neighbors4 pos.1 pos.2
  match (pyGet g.visible pos.1).bind (fun row => pyGet row pos.2) with
  | none => none
  | some v =>
    if v then revealLoop g [] neighbors
    else
      match g.setVisible pos.1 pos.2 with
      | none => none
      | some g1 => revealLoop g1 [pos] neighbors

/-- `Grid.get_visible_neighbors`: neighbours that are in bounds, visible and
passable (the Python code compares each helper's result with `True`, so the
`None` that `passable` returns out of bounds is rejected). -/
def get_visible_neighbors (g : Grid) (pos : Coord) : List Coord :=
  (g.neighbors4 pos.1 pos.2).filter fun n =>
    g.in_bounds n.1 n.2 && g.is_visible n.1 n.2 &&
      (g.passable n.1 n.2 = some true)

/-- `Grid.visible_tiles`: row-major list of all visible coordinates. -/
def visible_tiles (g : Grid) : List Coord :=
  (List.range g.height).flatMap fun r =>
    (List.range g.width).filterMap fun c =>
      if g.is_visible r c then some ((r : Int), (c : Int)) else none

/-- Shape well-formedness established by `Grid._from_csv` validation:
a rectangular `height × width` tile array and a visibility mask of the
same shape. -/
def WFShape (g : Grid) : Prop :=
  g.grid.length = g.height ∧ (∀ row ∈ g.grid, row.length = g.width) ∧
    g.visible.length = g.height ∧ (∀ row ∈ g.visible, row.length = g.width)

instance : DecidablePred WFShape := fun g => by
  unfold WFShape; infer_instance

end Grid

/-- A tiny concrete grid used by witnesses: the 2×3 map `S,0,G / 0,1,0`
with the initial all-false visibility mask produced by `_from_csv`. -/
def demoGrid : Grid :=
  { grid := [[Tile.start, Tile.free, Tile.goal], [Tile.free, Tile.wall, Tile.free]]
    start := (0, 0)
    goal := (0, 2)
    visible := [[false, false, false], [false, false, false]]
    height := 2
    width := 3 }

example : demoGrid.WFShape := by decide
example : demoGrid.neighbors4 0 0 = [(0, 1), (1, 0)] := by decide
example : demoGrid.passable 0 5 = none := by decide
example : demoGrid.reveal_from (2, 0) = none := by decide
example : (demoGrid.reveal_from (0, 0)).map Prod.fst = some [(0, 0), (0, 1), (1, 0)] := by
  decide

/-! ## Search algorithms (`src/search.py`)

Each algorithm takes `start`, `goal`, a neighbour function `N`, and a fuel
bound on main-loop iterations; `none` models divergence (fuel exhausted) or
an uncaught exception, `some []` is the algorithm's "no path" result.

Python's `heapq` on tuples `(cost, (r, c))` pops the least tuple in
lexicographic order; all tuples simultaneously in a frontier are pairwise
distinct in these algorithms, so the heap is extensionally
"remove the lexicographic minimum", which is how `popMin` models it. -/

namespace Search

/-- `manhattan`: the Manhattan distance heuristic. -/
def manhattan (a b : Coord) : Nat :=
  (a.1 - b.1).natAbs + (a.2 - b.2).natAbs

/-- Python `dict` lookup over an association list where insertion conses
(first match = latest binding). -/
def dlookup {α : Type} : List (Coord × α) → Coord → Option α
  | [], _ => none
  | (k', v) :: m, k => if k' = k then some v else dlookup m k

/-- The body of `reconstruct_path`'s `while` loop, fuelled; `none` models the
infinite loop Python would enter on a cyclic parent map. -/
def reconstructAux (cf : List (Coord × Coord)) (start : Coord) :
    Nat → Coord → List Coord → Option (List Coord)
  | 0, _, _ => none
  | fuel + 1, current, path =>
    if current = start then some (start :: path)
    else
      match dlookup cf current with
      | none => some []
      | some prev => reconstructAux cf start fuel prev (current :: path)

/-- `reconstruct_path`: rebuild the start→goal path from the parent map.
An acyclic parent chain has at most `cf.length` distinct keys, so
`cf.length + 1` steps suffice; running out means the chain revisits a key,
i.e. Python diverges. -/
def reconstruct_path (cf : List (Coord × Coord)) (start goal : Coord) :
    Option (List Coord) :=
  reconstructAux cf start (cf.length + 1) goal []

/-- The neighbour loop shared by `bfs_neighbors` and its instrumented
variant: first-visit marking, parent recording, FIFO enqueue. -/
def bfsNbrFold (current : Coord) (ns : List Coord)
    (st : List Coord × List Coord × List (Coord × Coord)) :
    List Coord × List Coord × List (Coord × Coord) :=
  ns.foldl
    (fun st n =>
      let (q, vis, cf) := st
      if n ∈ vis then (q, vis, cf)
      else (q ++ [n], n :: vis, (n, current) :: cf))
    st

/-- Main loop of `bfs_neighbors`. -/
def bfsAux (N : Coord → List Coord) (start goal : Coord) :
    Nat → List Coord → List Coord → List (Coord × Coord) → Option (List Coord)
  | 0, _, _, _ => none
  | _ + 1, [], _, _ => some []
  | fuel + 1, current :: qs, visited, cf =>
    if current = goal then reconstruct_path cf start goal
    else
      let (q', vis', cf') := bfsNbrFold current (N current) (qs, visited, cf)
      bfsAux N start goal fuel q' vis' cf'

/-- `bfs_neighbors`. -/
def bfs_neighbors (start goal : Coord) (N : Coord → List Coord) (fuel : Nat) :
    Option (List Coord) :=
  bfsAux N start goal fuel [start] [start] []

/-- The neighbour loop of `dfs_neighbors`: pushes onto the head of the stack
(the head models the end of the Python list, where `pop()` takes from). -/
def dfsNbrFold (current : Coord) (ns : List Coord)
    (st : List Coord × List Coord × List (Coord × Coord)) :
    List Coord × List Coord × List (Coord × Coord) :=
  ns.foldl
    (fun st n =>
      let (stack, vis, cf) := st
      if n ∈ vis then (stack, vis, cf)
      else (n :: stack, n :: vis, (n, current) :: cf))
    st

/-- Main loop of `dfs_neighbors`. -/
def dfsAux (N : Coord → List Coord) (start goal : Coord) :
    Nat → List Coord → List Coord → List (Coord × Coord) → Option (List Coord)
  | 0, _, _, _ => none
  | _ + 1, [], _, _ => some []
  | fuel + 1, current :: st, visited, cf =>
    if current = goal then reconstruct_path cf start goal
    else
      let (st', vis', cf') := dfsNbrFold current (N current) (st, visited, cf)
      dfsAux N start goal fuel st' vis' cf'

/-- `dfs_neighbors`. -/
def dfs_neighbors (start goal : Coord) (N : Coord → List Coord) (fuel : Nat) :
    Option (List Coord) :=
  dfsAux N start goal fuel [start] [start] []

/-- Strict order in which Python compares the heap tuples `(cost, (r, c))`. -/
def keyLt (a b : Nat × Coord) : Bool :=
  a.1 < b.1 ||
    (a.1 = b.1 && (a.2.1 < b.2.1 || (a.2.1 = b.2.1 && a.2.2 < b.2.2)))

/-- `heappop`: remove the least tuple (leftmost among equals, which never
arise in these algorithms). -/
def popMin : List (Nat × Coord) → Option ((Nat × Coord) × List (Nat × Coord))
  | [] => none
  | e :: es =>
    match popMin es with
    | none => some (e, [])
    | some (m, rest) => if keyLt m e then some (m, e :: rest) else some (e, es)

/-- Heap events recorded to reason about tie-breaking (claim about the UCS
frontier's pop order). -/
inductive HeapEvent : Type where
  | push (key : Nat) (node : Coord) : HeapEvent
  | pop (key : Nat) (node : Coord) : HeapEvent
deriving DecidableEq, Repr

/-- The neighbour (relaxation) loop of `ucs_neighbors`; `none` models a
`KeyError` on `cost_so_far[current]` (unreachable in real runs). -/
def ucsRelaxLoop (current : Coord) :
    List Coord → List (Nat × Coord) → List (Coord × Coord) →
      List (Coord × Nat) → List HeapEvent →
    Option (List (Nat × Coord) × List (Coord × Coord) × List (Coord × Nat) × List HeapEvent)
  | [], frontier, cf, csf, evs => some (frontier, cf, csf, evs)
  | n :: ns, frontier, cf, csf, evs =>
    match dlookup csf current with
    | none => none
    | some c =>
      let newCost := c + 1
      let relax : Bool :=
        match dlookup csf n with
        | none => true
        | some cn => newCost < cn
      if relax then
        ucsRelaxLoop current ns (frontier ++ [(newCost, n)]) ((n, current) :: cf)
          ((n, newCost) :: csf) (evs ++ [HeapEvent.push newCost n])
      else ucsRelaxLoop current ns frontier cf csf evs

/-- Main loop of `ucs_neighbors`, also recording the heap event trace. -/
def ucsAux (N : Coord → List Coord) (start goal : Coord) :
    Nat → List (Nat × Coord) → List (Coord × Coord) → List (Coord × Nat) →
      List HeapEvent → Option (List Coord × List HeapEvent)
  | 0, _, _, _, _ => none
  | fuel + 1, frontier, cf, csf, evs =>
    match popMin frontier with
    | none => some ([], evs)
    | some ((k, current), rest) =>
      let evs' := evs ++ [HeapEvent.pop k current]
      if current = goal then
        (reconstruct_path cf start goal).map fun p => (p, evs')
      else
        match ucsRelaxLoop current (N current) rest cf csf evs' with
        | none => none
        | some (f', cf', csf', evs'') => ucsAux N start goal fuel f' cf' csf' evs''

/-- `ucs_neighbors` together with its heap event trace. -/
def ucsRun (start goal : Coord) (N : Coord → List Coord) (fuel : Nat) :
    Option (List Coord × List HeapEvent) :=
  ucsAux N start goal fuel [(0, start)] [] [(start, 0)] [HeapEvent.push 0 start]

/-- `ucs_neighbors`. -/
def ucs_neighbors (start goal : Coord) (N : Coord → List Coord) (fuel : Nat) :
    Option (List Coord) :=
  (ucsRun start goal N fuel).map Prod.fst

/-- The heap event trace of a `ucs_neighbors` run. -/
def ucsTrace (start goal : Coord) (N : Coord → List Coord) (fuel : Nat) :
    Option (List HeapEvent) :=
  (ucsRun start goal N fuel).map Prod.snd

/-- The neighbour (relaxation) loop of `astar_neighbors` with the default
`manhattan` heuristic; `none` models a `KeyError` on `g_score[current]`. -/
def astarRelaxLoop (goal current : Coord) :
    List Coord → List (Nat × Coord) → List (Coord × Coord) → List (Coord × Nat) →
    Option (List (Nat × Coord) × List (Coord × Coord) × List (Coord × Nat))
  | [], frontier, cf, gs => some (frontier, cf, gs)
  | n :: ns, frontier, cf, gs =>
    match dlookup gs current with
    | none => none
    | some gc =>
      let tg := gc + 1
      let relax : Bool :=
        match dlookup gs n with
        | none => true
        | some gn => tg < gn
      if relax then
        astarRelaxLoop goal current ns (frontier ++ [(tg + manhattan n goal, n)])
          ((n, current) :: cf) ((n, tg) :: gs)
      else astarRelaxLoop goal current ns frontier cf gs

/-- Main loop of `astar_neighbors`. -/
def astarAux (N : Coord → List Coord) (start goal : Coord) :
    Nat → List (Nat × Coord) → List (Coord × Coord) → List (Coord × Nat) →
    Option (List Coord)
  | 0, _, _, _ => none
  | fuel + 1, frontier, cf, gs =>
    match popMin frontier with
    | none => some []
    | some ((_, current), rest) =>
      if current = goal then reconstruct_path cf start goal
      else
        match astarRelaxLoop goal current (N current) rest cf gs with
        | none => none
        | some (f', cf', gs') => astarAux N start goal fuel f' cf' gs'

/-- `astar_neighbors` (with its default Manhattan heuristic). -/
def astar_neighbors (start goal : Coord) (N : Coord → List Coord) (fuel : Nat) :
    Option (List Coord) :=
  astarAux N start goal fuel [(0, start)] [] [(start, 0)]

/-- The neighbour loop of `greedy_neighbors`. -/
def greedyNbrFold (goal current : Coord) (ns : List Coord)
    (st : List (Nat × Coord) × List Coord × List (Coord × Coord)) :
    List (Nat × Coord) × List Coord × List (Coord × Coord) :=
  ns.foldl
    (fun st n =>
      let (frontier, vis, cf) := st
      if n ∈ vis then (frontier, vis, cf)
      else (frontier ++ [(manhattan n goal, n)], n :: vis, (n, current) :: cf))
    st

/-- Main loop of `greedy_neighbors`. -/
def greedyAux (N : Coord → List Coord) (start goal : Coord) :
    Nat → List (Nat × Coord) → List Coord → List (Coord × Coord) →
    Option (List Coord)
  | 0, _, _, _ => none
  | fuel + 1, frontier, visited, cf =>
    match popMin frontier with
    | none => some []
    | some ((_, current), rest) =>
      if current = goal then reconstruct_path cf start goal
      else
        let (f', vis', cf') := greedyNbrFold goal current (N current) (rest, visited, cf)
        greedyAux N start goal fuel f' vis' cf'

/-- `greedy_neighbors` (heuristic fixed to `manhattan`, its default). -/
def greedy_neighbors (start goal : Coord) (N : Coord → List Coord) (fuel : Nat) :
    Option (List Coord) :=
  greedyAux N start goal fuel [(manhattan start goal, start)] [start] []

/-! ### Instrumented variants (`_with_stats`)

`_with_stats` replaces `neighbors_fn` by a closure that increments a counter
and then calls the original; the algorithms below are the same loops with
that counter threaded through (each `N` invocation bumps it by one).
Wall-clock `runtime` is not modelled. -/

/-- The `SearchResult` dataclass (without the wall-clock `runtime` field). -/
structure SearchResult : Type where
  path : List Coord
  nodes_expanded : Nat
  cost : Nat
deriving DecidableEq, Repr

/-- Main loop of `bfs_neighbors` under `_with_stats`'s counted neighbour
function. -/
def bfsCAux (N : Coord → List Coord) (start goal : Coord) :
    Nat → List Coord → List Coord → List (Coord × Coord) → Nat →
    Option (List Coord × Nat)
  | 0, _, _, _, _ => none
  | _ + 1, [], _, _, cnt => some ([], cnt)
  | fuel + 1, current :: qs, visited, cf, cnt =>
    if current = goal then (reconstruct_path cf start goal).map fun p => (p, cnt)
    else
      let (q', vis', cf') := bfsNbrFold current (N current) (qs, visited, cf)
      bfsCAux N start goal fuel q' vis' cf' (cnt + 1)

/-- Main loop of `dfs_neighbors` under the counted neighbour function. -/
def dfsCAux (N : Coord → List Coord) (start goal : Coord) :
    Nat → List Coord → List Coord → List (Coord × Coord) → Nat →
    Option (List Coord × Nat)
  | 0, _, _, _, _ => none
  | _ + 1, [], _, _, cnt => some ([], cnt)
  | fuel + 1, current :: st, visited, cf, cnt =>
    if current = goal then (reconstruct_path cf start goal).map fun p => (p, cnt)
    else
      let (st', vis', cf') := dfsNbrFold current (N current) (st, visited, cf)
      dfsCAux N start goal fuel st' vis' cf' (cnt + 1)

/-- Main loop of `ucs_neighbors` under the counted neighbour function. -/
def ucsCAux (N : Coord → List Coord) (start goal : Coord) :
    Nat → List (Nat × Coord) → List (Coord × Coord) → List (Coord × Nat) →
      List HeapEvent → Nat → Option (List Coord × Nat)
  | 0, _, _, _, _, _ => none
  | fuel + 1, frontier, cf, csf, evs, cnt =>
    match popMin frontier with
    | none => some ([], cnt)
    | some ((k, current), rest) =>
      let evs' := evs ++ [HeapEvent.pop k current]
      if current = goal then
        (reconstruct_path cf start goal).map fun p => (p, cnt)
      else
        match ucsRelaxLoop current (N current) rest cf csf evs' with
        | none => none
        | some (f', cf', csf', evs'') =>
          ucsCAux N start goal fuel f' cf' csf' evs'' (cnt + 1)

/-- Main loop of `astar_neighbors` under the counted neighbour function. -/
def astarCAux (N : Coord → List Coord) (start goal : Coord) :
    Nat → List (Nat × Coord) → List (Coord × Coord) → List (Coord × Nat) → Nat →
    Option (List Coord × Nat)
  | 0, _, _, _, _ => none
  | fuel + 1, frontier, cf, gs, cnt =>
    match popMin frontier with
    | none => some ([], cnt)
    | some ((_, current), rest) =>
      if current = goal then (reconstruct_path cf start goal).map fun p => (p, cnt)
      else
        match astarRelaxLoop goal current (N current) rest cf gs with
        | none => none
        | some (f', cf', gs') => astarCAux N start goal fuel f' cf' gs' (cnt + 1)

/-- Main loop of `greedy_neighbors` under the counted neighbour function. -/
def greedyCAux (N : Coord → List Coord) (start goal : Coord) :
    Nat → List (Nat × Coord) → List Coord → List (Coord × Coord) → Nat →
    Option (List Coord × Nat)
  | 0, _, _, _, _ => none
  | fuel + 1, frontier, visited, cf, cnt =>
    match popMin frontier with
    | none => some ([], cnt)
    | some ((_, current), rest) =>
      if current = goal then (reconstruct_path cf start goal).map fun p => (p, cnt)
      else
        let (f', vis', cf') := greedyNbrFold goal current (N current) (rest, visited, cf)
        greedyCAux N start goal fuel f' vis' cf' (cnt + 1)

/-- `_with_stats`'s result assembly: path, neighbour-call count, and unit
path cost (`max(0, len(path) - 1)` for a non-empty path, else `0`). -/
def mkSearchResult (r : List Coord × Nat) : SearchResult :=
  { path := r.1
    nodes_expanded := r.2
    cost := if r.1.isEmpty then 0 else max 0 (r.1.length - 1) }

/-- `bfs_neighbors_with_stats`. -/
def bfs_neighbors_with_stats (start goal : Coord) (N : Coord → List Coord)
    (fuel : Nat) : Option SearchResult :=
  (bfsCAux N start goal fuel [start] [start] [] 0).map mkSearchResult

/-- `dfs_neighbors_with_stats`. -/
def dfs_neighbors_with_stats (start goal : Coord) (N : Coord → List Coord)
    (fuel : Nat) : Option SearchResult :=
  (dfsCAux N start goal fuel [start] [start] [] 0).map mkSearchResult

/-- `ucs_neighbors_with_stats`. -/
def ucs_neighbors_with_stats (start goal : Coord) (N : Coord → List Coord)
    (fuel : Nat) : Option SearchResult :=
  (ucsCAux N start goal fuel [(0, start)] [] [(start, 0)] [HeapEvent.push 0 start] 0).map
    mkSearchResult

/-- `astar_neighbors_with_stats`. -/
def astar_neighbors_with_stats (start goal : Coord) (N : Coord → List Coord)
    (fuel : Nat) : Option SearchResult :=
  (astarCAux N start goal fuel [(0, start)] [] [(start, 0)] 0).map mkSearchResult

/-- `greedy_neighbors_with_stats`. -/
def greedy_neighbors_with_stats (start goal : Coord) (N : Coord → List Coord)
    (fuel : Nat) : Option SearchResult :=
  (greedyCAux N start goal fuel [(manhattan start goal, start)] [start] [] 0).map
    mkSearchResult

end Search

/-- The full-knowledge neighbour function `plan_to` builds in full-map mode:
`neighbors4` filtered by `passable(...) == True`. -/
def Grid.fullNbrs (g : Grid) (p : Coord) : List Coord :=
  (g.neighbors4 p.1 p.2).filter fun n => g.passable n.1 n.2 = some true

/-- A 3×3 fully open grid, start `(0,0)`, goal `(2,2)` (the spec's concrete
scenario). -/
def openGrid : Grid :=
  { grid := [[Tile.start, Tile.free, Tile.free],
             [Tile.free, Tile.free, Tile.free],
             [Tile.free, Tile.free, Tile.goal]]
    start := (0, 0)
    goal := (2, 2)
    visible := [[false, false, false], [false, false, false], [false, false, false]]
    height := 3
    width := 3 }

example :
    (Search.bfs_neighbors (0, 0) (2, 2) openGrid.fullNbrs 64).map List.length =
      some 5 := by decide
example :
    (Search.astar_neighbors (0, 0) (2, 2) openGrid.fullNbrs 64).map List.length =
      some 5 := by decide
example :
    (Search.ucs_neighbors (0, 0) (2, 2) openGrid.fullNbrs 64).map List.length =
      some 5 := by decide
example :
    (Search.dfs_neighbors (0, 0) (2, 2) openGrid.fullNbrs 64).isSome := by decide
example :
    (Search.greedy_neighbors (0, 0) (2, 2) openGrid.fullNbrs 64).map List.length =
      some 5 := by decide

/-! ## Online agent (`src/agent.py`)

The `Grid` the agent owns is threaded explicitly because fog perception
mutates its visibility mask.  The agent's configurable `search_algo`
(default `astar_neighbors`) is a parameter of type `SearchFn`, already
applied to its fuel.  `normalize_coord` is the identity on well-formed
pairs and is not modelled.  `plan_to`'s branch for `SearchResult`-returning
search functions is dead for the plain algorithms modelled here and the
wall-clock runtime accounting is not modelled. -/

namespace Agent

/-- A search algorithm as the agent calls it: `search(start, target, neighbors_fn)`. -/
abbrev SearchFn : Type := Coord → Coord → (Coord → List Coord) → Option (List Coord)

/-- The `Metrics` dataclass (without the wall-clock `runtime` field). -/
structure Metrics : Type where
  start : Coord
  goal : Coord
  steps : Nat
  nodes_expanded : Nat
  replans : Nat
  cost : Nat
  reached_goal : Bool
  path_taken : List Coord
deriving DecidableEq, Repr

/-- `Metrics(start=..., goal=...)` with defaults and `__post_init__`
(`path_taken = [start]`). -/
def Metrics.init (start goal : Coord) : Metrics :=
  { start := start, goal := goal, steps := 0, nodes_expanded := 0, replans := 0,
    cost := 0, reached_goal := false, path_taken := [start] }

/-- Mutable state of `OnlineAgent` other than the owned grid. -/
structure AgentState : Type where
  start : Coord
  goal : Coord
  current : Coord
  full_map : Bool
  known_passable : List Coord
  known_walls : List Coord
  metrics : Metrics
  current_plan : List Coord
deriving DecidableEq, Repr

/-- Python `set.add` on a membership-only list representation. -/
def insertS (x : Coord) (s : List Coord) : List Coord :=
  if x ∈ s then s else x :: s

/-- The perception classification loop: each newly revealed coordinate is
added to `known_walls` when its tile is `'1'`, else to `known_passable`;
`none` models an `IndexError` in `_tile_at`. -/
def classifyLoop (g : Grid) :
    List Coord → List Coord → List Coord → Option (List Coord × List Coord)
  | [], kp, kw => some (kp, kw)
  | p :: ps, kp, kw =>
    match (pyGet g.grid p.1).bind fun row => pyGet row p.2 with
    | none => none
    | some t =>
      if t = Tile.wall then classifyLoop g ps kp (insertS p kw)
      else classifyLoop g ps (insertS p kp) kw

/-- The full-knowledge seeding scan of `__init__`: every cell is classified
directly (`try/except` skips nothing on a well-formed grid). -/
def fullScan (g : Grid) : List Coord × List Coord :=
  ((List.range g.height).flatMap fun r =>
      (List.range g.width).map fun c => (((r : Int), (c : Int)) : Coord)).foldl
    (fun st p =>
      match (pyGet g.grid p.1).bind fun row => pyGet row p.2 with
      | none => st
      | some t =>
        if t = Tile.wall then (st.1, insertS p st.2) else (insertS p st.1, st.2))
    ([], [])

/-- `OnlineAgent.__init__` for a `Grid` instance (the `Path` type-error branch
does not apply). -/
def mkAgent (g : Grid) (full_map : Bool) : Option (Grid × AgentState) :=
  let base : AgentState :=
    { start := g.start, goal := g.goal, current := g.start, full_map := full_map,
      known_passable := [], known_walls := [],
      metrics := Metrics.init g.start g.goal, current_plan := [] }
  if full_map then
    let (kp, kw) := fullScan g
    some (g, { base with known_passable := kp, known_walls := kw })
  else
    match g.reveal_from g.start with
    | none => none
    | some (newly, g') =>
      match classifyLoop g' newly [] [] with
      | none => none
      | some (kp, kw) =>
        some (g', { base with known_passable := kp, known_walls := kw })

/-- `OnlineAgent.known_neighbors`: Up/Right/Down/Left neighbours inside the
known-passable set. -/
def knownNeighbors (kp : List Coord) (pos : Coord) : List Coord :=
  [(pos.1 - 1, pos.2), (pos.1, pos.2 + 1), (pos.1 + 1, pos.2), (pos.1, pos.2 - 1)].filter
    (· ∈ kp)

/-- `OnlineAgent.plan_to` for our `Grid` (which has `neighbors4` and
`get_visible_neighbors`, so the belief-graph fallback branch is dead, and
whose search returns a plain path, so the `SearchResult` branch is dead). -/
def planTo (search : SearchFn) (g : Grid) (s : AgentState) (target : Coord) :
    Option (List Coord) :=
  let N : Coord → List Coord :=
    if s.full_map then g.fullNbrs else fun p => g.get_visible_neighbors p
  search s.current target N

/-- BFS loop of `OnlineAgent.choose_frontier`; `some none` is Python's
`return None` (no frontier), the outer `none` is fuel exhaustion (the Python
loop always terminates, see `chooseFrontier_fuel`-style arguments in the
theorems). The agent's `_in_bounds` coincides with `Grid.in_bounds`. -/
def chooseFrontierAux (g : Grid) (kp kw : List Coord) :
    Nat → List Coord → List Coord → Option (Option Coord)
  | 0, _, _ => none
  | _ + 1, [], _ => some none
  | fuel + 1, cur :: q, visited =>
    if ([(cur.1 - 1, cur.2), (cur.1, cur.2 + 1), (cur.1 + 1, cur.2), (cur.1, cur.2 - 1)].any
          fun nb => g.in_bounds nb.1 nb.2 && !(nb ∈ kp) && !(nb ∈ kw)) then
      some (some cur)
    else
      let (q', vis') :=
        (knownNeighbors kp cur).foldl
          (fun st n => if n ∈ st.2 then st else (st.1 ++ [n], n :: st.2))
          (q, visited)
      chooseFrontierAux g kp kw fuel q' vis'

/-- `OnlineAgent.choose_frontier`. -/
def chooseFrontier (g : Grid) (s : AgentState) (fuel : Nat) : Option (Option Coord) :=
  chooseFrontierAux g s.known_passable s.known_walls fuel [s.current] [s.current]

/-- Fog perception: `reveal_from(current)` followed by classification. -/
def perceive (g : Grid) (s : AgentState) : Option (Grid × AgentState) :=
  match g.reveal_from s.current with
  | none => none
  | some (newly, g') =>
    match classifyLoop g' newly s.known_passable s.known_walls with
    | none => none
    | some (kp, kw) =>
      some (g', { s with known_passable := kp, known_walls := kw })

/-- The "Ensure we have a plan" block of `OnlineAgent.step` (a no-op when a
plan is present): `some (some s2)` carries the state with a plan to follow,
`some none` is Python's plain `return False` (nowhere to explore), `none`
an exception or diverging search. -/
def planPhase (search : SearchFn) (cfFuel : Nat) (g1 : Grid) (s1 : AgentState) :
    Option (Option AgentState) :=
  if s1.current_plan.isEmpty then
    match planTo search g1 s1 s1.goal with
    | none => none
    | some path =>
      if !path.isEmpty then some (some { s1 with current_plan := path })
      else
        match chooseFrontier g1 s1 cfFuel with
        | none => none
        | some none => some none
        | some (some frontier) =>
          match planTo search g1 s1 frontier with
          | none => none
          | some plan =>
            if !plan.isEmpty then some (some { s1 with current_plan := plan })
            else some none
  else some (some s1)

/-- The "Follow plan one step" block of `OnlineAgent.step`. -/
def actPhase (g1 : Grid) (s2 : AgentState) : Option ((Grid × AgentState) × Bool) :=
  match s2.current_plan with
  | _next0 :: next1 :: restPlan =>
    if next1 ∈ s2.known_walls then
      some ((g1,
        { s2 with
          metrics := { s2.metrics with replans := s2.metrics.replans + 1 }
          current_plan := [] }), true)
    else
      let s3 : AgentState :=
        { s2 with
          current := next1
          metrics :=
            { s2.metrics with
              steps := s2.metrics.steps + 1
              path_taken := s2.metrics.path_taken ++ [next1] }
          current_plan := next1 :: restPlan }
      match (if s3.full_map then some (g1, s3) else perceive g1 s3) with
      | none => none
      | some (g2, s4) => some ((g2, s4), true)
  | _ =>
    -- plan exhausted but didn't reach goal
    some ((g1, { s2 with current_plan := [] }), true)

/-- `OnlineAgent.step`: one perceive→plan→act cycle. Returns the updated
grid/state and the Python return value (`true` = continue, `false` = done);
`none` models an exception or a diverging inner search. `cfFuel` bounds the
`choose_frontier` BFS. -/
def step (search : SearchFn) (cfFuel : Nat) (g : Grid) (s : AgentState) :
    Option ((Grid × AgentState) × Bool) :=
  -- Perceive
  match (if s.full_map then some (g, s) else perceive g s) with
  | none => none
  | some (g1, s1) =>
    -- If at goal
    if s1.current = s1.goal then
      some ((g1, { s1 with metrics := { s1.metrics with reached_goal := true } }), false)
    else
      -- Ensure we have a plan
      match planPhase search cfFuel g1 s1 with
      | none => none
      | some none => some ((g1, s1), false)
      | some (some s2) => actPhase g1 s2

/-- The driver loop of `OnlineAgent.run` (`max_steps` iterations at most). -/
def runAux (search : SearchFn) (cfFuel : Nat) :
    Nat → Grid → AgentState → Option (Grid × AgentState)
  | 0, g, s => some (g, s)
  | n + 1, g, s =>
    match step search cfFuel g s with
    | none => none
    | some ((g', s'), cont) =>
      if cont then runAux search cfFuel n g' s' else some (g', s')

/-- `OnlineAgent.run`: drive `step` then finalize metrics (`reached_goal`
recomputed from the position, `cost` set from `path_taken`). -/
def run (search : SearchFn) (cfFuel : Nat) (g : Grid) (s : AgentState)
    (max_steps : Nat) : Option (Grid × AgentState) :=
  (runAux search cfFuel max_steps g s).map fun gs =>
    let m := gs.2.metrics
    let m := { m with reached_goal := gs.2.current = gs.2.goal }
    let m :=
      if m.path_taken.isEmpty then m
      else { m with cost := max 0 (m.path_taken.length - 1) }
    (gs.1, { gs.2 with metrics := m })

end Agent

/-- The agent's default search algorithm (`astar`), at a given fuel. -/
def astarSearch (fuel : Nat) : Agent.SearchFn :=
  fun s t N => Search.astar_neighbors s t N fuel

example :
    (do
      let (g, s) ← Agent.mkAgent openGrid true
      let (_, s') ← Agent.run (astarSearch 64) 64 g s 100
      pure (s'.metrics.steps, s'.metrics.cost, s'.metrics.reached_goal)) =
      some (4, 4, true) := by decide

example :
    (do
      let (g, s) ← Agent.mkAgent openGrid false
      let (_, s') ← Agent.run (astarSearch 64) 64 g s 100
      pure (s'.metrics.reached_goal, s'.metrics.steps = s'.metrics.cost)) =
      some (true, true) := by decide

/-! ## Indexing lemmas -/

theorem pyIdx_lt {n : Nat} {i : Int} {k : Nat} (h : pyIdx n i = some k) : k < n := by
  unfold pyIdx at h
  split at h
  · rename_i hc
    cases h
    omega
  · split at h
    · rename_i hc hc'
      cases h
      omega
    · exact absurd h (by simp)

theorem pyIdx_of_inb {n : Nat} {i : Int} (h0 : 0 ≤ i) (h1 : i < n) :
    pyIdx n i = some i.toNat := by
  unfold pyIdx
  rw [if_pos ⟨h0, h1⟩]

theorem pyGet_eq_some_of_inb {α : Type} {l : List α} {i : Int} (h0 : 0 ≤ i)
    (h1 : i < l.length) : ∃ a, pyGet l i = some a ∧ l[i.toNat]? = some a := by
  unfold pyGet
  rw [pyIdx_of_inb h0 h1]
  have hk : i.toNat < l.length := by omega
  rcases List.getElem?_eq_some_iff.mpr ⟨hk, rfl⟩ with h
  exact ⟨l[i.toNat], by simp, by simp⟩

theorem pyGet_mem {α : Type} {l : List α} {i : Int} {a : α} (h : pyGet l i = some a) :
    a ∈ l := by
  unfold pyGet at h
  rcases Option.bind_eq_some.mp h with ⟨k, _, hk⟩
  exact List.getElem?_mem hk

theorem pySet_eq_some {α : Type} {l : List α} {i : Int} {a : α} {l' : List α}
    (h : pySet l i a = some l') :
    ∃ k, pyIdx l.length i = some k ∧ l' = l.set k a := by
  unfold pySet at h
  rcases Option.map_eq_some'.mp h with ⟨k, hk, hl⟩
  exact ⟨k, hk, hl.symm⟩

theorem pySet_length {α : Type} {l : List α} {i : Int} {a : α} {l' : List α}
    (h : pySet l i a = some l') : l'.length = l.length := by
  rcases pySet_eq_some h with ⟨k, _, rfl⟩
  exact List.length_set l k a

theorem pySet_some_of_inb {α : Type} {l : List α} {i : Int} (a : α) (h0 : 0 ≤ i)
    (h1 : i < l.length) : pySet l i a = some (l.set i.toNat a) := by
  unfold pySet
  rw [pyIdx_of_inb h0 h1]
  rfl

theorem mem_of_mem_set {α : Type} {l : List α} {k : Nat} {a x : α}
    (h : x ∈ l.set k a) : x = a ∨ x ∈ l := by
  rcases List.mem_iff_getElem?.mp h with ⟨n, hn⟩
  rw [List.getElem?_set] at hn
  split at hn
  · split at hn
    · exact Or.inl (Option.some_injective _ hn).symm
    · cases hn
  · exact Or.inr (List.getElem?_mem hn)

namespace Grid

/-- `setVisible` only replaces the visibility mask. -/
theorem setVisible_fields {g g' : Grid} {r c : Int} (h : g.setVisible r c = some g') :
    g'.grid = g.grid ∧ g'.height = g.height ∧ g'.width = g.width ∧
      g'.start = g.start ∧ g'.goal = g.goal ∧ g'.visible.length = g.visible.length := by
  unfold setVisible at h
  rcases Option.bind_eq_some.mp h with ⟨row, hrow, h⟩
  rcases Option.bind_eq_some.mp h with ⟨row', hrow', h⟩
  rcases Option.map_eq_some'.mp h with ⟨vis', hvis', hg'⟩
  subst hg'
  refine ⟨rfl, rfl, rfl, rfl, rfl, ?_⟩
  exact pySet_length hvis'

theorem setVisible_in_bounds {g g' : Grid} {r c : Int} (h : g.setVisible r c = some g') :
    g'.in_bounds = g.in_bounds := by
  rcases setVisible_fields h with ⟨_, hh, hw, _, _, _⟩
  funext a b
  unfold in_bounds
  rw [hh, hw]

theorem setVisible_WFShape {g g' : Grid} {r c : Int} (hwf : g.WFShape)
    (h : g.setVisible r c = some g') : g'.WFShape := by
  obtain ⟨hg, hr, hv, hvr⟩ := hwf
  rcases setVisible_fields h with ⟨hgr, hh, hw, _, _, hlen⟩
  unfold setVisible at h
  rcases Option.bind_eq_some.mp h with ⟨row, hrow, h⟩
  rcases Option.bind_eq_some.mp h with ⟨row', hrow', h⟩
  rcases Option.map_eq_some'.mp h with ⟨vis', hvis', hg'⟩
  subst hg'
  rcases pySet_eq_some hvis' with ⟨k, _, rfl⟩
  refine ⟨by rw [hgr] at hg ⊢; exact hg, ?_, ?_, ?_⟩
  · intro rw hrw
    rw [hgr] at hrw
    rw [hw]
    exact hr rw hrw
  · rw [hw] at *
    simpa [hlen] using hv
  · intro rw hrw
    rcases mem_of_mem_set hrw with heq | hmem
    · subst heq
      rcases pySet_eq_some hrow' with ⟨k2, _, rfl⟩
      rw [List.length_set, hw]
      exact hvr row (pyGet_mem hrow)
    · rw [hw]
      exact hvr rw hmem

/-- Setting a visibility bit never clears another one (negative-index
aliasing included). -/
theorem setVisible_mono {g g' : Grid} {r c : Int} (h : g.setVisible r c = some g')
    {r' c' : Int} (hv : g.is_visible r' c' = true) : g'.is_visible r' c' = true := by
  unfold setVisible at h
  rcases Option.bind_eq_some.mp h with ⟨row, hrow, h⟩
  rcases Option.bind_eq_some.mp h with ⟨row', hrow', h⟩
  rcases Option.map_eq_some'.mp h with ⟨vis', hvis', hg'⟩
  have hib : g'.in_bounds = g.in_bounds := by
    subst hg'; funext a b; unfold in_bounds; rfl
  unfold is_visible at hv ⊢
  rw [hib]
  by_cases hb : g.in_bounds r' c' = true
  · rw [if_pos hb] at hv ⊢
    have hvs : ((pyGet g.visible r').bind fun row => pyGet row c') = some true := by
      rcases Option.getD_eq_iff.mp hv with hx | ⟨_, hx⟩
      · exact hx
      · cases hx
    rcases Option.bind_eq_some.mp hvs with ⟨rowv, hrowv, hcv⟩
    -- decompose the row read of the original mask
    unfold pyGet at hrowv
    rcases Option.bind_eq_some.mp hrowv with ⟨k3, hk3, hget3⟩
    rcases pySet_eq_some hvis' with ⟨k, hk, rfl⟩
    have hvlen : (g.visible.set k row').length = g.visible.length :=
      List.length_set _ _ _
    have hg'vis : g'.visible = g.visible.set k row' := by rw [← hg']
    rw [hg'vis]
    -- the row read of the new mask resolves at the same physical index
    have hread : pyGet (g.visible.set k row') r' =
        if k = k3 then some row' else some rowv := by
      unfold pyGet
      rw [hvlen, hk3]
      simp only [Option.some_bind]
      rw [List.getElem?_set]
      split
      · rw [if_pos (pyIdx_lt hk)]
      · exact hget3
    by_cases hkk : k = k3
    · rw [hread, if_pos hkk]
      have hrow_eq : rowv = row := by
        unfold pyGet at hrow
        rcases Option.bind_eq_some.mp hrow with ⟨k0, hk0, hget0⟩
        have hk0k : k0 = k := by
          rw [hk0] at hk
          exact Option.some_injective _ hk
        subst hk0k
        rw [hkk] at hget0
        rw [hget0] at hget3
        exact (Option.some_injective _ hget3).symm
      subst hrow_eq
      rcases pySet_eq_some hrow' with ⟨k2, hk2, rfl⟩
      simp only [Option.some_bind]
      unfold pyGet at hcv ⊢
      rcases Option.bind_eq_some.mp hcv with ⟨k4, hk4, hget4⟩
      rw [List.length_set, hk4]
      simp only [Option.some_bind]
      rw [List.getElem?_set]
      split
      · rw [if_pos (pyIdx_lt hk2)]; simp
      · rw [hget4]; simp
    · rw [hread, if_neg hkk]
      simp only [Option.some_bind]
      rw [hcv]
      simp
  · rw [if_neg hb] at hv
    cases hv

theorem in_bounds_iff {g : Grid} {r c : Int} :
    g.in_bounds r c = true ↔
      0 ≤ r ∧ r < (g.height : Int) ∧ 0 ≤ c ∧ c < (g.width : Int) := by
  unfold in_bounds
  simp [and_assoc]

/-- For an in-bounds cell, `setVisible` succeeds and sets exactly that bit. -/
theorem setVisible_inb_spec {g : Grid} (hwf : g.WFShape) {r c : Int}
    (h0 : 0 ≤ r) (h1 : r < (g.height : Int)) (h2 : 0 ≤ c) (h3 : c < (g.width : Int)) :
    ∃ g', g.setVisible r c = some g' ∧
      ∀ r' c', g'.is_visible r' c' =
        (g.is_visible r' c' || (decide (r' = r) && decide (c' = c))) := by
  obtain ⟨hg, hr, hv, hvr⟩ := hwf
  have hvlen : r.toNat < g.visible.length := by rw [hv]; omega
  rcases @pyGet_eq_some_of_inb _ g.visible _ h0 (by rw [hv]; exact_mod_cast h1)
    with ⟨row, hrow, hget⟩
  have hrowmem : row ∈ g.visible := List.getElem?_mem hget
  have hrlen : row.length = g.width := hvr row hrowmem
  have hrow' : pySet row c true = some (row.set c.toNat true) :=
    pySet_some_of_inb true h2 (by rw [hrlen]; exact_mod_cast h3)
  have hvis' : pySet g.visible r (row.set c.toNat true) =
      some (g.visible.set r.toNat (row.set c.toNat true)) :=
    pySet_some_of_inb _ h0 (by rw [hv]; exact_mod_cast h1)
  refine ⟨{ g with visible := g.visible.set r.toNat (row.set c.toNat true) }, ?_, ?_⟩
  · unfold setVisible
    rw [hrow, Option.some_bind, hrow', Option.some_bind, hvis']
    rfl
  · intro r' c'
    have hibg : g.in_bounds r c = true := in_bounds_iff.mpr ⟨h0, h1, h2, h3⟩
    by_cases hbb : g.in_bounds r' c' = true
    · rcases in_bounds_iff.mp hbb with ⟨hr0, hr1, hc0, hc1⟩
      have hbb' :
          Grid.in_bounds { g with visible := g.visible.set r.toNat (row.set c.toNat true) }
            r' c' = true := hbb
      unfold is_visible
      rw [if_pos hbb', if_pos hbb]
      show (((pyGet (g.visible.set r.toNat (row.set c.toNat true)) r').bind
          fun rw => pyGet rw c').getD false) = _
      unfold pyGet
      rw [List.length_set, pyIdx_of_inb hr0 (by rw [hv]; exact_mod_cast hr1)]
      simp only [Option.some_bind]
      rw [List.getElem?_set]
      by_cases hrr : r.toNat = r'.toNat
      · have hre : r' = r := by omega
        rw [if_pos hrr, if_pos hvlen]
        have hgr : g.visible[r'.toNat]? = some row := by
          have hx : r'.toNat = r.toNat := by omega
          rw [hx]; exact hget
        rw [hgr]
        simp only [Option.some_bind]
        rw [List.length_set, pyIdx_of_inb hc0 (by rw [hrlen]; exact_mod_cast hc1)]
        simp only [Option.some_bind]
        rw [List.getElem?_set]
        by_cases hcc : c.toNat = c'.toNat
        · have hce : c' = c := by omega
          rw [if_pos hcc, if_pos (by rw [hrlen]; omega)]
          simp [hre, hce]
        · have hce : ¬ c' = c := by omega
          rw [if_neg hcc]
          simp [hce]
      · have hre : ¬ r' = r := by omega
        rw [if_neg hrr]
        simp [hre]
    · have hbb' :
          Grid.in_bounds { g with visible := g.visible.set r.toNat (row.set c.toNat true) }
            r' c' = true ↔ g.in_bounds r' c' = true := Iff.rfl
      unfold is_visible
      rw [if_neg (fun hc => hbb (hbb'.mp hc)), if_neg hbb]
      have : ¬ (r' = r ∧ c' = c) := by
        intro ⟨ha, hb⟩
        exact hbb (ha ▸ hb ▸ hibg)
      simp only [Bool.false_or]
      rcases Decidable.not_and_iff_or_not.mp this with hna | hnb
      · simp [hna]
      · simp [hnb]

theorem revealLoop_fields {g g' : Grid} {rev rev' ns} (h : g.revealLoop rev ns = some (rev', g')) :
    g'.grid = g.grid ∧ g'.height = g.height ∧ g'.width = g.width ∧
      g'.start = g.start ∧ g'.goal = g.goal := by
  induction ns generalizing g rev with
  | nil =>
    unfold revealLoop at h
    cases h
    exact ⟨rfl, rfl, rfl, rfl, rfl⟩
  | cons n ns ih =>
    unfold revealLoop at h
    split at h
    · exact ih h
    · rename_i hvis
      rcases hset : g.setVisible n.1 n.2 with _ | g1
      · rw [hset] at h; cases h
      · rw [hset] at h
        rcases setVisible_fields hset with ⟨e1, e2, e3, e4, e5, _⟩
        rcases ih h with ⟨f1, f2, f3, f4, f5⟩
        exact ⟨f1.trans e1, f2.trans e2, f3.trans e3, f4.trans e4, f5.trans e5⟩

theorem revealLoop_mono {g g' : Grid} {rev rev' ns} (h : g.revealLoop rev ns = some (rev', g'))
    {r c : Int} (hv : g.is_visible r c = true) : g'.is_visible r c = true := by
  induction ns generalizing g rev with
  | nil =>
    unfold revealLoop at h
    cases h
    exact hv
  | cons n ns ih =>
    unfold revealLoop at h
    split at h
    · exact ih h hv
    · rcases hset : g.setVisible n.1 n.2 with _ | g1
      · rw [hset] at h; cases h
      · rw [hset] at h
        exact ih h (setVisible_mono hset hv)

/-- `reveal_from` never clears a visibility bit. -/
theorem reveal_from_mono {g g' : Grid} {pos : Coord} {rev}
    (h : g.reveal_from pos = some (rev, g')) {r c : Int}
    (hv : g.is_visible r c = true) : g'.is_visible r c = true := by
  unfold reveal_from at h
  split at h
  · cases h
  · split at h
    · exact revealLoop_mono h hv
    · rcases hset : g.setVisible pos.1 pos.2 with _ | g1
      · rw [hset] at h; cases h
      · rw [hset] at h
        exact revealLoop_mono h (setVisible_mono hset hv)

theorem neighbors4_inb {g : Grid} {r c : Int} {n : Coord}
    (h : n ∈ g.neighbors4 r c) : g.in_bounds n.1 n.2 = true := by
  unfold neighbors4 at h
  split at h
  · exact (List.mem_filter.mp h).2
  · cases h

theorem neighbors4_nodup (g : Grid) (r c : Int) : (g.neighbors4 r c).Nodup := by
  unfold neighbors4
  split
  · refine List.Nodup.filter _ ?_
    simp only [List.nodup_cons, List.mem_cons, List.mem_singleton, List.not_mem_nil,
      or_false, List.nodup_nil, and_true, Prod.mk.injEq, not_or, not_and]
    norm_num
    omega
  · exact List.nodup_nil

theorem neighbors4_ne {g : Grid} {r c : Int} {n : Coord}
    (h : n ∈ g.neighbors4 r c) : n ≠ (r, c) := by
  unfold neighbors4 at h
  split at h
  · have := (List.mem_filter.mp h).1
    simp only [List.mem_cons, List.mem_singleton, List.not_mem_nil, or_false] at this
    rcases this with h | h | h | h <;> · subst h; simp only [ne_eq, Prod.mk.injEq]; omega
  · cases h

/-- On a well-formed grid the double subscript read of the visibility mask
succeeds for an in-bounds cell and returns `is_visible`. -/
theorem is_visible_read {g : Grid} (hwf : g.WFShape) {r c : Int}
    (h0 : 0 ≤ r) (h1 : r < (g.height : Int)) (h2 : 0 ≤ c) (h3 : c < (g.width : Int)) :
    ((pyGet g.visible r).bind fun row => pyGet row c) = some (g.is_visible r c) := by
  obtain ⟨hg, hr, hv, hvr⟩ := hwf
  rcases @pyGet_eq_some_of_inb _ g.visible _ h0 (by rw [hv]; exact_mod_cast h1)
    with ⟨row, hrow, hget⟩
  have hrlen : row.length = g.width := hvr row (List.getElem?_mem hget)
  rcases @pyGet_eq_some_of_inb _ row _ h2 (by rw [hrlen]; exact_mod_cast h3)
    with ⟨b, hb, _⟩
  rw [hrow, Option.some_bind, hb]
  unfold is_visible
  rw [if_pos (in_bounds_iff.mpr ⟨h0, h1, h2, h3⟩), hrow, Option.some_bind, hb]
  rfl

/-- `revealLoop` over a duplicate-free list of in-bounds cells: it succeeds,
reveals exactly those cells, and appends exactly the previously hidden ones. -/
theorem revealLoop_inb_spec {g : Grid} (hwf : g.WFShape) {ns : List Coord}
    (hns : ∀ n ∈ ns, g.in_bounds n.1 n.2 = true) (hnd : ns.Nodup) (rev : List Coord) :
    ∃ rev' g', g.revealLoop rev ns = some (rev', g') ∧ g'.WFShape ∧
      (∀ r' c', g'.is_visible r' c' =
        (g.is_visible r' c' || decide ((r', c') ∈ ns))) ∧
      rev' = rev ++ ns.filter (fun n => !g.is_visible n.1 n.2) := by
  induction ns generalizing g rev with
  | nil =>
    exact ⟨rev, g, rfl, hwf, fun r' c' => by simp, by simp⟩
  | cons n ns ih =>
    have hinb := hns n (List.mem_cons_self n ns)
    rcases in_bounds_iff.mp hinb with ⟨a0, a1, a2, a3⟩
    by_cases hvis : g.is_visible n.1 n.2 = true
    · rcases ih hwf (fun m hm => hns m (List.mem_cons_of_mem n hm)) hnd.of_cons rev
        with ⟨rev', g', hrun, hwf', hvisF, hrevF⟩
      refine ⟨rev', g', ?_, hwf', ?_, ?_⟩
      · unfold revealLoop
        rw [if_pos hvis]
        exact hrun
      · intro r' c'
        rw [hvisF r' c']
        by_cases hq : ((r', c') : Coord) = n
        · have e1 : r' = n.1 := congrArg Prod.fst hq
          have e2 : c' = n.2 := congrArg Prod.snd hq
          have : g.is_visible r' c' = true := by rw [e1, e2]; exact hvis
          simp [this]
        · simp [List.mem_cons, hq]
      · rw [hrevF, List.filter_cons]
        simp [hvis]
    · have hvisf : g.is_visible n.1 n.2 = false := by
        cases hx : g.is_visible n.1 n.2
        · rfl
        · exact absurd hx hvis
      rcases setVisible_inb_spec hwf a0 a1 a2 a3 with ⟨g1, hset, hvis1⟩
      have hib1 : g1.in_bounds = g.in_bounds := setVisible_in_bounds hset
      rcases ih (setVisible_WFShape hwf hset)
          (fun m hm => by rw [hib1]; exact hns m (List.mem_cons_of_mem n hm))
          hnd.of_cons (rev ++ [n])
        with ⟨rev', g', hrun, hwf', hvisF, hrevF⟩
      refine ⟨rev', g', ?_, hwf', ?_, ?_⟩
      · unfold revealLoop
        rw [if_neg (by rw [hvisf]; exact Bool.false_ne_true), hset]
        exact hrun
      · intro r' c'
        rw [hvisF r' c', hvis1 r' c']
        by_cases hq : ((r', c') : Coord) = n
        · have e1 : r' = n.1 := congrArg Prod.fst hq
          have e2 : c' = n.2 := congrArg Prod.snd hq
          simp [e1, e2]
        · have e : ¬(r' = n.1 ∧ c' = n.2) := by
            intro ⟨x, y⟩
            exact hq (by rcases n with ⟨n1, n2⟩; simp_all)
          have hdec : (decide (r' = n.1) && decide (c' = n.2)) = false := by
            rcases Decidable.not_and_iff_or_not.mp e with hx | hx <;> simp [hx]
          simp [hdec, List.mem_cons, hq]
      · rw [hrevF, List.filter_cons]
        have hfe : ns.filter (fun m => !g1.is_visible m.1 m.2) =
            ns.filter (fun m => !g.is_visible m.1 m.2) := by
          refine List.filter_congr ?_
          intro m hm
          have hmn : m ≠ n := by
            intro he
            subst he
            exact (List.nodup_cons.mp hnd).1 hm
          have e : ¬(m.1 = n.1 ∧ m.2 = n.2) := by
            intro ⟨x, y⟩
            exact hmn (by rcases m with ⟨m1, m2⟩; rcases n with ⟨p1, p2⟩; simp_all)
          have hdec : (decide (m.1 = n.1) && decide (m.2 = n.2)) = false := by
            rcases Decidable.not_and_iff_or_not.mp e with hx | hx <;> simp [hx]
          rw [hvis1 m.1 m.2, hdec]
          simp
        rw [hfe, hvisf]
        simp

/-- `reveal_from` at an in-bounds position: full input/output characterisation. -/
theorem reveal_from_inb_spec {g : Grid} (hwf : g.WFShape) {pos : Coord}
    (hin : g.in_bounds pos.1 pos.2 = true) :
    ∃ rev g', g.reveal_from pos = some (rev, g') ∧ g'.WFShape ∧
      (∀ r' c', g'.is_visible r' c' =
        (g.is_visible r' c' || decide ((r', c') = pos) ||
          decide ((r', c') ∈ g.neighbors4 pos.1 pos.2))) ∧
      (∀ q : Coord, q ∈ rev ↔
        (g.is_visible q.1 q.2 = false ∧
          (q = pos ∨ q ∈ g.neighbors4 pos.1 pos.2))) := by
  rcases in_bounds_iff.mp hin with ⟨a0, a1, a2, a3⟩
  have hread := is_visible_read hwf a0 a1 a2 a3
  have hnb : ∀ n ∈ g.neighbors4 pos.1 pos.2, g.in_bounds n.1 n.2 = true :=
    fun n hn => neighbors4_inb hn
  have hnd := neighbors4_nodup g pos.1 pos.2
  by_cases hvis : g.is_visible pos.1 pos.2 = true
  · rcases revealLoop_inb_spec hwf hnb hnd [] with ⟨rev', g', hrun, hwf', hvisF, hrevF⟩
    refine ⟨rev', g', ?_, hwf', ?_, ?_⟩
    · unfold reveal_from
      rw [hread, hvis]
      exact hrun
    · intro r' c'
      rw [hvisF r' c']
      by_cases hq : ((r', c') : Coord) = pos
      · have e1 : r' = pos.1 := congrArg Prod.fst hq
        have e2 : c' = pos.2 := congrArg Prod.snd hq
        have : g.is_visible r' c' = true := by rw [e1, e2]; exact hvis
        simp [this]
      · simp [hq]
    · intro q
      rw [hrevF]
      simp only [List.nil_append, List.mem_filter, Bool.not_eq_true']
      constructor
      · rintro ⟨hmem, hq⟩
        exact ⟨hq, Or.inr hmem⟩
      · rintro ⟨hq, hqp | hmem⟩
        · subst hqp
          rw [hvis] at hq
          cases hq
        · exact ⟨hmem, hq⟩
  · have hvisf : g.is_visible pos.1 pos.2 = false := by
      cases hx : g.is_visible pos.1 pos.2
      · rfl
      · exact absurd hx hvis
    rcases setVisible_inb_spec hwf a0 a1 a2 a3 with ⟨g1, hset, hvis1⟩
    have hib1 : g1.in_bounds = g.in_bounds := setVisible_in_bounds hset
    have hvis1e : ∀ n ∈ g.neighbors4 pos.1 pos.2,
        g1.is_visible n.1 n.2 = g.is_visible n.1 n.2 := by
      intro n hn
      have hne := neighbors4_ne hn
      have e : ¬(n.1 = pos.1 ∧ n.2 = pos.2) := by
        intro ⟨x, y⟩
        exact hne (by rcases n with ⟨m1, m2⟩; rcases pos with ⟨p1, p2⟩; simp_all)
      have hdec : (decide (n.1 = pos.1) && decide (n.2 = pos.2)) = false := by
        rcases Decidable.not_and_iff_or_not.mp e with hx | hx <;> simp [hx]
      rw [hvis1 n.1 n.2, hdec]
      simp
    rcases revealLoop_inb_spec (setVisible_WFShape hwf hset)
        (fun m hm => by rw [hib1]; exact hnb m hm) hnd [pos]
      with ⟨rev', g', hrun, hwf', hvisF, hrevF⟩
    refine ⟨rev', g', ?_, hwf', ?_, ?_⟩
    · unfold reveal_from
      rw [hread, hvisf, hset]
      exact hrun
    · intro r' c'
      rw [hvisF r' c', hvis1 r' c']
      by_cases hq : ((r', c') : Coord) = pos
      · have e1 : r' = pos.1 := congrArg Prod.fst hq
        have e2 : c' = pos.2 := congrArg Prod.snd hq
        simp [e1, e2, hq]
      · have e : ¬(r' = pos.1 ∧ c' = pos.2) := by
          intro ⟨x, y⟩
          exact hq (by rcases pos with ⟨p1, p2⟩; simp_all)
        have hdec : (decide (r' = pos.1) && decide (c' = pos.2)) = false := by
          rcases Decidable.not_and_iff_or_not.mp e with hx | hx <;> simp [hx]
        simp [hdec, hq]
    · intro q
      rw [hrevF]
      have hfe : (g.neighbors4 pos.1 pos.2).filter (fun m => !g1.is_visible m.1 m.2) =
          (g.neighbors4 pos.1 pos.2).filter (fun m => !g.is_visible m.1 m.2) := by
        refine List.filter_congr ?_
        intro m hm
        rw [hvis1e m hm]
      rw [hfe]
      simp only [List.singleton_append, List.mem_cons, List.mem_filter,
        Bool.not_eq_true']
      constructor
      · rintro (hqp | ⟨hmem, hq⟩)
        · subst hqp
          exact ⟨hvisf, Or.inl rfl⟩
        · exact ⟨hq, Or.inr hmem⟩
      · rintro ⟨hq, hqp | hmem⟩
        · exact Or.inl hqp
        · exact Or.inr ⟨hmem, hq⟩

end Grid

/-- A sequence of `reveal_from` calls, each feeding the next (the returned
reveal lists are discarded). -/
def revealSeq (g : Grid) : List Coord → Option Grid
  | [] => some g
  | p :: ps =>
    match g.reveal_from p with
    | none => none
    | some (_, g') => revealSeq g' ps

theorem revealSeq_mono {g g' : Grid} {ps : List Coord} (h : revealSeq g ps = some g')
    {r c : Int} (hv : g.is_visible r c = true) : g'.is_visible r c = true := by
  induction ps generalizing g with
  | nil =>
    unfold revealSeq at h
    cases h
    exact hv
  | cons p ps ih =>
    unfold revealSeq at h
    rcases hrev : g.reveal_from p with _ | ⟨rev, g1⟩
    · rw [hrev] at h; cases h
    · rw [hrev] at h
      exact ih h (Grid.reveal_from_mono hrev hv)

/-- `demoGrid` with one cell already revealed. -/
def demoGridHalf : Grid :=
  { demoGrid with visible := [[true, false, false], [false, false, false]] }

/-- The state `reveal_from (0, 1)` produces from `demoGridHalf`. -/
def demoGridHalf2 : Grid :=
  { demoGrid with visible := [[true, true, true], [false, true, false]] }

/-- **C1** (Monotonic visibility): across any sequence of `reveal_from`
calls that runs without error, a visibility flag that is `True` is never
set back to `False` — the visible-tile set never shrinks.  (`reveal_from`
is the only operation that writes the mask at all.) -/
theorem claim_visibility_monotonic (g g' : Grid) (ps : List Coord)
    (h : revealSeq g ps = some g') (r c : Int)
    (hv : g.is_visible r c = true) : g'.is_visible r c = true :=
  revealSeq_mono h hv

/-- Witness for `claim_visibility_monotonic` on a concrete grid and a
two-call reveal sequence. -/
theorem claim_visibility_monotonic_witness :
    revealSeq demoGridHalf [(0, 1)] = some demoGridHalf2 ∧
      demoGridHalf2.is_visible 0 0 = true :=
  ⟨by decide,
    claim_visibility_monotonic demoGridHalf demoGridHalf2 [(0, 1)]
      (by decide) 0 0 (by decide)⟩

/-- **C2** (Reveal radius one): for an in-bounds `pos` on a well-formed grid,
`reveal_from pos` succeeds, makes visible exactly `pos` and its in-bounds
4-neighbours (walls included) on top of what was already visible, and
returns exactly the coordinates whose flag flipped from `False` to `True`. -/
theorem claim_reveal_radius_one (g : Grid) (pos : Coord) (hwf : g.WFShape)
    (hin : g.in_bounds pos.1 pos.2 = true) :
    ∃ rev g', g.reveal_from pos = some (rev, g') ∧
      (∀ q : Coord, g'.is_visible q.1 q.2 = true ↔
        (g.is_visible q.1 q.2 = true ∨ q = pos ∨ q ∈ g.neighbors4 pos.1 pos.2)) ∧
      (∀ q : Coord, q ∈ rev ↔
        (g.is_visible q.1 q.2 = false ∧ g'.is_visible q.1 q.2 = true)) := by
  rcases Grid.reveal_from_inb_spec hwf hin with ⟨rev, g', hrun, _, hvis, hrev⟩
  have hiff : ∀ q : Coord, g'.is_visible q.1 q.2 = true ↔
      (g.is_visible q.1 q.2 = true ∨ q = pos ∨ q ∈ g.neighbors4 pos.1 pos.2) := by
    intro q
    rw [hvis q.1 q.2]
    simp [or_assoc]
  refine ⟨rev, g', hrun, hiff, ?_⟩
  intro q
  rw [hrev q]
  constructor
  · rintro ⟨hq, hor⟩
    exact ⟨hq, (hiff q).mpr (by tauto)⟩
  · rintro ⟨hq, hq'⟩
    rcases (hiff q).mp hq' with hx | hx | hx
    · rw [hq] at hx; cases hx
    · exact ⟨hq, Or.inl hx⟩
    · exact ⟨hq, Or.inr hx⟩

/-- Witness for `claim_reveal_radius_one` at `demoGrid`, `pos = (0, 0)`. -/
theorem claim_reveal_radius_one_witness :
    ∃ rev g', demoGrid.reveal_from (0, 0) = some (rev, g') ∧
      (∀ q : Coord, g'.is_visible q.1 q.2 = true ↔
        (demoGrid.is_visible q.1 q.2 = true ∨ q = (0, 0) ∨
          q ∈ demoGrid.neighbors4 0 0)) ∧
      (∀ q : Coord, q ∈ rev ↔
        (demoGrid.is_visible q.1 q.2 = false ∧ g'.is_visible q.1 q.2 = true)) :=
  claim_reveal_radius_one demoGrid (0, 0) (by decide) (by decide)

/-- **C7** (code bug): the spec and the repository's own test
(`test_grid_oob.py` asserts `g.passable(r, c) is False` out of bounds)
require `passable` to return `False` out of bounds, but the Python method
falls through its `if` and returns `None` there.  In bounds it behaves as
specified. -/
theorem claim_passable_oob_returns_none :
    demoGrid.passable (-1) 0 = none ∧
      demoGrid.passable (-1) 0 ≠ some false ∧
      demoGrid.passable 2 0 = none ∧
      demoGrid.passable 0 3 = none ∧
      demoGrid.passable 0 0 = some true ∧
      demoGrid.passable 0 1 = some true ∧
      demoGrid.passable 0 2 = some true ∧
      demoGrid.passable 1 1 = some false := by
  decide

/-- **C8** (code bug): the spec says every post-construction grid operation
is total, but `reveal_from` indexes `self.visible[pos[0]][pos[1]]` without a
bounds check and raises `IndexError` whenever `pos` is outside Python's
index range `[-height, height) × [-width, width)`; inside the negative part
of that range it silently operates on the wrap-around alias instead. -/
theorem claim_reveal_from_not_total :
    demoGrid.reveal_from (2, 0) = none ∧
      demoGrid.reveal_from (0, 3) = none ∧
      demoGrid.reveal_from (-3, 0) = none ∧
      (demoGrid.reveal_from (-1, 0)).map Prod.fst = some [(-1, 0)] ∧
      (demoGrid.reveal_from (0, 0)).isSome = true := by
  decide

/-! ## Agent lemmas -/

namespace Agent

theorem mem_insertS {x y : Coord} {s : List Coord} (h : x ∈ s) : x ∈ insertS y s := by
  unfold insertS
  split
  · exact h
  · exact List.mem_cons_of_mem y h

theorem classifyLoop_superset {g : Grid} {ps kp kw kp' kw' : List Coord}
    (h : classifyLoop g ps kp kw = some (kp', kw')) :
    (∀ x ∈ kp, x ∈ kp') ∧ (∀ x ∈ kw, x ∈ kw') := by
  induction ps generalizing kp kw with
  | nil =>
    unfold classifyLoop at h
    cases h
    exact ⟨fun x hx => hx, fun x hx => hx⟩
  | cons p ps ih =>
    unfold classifyLoop at h
    split at h
    · cases h
    · split at h
      · rcases ih h with ⟨h1, h2⟩
        exact ⟨h1, fun x hx => h2 x (mem_insertS hx)⟩
      · rcases ih h with ⟨h1, h2⟩
        exact ⟨fun x hx => h1 x (mem_insertS hx), h2⟩

/-- `perceive` touches only the grid's mask and the agent's known sets,
and those sets only grow. -/
theorem perceive_spec {g g' : Grid} {s s' : AgentState} (h : perceive g s = some (g', s')) :
    s'.current = s.current ∧ s'.goal = s.goal ∧ s'.start = s.start ∧
      s'.full_map = s.full_map ∧ s'.metrics = s.metrics ∧
      s'.current_plan = s.current_plan ∧
      (∀ x ∈ s.known_passable, x ∈ s'.known_passable) ∧
      (∀ x ∈ s.known_walls, x ∈ s'.known_walls) := by
  unfold perceive at h
  split at h
  · cases h
  · split at h
    · cases h
    · rename_i newly g1 heq kpw hcl
      cases h
      rcases classifyLoop_superset hcl with ⟨h1, h2⟩
      exact ⟨rfl, rfl, rfl, rfl, rfl, rfl, h1, h2⟩

/-- The perceive phase of `step` (identity in full-map mode); stated for an
arbitrary boolean condition so it applies after field reduction. -/
theorem perceivePhase_spec {b : Bool} {g g' : Grid} {s s' : AgentState}
    (h : (if b then some (g, s) else perceive g s) = some (g', s')) :
    s'.current = s.current ∧ s'.goal = s.goal ∧ s'.start = s.start ∧
      s'.full_map = s.full_map ∧ s'.metrics = s.metrics ∧
      s'.current_plan = s.current_plan ∧
      (∀ x ∈ s.known_passable, x ∈ s'.known_passable) ∧
      (∀ x ∈ s.known_walls, x ∈ s'.known_walls) := by
  by_cases hfm : b = true
  · rw [if_pos hfm] at h
    cases h
    exact ⟨rfl, rfl, rfl, rfl, rfl, rfl, fun x hx => hx, fun x hx => hx⟩
  · rw [if_neg hfm] at h
    exact perceive_spec h

/-- **C6** (Replan counting without movement): when `step()` runs with a
current plan of length ≥ 2 whose next coordinate is already a known wall
(and the agent is not standing on the goal, where `step` terminates the run
instead of acting), it increments `replans` by exactly one, clears the plan,
returns the continue signal, and leaves the position, step count and
`path_taken` unchanged. -/
theorem claim_replan_counting (search : SearchFn) (cfFuel : Nat) (g g' : Grid)
    (s s' : AgentState) (cont : Bool) (nxt : Coord)
    (hplan : s.current_plan.get? 1 = some nxt)
    (hwall : nxt ∈ s.known_walls)
    (hne : s.current ≠ s.goal)
    (hstep : step search cfFuel g s = some ((g', s'), cont)) :
    cont = true ∧
      s'.metrics.replans = s.metrics.replans + 1 ∧
      s'.current_plan = [] ∧
      s'.current = s.current ∧
      s'.metrics.steps = s.metrics.steps ∧
      s'.metrics.path_taken = s.metrics.path_taken := by
  unfold step at hstep
  rcases hpp : (if s.full_map then some (g, s) else perceive g s) with _ | ⟨g1, s1⟩
  · rw [hpp] at hstep
    cases hstep
  · rw [hpp] at hstep
    dsimp only at hstep
    rcases perceivePhase_spec hpp with ⟨e1, e2, e3, _, e5, e6, _, hkw⟩
    have hne1 : ¬(s1.current = s1.goal) := by
      rw [e1, e2]
      exact hne
    rw [if_neg hne1] at hstep
    rcases hcp : s.current_plan with _ | ⟨a, t⟩
    · rw [hcp] at hplan
      cases hplan
    · rcases ht : t with _ | ⟨b, t2⟩
      · rw [hcp, ht] at hplan
        cases hplan
      · rw [ht] at hcp
        have hb : b = nxt := by
          rw [hcp] at hplan
          simpa using hplan
        have hplan1 : s1.current_plan = a :: b :: t2 := by rw [e6, hcp]
        have hpl : planPhase search cfFuel g1 s1 = some (some s1) := by
          unfold planPhase
          rw [hplan1]
          rfl
        rw [hpl] at hstep
        dsimp only at hstep
        unfold actPhase at hstep
        rw [hplan1] at hstep
        dsimp only at hstep
        have hbw : b ∈ s1.known_walls := hkw b (hb ▸ hwall)
        rw [if_pos hbw] at hstep
        rcases hstep
        refine ⟨rfl, ?_, rfl, e1, ?_, ?_⟩
        · rw [e5]
        · rw [e5]
        · rw [e5]

/-- A full-knowledge agent state on `demoGrid` holding a plan whose next
coordinate is the known wall `(1, 1)`. -/
def c6State : AgentState :=
  { start := (0, 0), goal := (0, 2), current := (0, 0), full_map := true,
    known_passable := (fullScan demoGrid).1, known_walls := (fullScan demoGrid).2,
    metrics := Metrics.init (0, 0) (0, 2), current_plan := [(0, 0), (1, 1)] }

/-- The state `claim_replan_counting` predicts `step` produces from `c6State`. -/
def c6State' : AgentState :=
  { c6State with metrics := { c6State.metrics with replans := 1 }, current_plan := [] }

/-- Witness for `claim_replan_counting` on a concrete state. -/
theorem claim_replan_counting_witness :
    c6State.current_plan.get? 1 = some ((1, 1) : Coord) ∧
      ((1, 1) : Coord) ∈ c6State.known_walls ∧
      c6State.current ≠ c6State.goal ∧
      step (astarSearch 8) 8 demoGrid c6State = some ((demoGrid, c6State'), true) ∧
      (true = true ∧
        c6State'.metrics.replans = c6State.metrics.replans + 1 ∧
        c6State'.current_plan = [] ∧
        c6State'.current = c6State.current ∧
        c6State'.metrics.steps = c6State.metrics.steps ∧
        c6State'.metrics.path_taken = c6State.metrics.path_taken) :=
  ⟨by decide, by decide, by decide, by decide,
    claim_replan_counting (astarSearch 8) 8 demoGrid demoGrid c6State c6State' true (1, 1)
      (by decide) (by decide) (by decide) (by decide)⟩

/-! ### Metrics bookkeeping -/

/-- The bookkeeping invariant tying `path_taken` to `start`, `current` and
`steps`. -/
def MetricsInv (s : AgentState) : Prop :=
  s.metrics.start = s.start ∧
    s.metrics.path_taken.head? = some s.start ∧
    s.metrics.path_taken.getLast? = some s.current ∧
    s.metrics.path_taken.length = s.metrics.steps + 1

instance : DecidablePred MetricsInv := fun s => by
  unfold MetricsInv; infer_instance

theorem mkAgent_MetricsInv {g : Grid} {fm : Bool} {g0 : Grid} {s0 : AgentState}
    (h : mkAgent g fm = some (g0, s0)) : MetricsInv s0 := by
  unfold mkAgent at h
  split at h
  · cases h
    exact ⟨rfl, rfl, rfl, rfl⟩
  · split at h
    · cases h
    · split at h
      · cases h
      · cases h
        exact ⟨rfl, rfl, rfl, rfl⟩

/-- The planning block only installs a plan. -/
theorem planPhase_spec {search : SearchFn} {cfFuel : Nat} {g1 : Grid}
    {s1 s2 : AgentState} (h : planPhase search cfFuel g1 s1 = some (some s2)) :
    s2.current = s1.current ∧ s2.goal = s1.goal ∧ s2.start = s1.start ∧
      s2.full_map = s1.full_map ∧ s2.metrics = s1.metrics ∧
      s2.known_passable = s1.known_passable ∧ s2.known_walls = s1.known_walls := by
  unfold planPhase at h
  split at h
  · split at h
    · cases h
    · split at h
      · cases h
        exact ⟨rfl, rfl, rfl, rfl, rfl, rfl, rfl⟩
      · split at h
        · cases h
        · cases h
        · split at h
          · cases h
          · split at h
            · cases h
              exact ⟨rfl, rfl, rfl, rfl, rfl, rfl, rfl⟩
            · cases h
  · cases h
    exact ⟨rfl, rfl, rfl, rfl, rfl, rfl, rfl⟩

theorem actPhase_MetricsInv {g1 : Grid} {s2 : AgentState}
    {r : (Grid × AgentState) × Bool} (hinv : MetricsInv s2)
    (h : actPhase g1 s2 = some r) : MetricsInv r.1.2 := by
  obtain ⟨i1, i2, i3, i4⟩ := hinv
  have hne : s2.metrics.path_taken ≠ [] := by
    intro hx
    rw [hx] at i2
    cases i2
  rcases hcp : s2.current_plan with _ | ⟨n0, t⟩
  · unfold actPhase at h
    rw [hcp] at h
    dsimp only at h
    cases h
    exact ⟨i1, i2, i3, i4⟩
  · rcases t with _ | ⟨n1, rest⟩
    · unfold actPhase at h
      rw [hcp] at h
      dsimp only at h
      cases h
      exact ⟨i1, i2, i3, i4⟩
    · unfold actPhase at h
      rw [hcp] at h
      dsimp only at h
      split at h
      · cases h
        exact ⟨i1, i2, i3, i4⟩
      · split at h
        · cases h
        · rename_i g2 s4 heq
          cases h
          rcases perceivePhase_spec heq with ⟨e1, _, e3, _, e5, _, _, _⟩
          refine ⟨?_, ?_, ?_, ?_⟩
          · rw [e5, e3]
            exact i1
          · rw [e5, e3]
            simpa [List.head?_append_of_ne_nil _ hne] using i2
          · rw [e5, e1]
            simp [List.getLast?_concat]
          · rw [e5]
            simp [i4]

theorem step_MetricsInv {search : SearchFn} {cfFuel : Nat} {g : Grid}
    {s : AgentState} {r : (Grid × AgentState) × Bool} (hinv : MetricsInv s)
    (h : step search cfFuel g s = some r) : MetricsInv r.1.2 := by
  obtain ⟨i1, i2, i3, i4⟩ := hinv
  unfold step at h
  rcases hpp : (if s.full_map then some (g, s) else perceive g s) with _ | ⟨g1, s1⟩
  · rw [hpp] at h
    cases h
  · rw [hpp] at h
    dsimp only at h
    rcases perceivePhase_spec hpp with ⟨e1, _, e3, _, e5, _, _, _⟩
    have hinv1 : MetricsInv s1 :=
      ⟨by rw [e5, e3]; exact i1, by rw [e5, e3]; exact i2,
        by rw [e5, e1]; exact i3, by rw [e5]; exact i4⟩
    obtain ⟨j1, j2, j3, j4⟩ := hinv1
    split at h
    · cases h
      exact ⟨j1, j2, j3, j4⟩
    · rcases hpl : planPhase search cfFuel g1 s1 with _ | s2opt
      · rw [hpl] at h
        cases h
      · rw [hpl] at h
        rcases s2opt with _ | s2
        · cases h
          exact ⟨j1, j2, j3, j4⟩
        · rcases planPhase_spec hpl with ⟨p1, _, p3, _, p5, _, _⟩
          exact actPhase_MetricsInv
            ⟨by rw [p5, p3]; exact j1, by rw [p5, p3]; exact j2,
              by rw [p5, p1]; exact j3, by rw [p5]; exact j4⟩ h

theorem runAux_MetricsInv {search : SearchFn} {cfFuel n : Nat} {g : Grid}
    {s : AgentState} {g' : Grid} {s' : AgentState} (hinv : MetricsInv s)
    (h : runAux search cfFuel n g s = some (g', s')) : MetricsInv s' := by
  induction n generalizing g s with
  | zero =>
    unfold runAux at h
    cases h
    exact hinv
  | succ n ih =>
    unfold runAux at h
    rcases hst : step search cfFuel g s with _ | ⟨⟨g1, s1⟩, cont⟩
    · rw [hst] at h
      cases h
    · rw [hst] at h
      have hinv1 : MetricsInv s1 := step_MetricsInv hinv hst
      rcases cont with _ | _
      · simp only [if_neg] at h
        cases h
        exact hinv1
      · simp only [if_pos] at h
        exact ih hinv1 h

/-- **C10** (Metrics bookkeeping): after construction and after every
successful `step()`, `path_taken` starts at the start coordinate, ends at
the agent's current position, and has length `steps + 1`; consequently
`run()` finalizes `cost = steps`. -/
theorem claim_metrics_bookkeeping :
    (∀ (g : Grid) (fm : Bool) (g0 : Grid) (s0 : AgentState),
      mkAgent g fm = some (g0, s0) → MetricsInv s0) ∧
    (∀ (search : SearchFn) (cfFuel : Nat) (g : Grid) (s : AgentState)
      (r : (Grid × AgentState) × Bool), MetricsInv s →
      step search cfFuel g s = some r → MetricsInv r.1.2) ∧
    (∀ (search : SearchFn) (cfFuel n : Nat) (g : Grid) (s : AgentState)
      (g' : Grid) (s' : AgentState), MetricsInv s →
      run search cfFuel g s n = some (g', s') →
      MetricsInv s' ∧ s'.metrics.cost = s'.metrics.steps) := by
  refine ⟨fun g fm g0 s0 h => mkAgent_MetricsInv h,
    fun search cfFuel g s r hinv h => step_MetricsInv hinv h,
    fun search cfFuel n g s g' s' hinv h => ?_⟩
  unfold run at h
  rcases haux : runAux search cfFuel n g s with _ | ⟨gx, sx⟩
  · rw [haux] at h
    cases h
  · rw [haux] at h
    obtain ⟨i1, i2, i3, i4⟩ := runAux_MetricsInv hinv haux
    have hne : sx.metrics.path_taken ≠ [] := by
      intro hx
      rw [hx] at i2
      cases i2
    have hempty : sx.metrics.path_taken.isEmpty = false := by
      rcases hpt : sx.metrics.path_taken with _ | _
      · exact absurd hpt hne
      · rfl
    simp only [Option.map_some'] at h
    rw [hempty] at h
    cases h
    refine ⟨⟨i1, i2, i3, ?_⟩, ?_⟩
    · simpa using i4
    · simp only []
      rw [i4]
      simp

/-- Witness for `claim_metrics_bookkeeping`: a fog-mode construction and a
full run on `demoGrid`. -/
theorem claim_metrics_bookkeeping_witness :
    ∃ (g0 : Grid) (s0 : AgentState), mkAgent demoGrid false = some (g0, s0) ∧
      MetricsInv s0 ∧
      ∃ pr, (do
          let gs0 ← mkAgent demoGrid false
          run (astarSearch 32) 32 gs0.1 gs0.2 20) = some pr ∧
        MetricsInv pr.2 ∧ pr.2.metrics.cost = pr.2.metrics.steps := by
  rcases hmk : mkAgent demoGrid false with _ | ⟨g0, s0⟩
  · exact absurd hmk (by decide)
  · have hs : (do
        let gs0 ← mkAgent demoGrid false
        run (astarSearch 32) 32 gs0.1 gs0.2 20).isSome = true := by decide
    rcases hrun : (do
        let gs0 ← mkAgent demoGrid false
        run (astarSearch 32) 32 gs0.1 gs0.2 20) with _ | pr
    · rw [hrun] at hs
      cases hs
    · have hrun' : run (astarSearch 32) 32 g0 s0 20 = some pr := by
        rw [hmk] at hrun
        simpa using hrun
      have hinv0 : MetricsInv s0 := claim_metrics_bookkeeping.1 demoGrid false g0 s0 hmk
      rcases claim_metrics_bookkeeping.2.2 (astarSearch 32) 32 20 g0 s0 pr.1 pr.2
          hinv0 (by simpa using hrun') with ⟨ha, hb⟩
      exact ⟨g0, s0, rfl, hinv0, pr, by simpa using hrun', ha, hb⟩

end Agent

/-! ## Instrumentation fidelity -/

namespace Search

theorem bfsCAux_fst (N : Coord → List Coord) (start goal : Coord) :
    ∀ (fuel : Nat) (q vis : List Coord) (cf : List (Coord × Coord)) (cnt : Nat),
      (bfsCAux N start goal fuel q vis cf cnt).map Prod.fst =
        bfsAux N start goal fuel q vis cf := by
  intro fuel
  induction fuel with
  | zero => intro q vis cf cnt; rfl
  | succ fuel ih =>
    intro q vis cf cnt
    rcases q with _ | ⟨current, qs⟩
    · rfl
    · unfold bfsCAux bfsAux
      by_cases hg : current = goal
      · rw [if_pos hg, if_pos hg]
        cases reconstruct_path cf start goal <;> rfl
      · rw [if_neg hg, if_neg hg]
        rcases hf : bfsNbrFold current (N current) (qs, vis, cf) with ⟨q', vis', cf'⟩
        dsimp only
        exact ih q' vis' cf' (cnt + 1)

theorem dfsCAux_fst (N : Coord → List Coord) (start goal : Coord) :
    ∀ (fuel : Nat) (st vis : List Coord) (cf : List (Coord × Coord)) (cnt : Nat),
      (dfsCAux N start goal fuel st vis cf cnt).map Prod.fst =
        dfsAux N start goal fuel st vis cf := by
  intro fuel
  induction fuel with
  | zero => intro st vis cf cnt; rfl
  | succ fuel ih =>
    intro st vis cf cnt
    rcases st with _ | ⟨current, ss⟩
    · rfl
    · unfold dfsCAux dfsAux
      by_cases hg : current = goal
      · rw [if_pos hg, if_pos hg]
        cases reconstruct_path cf start goal <;> rfl
      · rw [if_neg hg, if_neg hg]
        rcases hf : dfsNbrFold current (N current) (ss, vis, cf) with ⟨st', vis', cf'⟩
        dsimp only
        exact ih st' vis' cf' (cnt + 1)

theorem ucsCAux_fst (N : Coord → List Coord) (start goal : Coord) :
    ∀ (fuel : Nat) (frontier : List (Nat × Coord)) (cf : List (Coord × Coord))
      (csf : List (Coord × Nat)) (evs : List HeapEvent) (cnt : Nat),
      (ucsCAux N start goal fuel frontier cf csf evs cnt).map Prod.fst =
        (ucsAux N start goal fuel frontier cf csf evs).map Prod.fst := by
  intro fuel
  induction fuel with
  | zero => intro frontier cf csf evs cnt; rfl
  | succ fuel ih =>
    intro frontier cf csf evs cnt
    unfold ucsCAux ucsAux
    rcases hp : popMin frontier with _ | ⟨⟨k, current⟩, rest⟩
    · rfl
    · dsimp only
      by_cases hg : current = goal
      · rw [if_pos hg, if_pos hg]
        cases reconstruct_path cf start goal <;> rfl
      · rw [if_neg hg, if_neg hg]
        rcases hr : ucsRelaxLoop current (N current) rest cf csf
            (evs ++ [HeapEvent.pop k current]) with _ | ⟨f', cf', csf', evs''⟩
        · rfl
        · exact ih f' cf' csf' evs'' (cnt + 1)

theorem astarCAux_fst (N : Coord → List Coord) (start goal : Coord) :
    ∀ (fuel : Nat) (frontier : List (Nat × Coord)) (cf : List (Coord × Coord))
      (gs : List (Coord × Nat)) (cnt : Nat),
      (astarCAux N start goal fuel frontier cf gs cnt).map Prod.fst =
        astarAux N start goal fuel frontier cf gs := by
  intro fuel
  induction fuel with
  | zero => intro frontier cf gs cnt; rfl
  | succ fuel ih =>
    intro frontier cf gs cnt
    unfold astarCAux astarAux
    rcases hp : popMin frontier with _ | ⟨⟨k, current⟩, rest⟩
    · rfl
    · dsimp only
      by_cases hg : current = goal
      · rw [if_pos hg, if_pos hg]
        cases reconstruct_path cf start goal <;> rfl
      · rw [if_neg hg, if_neg hg]
        rcases hr : astarRelaxLoop goal current (N current) rest cf gs
          with _ | ⟨f', cf', gs'⟩
        · rfl
        · exact ih f' cf' gs' (cnt + 1)

theorem greedyCAux_fst (N : Coord → List Coord) (start goal : Coord) :
    ∀ (fuel : Nat) (frontier : List (Nat × Coord)) (vis : List Coord)
      (cf : List (Coord × Coord)) (cnt : Nat),
      (greedyCAux N start goal fuel frontier vis cf cnt).map Prod.fst =
        greedyAux N start goal fuel frontier vis cf := by
  intro fuel
  induction fuel with
  | zero => intro frontier vis cf cnt; rfl
  | succ fuel ih =>
    intro frontier vis cf cnt
    unfold greedyCAux greedyAux
    rcases hp : popMin frontier with _ | ⟨⟨k, current⟩, rest⟩
    · rfl
    · dsimp only
      by_cases hg : current = goal
      · rw [if_pos hg, if_pos hg]
        cases reconstruct_path cf start goal <;> rfl
      · rw [if_neg hg, if_neg hg]
        rcases hf : greedyNbrFold goal current (N current) (rest, vis, cf)
          with ⟨f', vis', cf'⟩
        dsimp only
        exact ih f' vis' cf' (cnt + 1)

/-- The `path` field of an assembled `SearchResult` is the first component
of the counted run. -/
theorem map_path_mk (x : Option (List Coord × Nat)) :
    (x.map mkSearchResult).map SearchResult.path = x.map Prod.fst := by
  cases x <;> rfl

end Search

/-- **C4** (Instrumentation fidelity): for every `(start, goal, neighbour
function)` and fuel, the `path` field of each `*_neighbors_with_stats`
result equals the plain algorithm's return value, for all five algorithms
(the counted neighbour closure never changes search order or outcome). -/
theorem claim_instrumentation_fidelity (start goal : Coord)
    (N : Coord → List Coord) (fuel : Nat) :
    (Search.bfs_neighbors_with_stats start goal N fuel).map Search.SearchResult.path =
        Search.bfs_neighbors start goal N fuel ∧
      (Search.dfs_neighbors_with_stats start goal N fuel).map Search.SearchResult.path =
        Search.dfs_neighbors start goal N fuel ∧
      (Search.ucs_neighbors_with_stats start goal N fuel).map Search.SearchResult.path =
        Search.ucs_neighbors start goal N fuel ∧
      (Search.astar_neighbors_with_stats start goal N fuel).map Search.SearchResult.path =
        Search.astar_neighbors start goal N fuel ∧
      (Search.greedy_neighbors_with_stats start goal N fuel).map Search.SearchResult.path =
        Search.greedy_neighbors start goal N fuel := by
  refine ⟨?_, ?_, ?_, ?_, ?_⟩
  · unfold Search.bfs_neighbors_with_stats Search.bfs_neighbors
    rw [Search.map_path_mk]
    exact Search.bfsCAux_fst N start goal fuel [start] [start] [] 0
  · unfold Search.dfs_neighbors_with_stats Search.dfs_neighbors
    rw [Search.map_path_mk]
    exact Search.dfsCAux_fst N start goal fuel [start] [start] [] 0
  · unfold Search.ucs_neighbors_with_stats Search.ucs_neighbors Search.ucsRun
    rw [Search.map_path_mk]
    exact Search.ucsCAux_fst N start goal fuel [(0, start)] [] [(start, 0)]
      [Search.HeapEvent.push 0 start] 0
  · unfold Search.astar_neighbors_with_stats Search.astar_neighbors
    rw [Search.map_path_mk]
    exact Search.astarCAux_fst N start goal fuel [(0, start)] [] [(start, 0)] 0
  · unfold Search.greedy_neighbors_with_stats Search.greedy_neighbors
    rw [Search.map_path_mk]
    exact Search.greedyCAux_fst N start goal fuel
      [(Search.manhattan start goal, start)] [start] [] 0

/-! ## UCS tie-breaking -/

namespace Search

/-- The non-strict version of the heap tuple order, as a proposition. -/
def leKey (a b : Nat × Coord) : Prop :=
  a.1 < b.1 ∨ (a.1 = b.1 ∧ (a.2.1 < b.2.1 ∨ (a.2.1 = b.2.1 ∧ a.2.2 ≤ b.2.2)))

theorem keyLt_false_iff (a b : Nat × Coord) : keyLt a b = false ↔ leKey b a := by
  rcases a with ⟨ka, ra, ca⟩
  rcases b with ⟨kb, rb, cb⟩
  unfold keyLt leKey
  simp only [Bool.or_eq_false_iff, Bool.and_eq_false_iff, decide_eq_false_iff_not,
    not_lt, Bool.or_eq_true, Bool.and_eq_true, decide_eq_true_eq]
  constructor
  · intro h
    omega
  · intro h
    omega

theorem keyLt_true_iff (a b : Nat × Coord) : keyLt a b = true ↔
    (a.1 < b.1 ∨ (a.1 = b.1 ∧ (a.2.1 < b.2.1 ∨ (a.2.1 = b.2.1 ∧ a.2.2 < b.2.2)))) := by
  rcases a with ⟨ka, ra, ca⟩
  rcases b with ⟨kb, rb, cb⟩
  unfold keyLt
  simp only [Bool.or_eq_true, Bool.and_eq_true, decide_eq_true_eq]

theorem leKey_refl (a : Nat × Coord) : leKey a a := by
  unfold leKey
  omega

theorem leKey_of_keyLt {a b : Nat × Coord} (h : keyLt a b = true) : leKey a b := by
  have hx := (keyLt_true_iff a b).mp h
  unfold leKey
  omega

theorem leKey_trans {a b c : Nat × Coord} (h1 : leKey a b) (h2 : leKey b c) :
    leKey a c := by
  unfold leKey at *
  omega

theorem popMin_none_iff (l : List (Nat × Coord)) : popMin l = none ↔ l = [] := by
  cases l with
  | nil => simp [popMin]
  | cons e es =>
    simp only [popMin]
    rcases popMin es with _ | ⟨m, rest⟩
    · simp
    · dsimp only
      split <;> simp

theorem popMin_spec {l : List (Nat × Coord)} {m : Nat × Coord}
    {rest : List (Nat × Coord)} (h : popMin l = some (m, rest)) :
    m ∈ l ∧ ∀ e ∈ l, leKey m e := by
  induction l generalizing m rest with
  | nil => cases h
  | cons e es ih =>
    unfold popMin at h
    rcases hp : popMin es with _ | ⟨m', rest'⟩
    · rw [hp] at h
      have hes : es = [] := (popMin_none_iff es).mp hp
      cases h
      subst hes
      refine ⟨List.mem_singleton_self _, ?_⟩
      intro x hx
      rcases List.mem_singleton.mp hx with rfl
      exact leKey_refl _
    · rw [hp] at h
      dsimp only at h
      rcases ih hp with ⟨hmem', hle'⟩
      by_cases hlt : keyLt m' e = true
      · rw [if_pos hlt] at h
        cases h
        refine ⟨List.mem_cons_of_mem e hmem', ?_⟩
        intro x hx
        rcases List.mem_cons.mp hx with rfl | hx
        · -- the recursive minimum is strictly below the head
          exact leKey_of_keyLt hlt
        · exact hle' x hx
      · have hlf : keyLt m' e = false := by
          cases hx : keyLt m' e
          · rfl
          · exact absurd hx hlt
        rw [hlf] at h
        simp only [Bool.false_eq_true, if_false] at h
        cases h
        refine ⟨List.mem_cons_self _ _, ?_⟩
        intro x hx
        rcases List.mem_cons.mp hx with rfl | hx
        · exact leKey_refl _
        · exact leKey_trans ((keyLt_false_iff _ _).mp hlf) (hle' x hx)

end Search

/-- The neighbour function of the C9 counterexample graph: the start has the
two equal-cost successors `(1, 0)` (listed, hence pushed, first) and
`(0, 1)`. -/
def c9N : Coord → List Coord :=
  fun p => if p = ((0 : Int), (0 : Int)) then [(1, 0), (0, 1)] else []

/-- **C9** (counterexample): in the UCS run on `c9N`, the entries
`(1, (1, 0))` and `(1, (0, 1))` carry the same accumulated cost and
`(1, (1, 0))` is pushed first, yet `(1, (0, 1))` is popped first — Python's
`heapq` breaks cost ties by comparing the coordinate tuples, not by
insertion order. -/
theorem claim_ucs_tiebreak_counterexample :
    Search.ucsTrace (0, 0) (9, 9) c9N 10 =
      some [Search.HeapEvent.push 0 (0, 0), Search.HeapEvent.pop 0 (0, 0),
        Search.HeapEvent.push 1 (1, 0), Search.HeapEvent.push 1 (0, 1),
        Search.HeapEvent.pop 1 (0, 1), Search.HeapEvent.pop 1 (1, 0)] ∧
      ∀ tr ∈ Search.ucsTrace (0, 0) (9, 9) c9N 10,
        tr.indexOf (Search.HeapEvent.push 1 (1, 0)) <
            tr.indexOf (Search.HeapEvent.push 1 (0, 1)) ∧
          tr.indexOf (Search.HeapEvent.pop 1 (0, 1)) <
            tr.indexOf (Search.HeapEvent.pop 1 (1, 0)) := by
  decide

/-- **C9** (amended): the UCS frontier is popped via `popMin`, which removes
an entry of the frontier that is least in the Python tuple order
`(cost, (row, col))` — so among equal accumulated costs the lexicographically
smallest coordinate pops first, regardless of insertion order. -/
theorem claim_ucs_tiebreak_lex (frontier : List (Nat × Coord))
    (m : Nat × Coord) (rest : List (Nat × Coord))
    (h : Search.popMin frontier = some (m, rest)) :
    m ∈ frontier ∧ ∀ e ∈ frontier, Search.leKey m e :=
  Search.popMin_spec h

/-- The tied two-entry frontier arising in the counterexample run. -/
def c9Frontier : List (Nat × Coord) := [(1, (1, 0)), (1, (0, 1))]

/-! ## Graph reachability over a neighbour function -/

namespace Search

/-- `n`-step reachability in the directed graph induced by a neighbour
function. -/
inductive Reaches (N : Coord → List Coord) (s : Coord) : Coord → Nat → Prop where
  | refl : Reaches N s s 0
  | step {u v : Coord} {n : Nat} :
      Reaches N s u n → v ∈ N u → Reaches N s v (n + 1)

/-- Some number of steps reaches `v`. -/
def Reachable (N : Coord → List Coord) (s v : Coord) : Prop :=
  ∃ n, Reaches N s v n

/-- `d` is the least step count reaching `v`. -/
def MinDist (N : Coord → List Coord) (s v : Coord) (d : Nat) : Prop :=
  Reaches N s v d ∧ ∀ m, Reaches N s v m → d ≤ m

/-- The shortest-path metric (junk value `0` when unreachable). -/
noncomputable def dist (N : Coord → List Coord) (s v : Coord) : Nat :=
  sInf { n | Reaches N s v n }

theorem MinDist_dist {N : Coord → List Coord} {s v : Coord}
    (h : Reachable N s v) : MinDist N s v (dist N s v) := by
  rcases h with ⟨n, hn⟩
  have hne : { n | Reaches N s v n }.Nonempty := ⟨n, hn⟩
  exact ⟨Nat.sInf_mem hne, fun m hm => Nat.sInf_le hm⟩

theorem MinDist_unique {N : Coord → List Coord} {s v : Coord} {d d' : Nat}
    (h : MinDist N s v d) (h' : MinDist N s v d') : d = d' :=
  Nat.le_antisymm (h.2 d' h'.1) (h'.2 d h.1)

theorem dist_eq_of_MinDist {N : Coord → List Coord} {s v : Coord} {d : Nat}
    (h : MinDist N s v d) : dist N s v = d :=
  MinDist_unique (MinDist_dist ⟨d, h.1⟩) h

theorem reaches_zero {N : Coord → List Coord} {s v : Coord}
    (h : Reaches N s v 0) : v = s := by
  cases h
  rfl

theorem reaches_succ {N : Coord → List Coord} {s v : Coord} {n : Nat}
    (h : Reaches N s v (n + 1)) : ∃ u, Reaches N s u n ∧ v ∈ N u := by
  cases h with
  | step hu he => exact ⟨_, hu, he⟩

theorem dist_s {N : Coord → List Coord} (s : Coord) : dist N s s = 0 :=
  dist_eq_of_MinDist ⟨Reaches.refl, fun m _ => Nat.zero_le m⟩

/-- A nonrepeating description of the inclusive coordinate path contract:
`p` leads from `s` to `g` along edges of `N`. -/
def IsPathFromTo (N : Coord → List Coord) (p : List Coord) (s g : Coord) : Prop :=
  p.head? = some s ∧ p.getLast? = some g ∧ List.Chain' (fun a b => b ∈ N a) p

theorem isPath_reaches {N : Coord → List Coord} {s : Coord} :
    ∀ {p : List Coord} {g : Coord},
      IsPathFromTo N p s g → Reaches N s g (p.length - 1) := by
  intro p
  induction p using List.reverseRecOn with
  | nil =>
    intro g h
    cases h.1
  | append_singleton q v ih =>
    intro g h
    obtain ⟨hh, hl, hc⟩ := h
    rw [List.getLast?_concat] at hl
    cases hl
    by_cases hqne : q = []
    · subst hqne
      simp only [List.nil_append, List.head?_cons] at hh
      cases hh
      exact Reaches.refl
    · have hh' : q.head? = some s := by
        rwa [List.head?_append_of_ne_nil _ hqne] at hh
      rcases List.chain'_append.mp hc with ⟨hc', _, hedge⟩
      rcases hu : q.getLast? with _ | u
      · exact absurd (List.getLast?_eq_none_iff.mp hu) hqne
      · have hreach : Reaches N s u (q.length - 1) := ih ⟨hh', hu, hc'⟩
        have hstep : Reaches N s v (q.length - 1 + 1) :=
          Reaches.step hreach (hedge u hu v rfl)
        have hlen : q.length - 1 + 1 = (q ++ [v]).length - 1 := by
          have : q.length ≠ 0 := fun hx => hqne (List.length_eq_zero.mp hx)
          simp
          omega
        rwa [hlen] at hstep

/-- Every `n`-step reachability witness yields an inclusive path of `n + 1`
coordinates. -/
theorem reaches_isPath {N : Coord → List Coord} {s v : Coord} {n : Nat}
    (h : Reaches N s v n) : ∃ p, IsPathFromTo N p s v ∧ p.length = n + 1 := by
  induction h with
  | refl => exact ⟨[s], ⟨rfl, rfl, List.chain'_singleton s⟩, rfl⟩
  | step hu he ih =>
    rcases ih with ⟨p, ⟨hh, hl, hc⟩, hlen⟩
    rename_i u w m
    refine ⟨p ++ [w], ⟨?_, ?_, ?_⟩, ?_⟩
    · have hpne : p ≠ [] := by
        intro hx
        rw [hx] at hh
        cases hh
      rwa [List.head?_append_of_ne_nil _ hpne]
    · exact List.getLast?_concat p
    · refine List.chain'_append.mpr ⟨hc, List.chain'_singleton w, ?_⟩
      intro x hx y hy
      simp only [List.head?_cons, Option.mem_def, Option.some.injEq] at hy
      subst hy
      rw [hl] at hx
      simp only [Option.mem_def, Option.some.injEq] at hx
      subst hx
      exact he
    · simp [hlen]

/-! ### Parent-map soundness -/

/-- Every binding of the parent map is a graph edge (parent to child). -/
def CFedge (N : Coord → List Coord) (cf : List (Coord × Coord)) : Prop :=
  ∀ v u, dlookup cf v = some u → v ∈ N u

theorem dlookup_cons {α : Type} (k' : Coord) (v : α) (m : List (Coord × α))
    (k : Coord) : dlookup ((k', v) :: m) k = if k' = k then some v else dlookup m k :=
  rfl

theorem CFedge_nil (N : Coord → List Coord) : CFedge N [] := by
  intro v u h
  cases h

theorem CFedge_cons {N : Coord → List Coord} {cf : List (Coord × Coord)}
    {n current : Coord} (h : CFedge N cf) (hn : n ∈ N current) :
    CFedge N ((n, current) :: cf) := by
  intro v u hv
  rw [dlookup_cons] at hv
  split at hv
  · rename_i heq
    cases hv
    subst heq
    exact hn
  · exact h v u hv

theorem reconstructAux_sound {N : Coord → List Coord}
    {cf : List (Coord × Coord)} {s : Coord}
    (hedge : CFedge N cf) :
    ∀ (fuel : Nat) (v : Coord) (acc p : List Coord),
      reconstructAux cf s fuel v acc = some p → p ≠ [] →
      ∃ pre, p = pre ++ acc ∧ pre.head? = some s ∧ pre.getLast? = some v ∧
        ∀ q, List.Chain' (fun a b => b ∈ N a) (v :: q) →
          List.Chain' (fun a b => b ∈ N a) (pre ++ q) := by
  intro fuel
  induction fuel with
  | zero =>
    intro v acc p h
    cases h
  | succ fuel ih =>
    intro v acc p h hne
    unfold reconstructAux at h
    by_cases hv : v = s
    · rw [if_pos hv] at h
      cases h
      subst hv
      exact ⟨[v], rfl, rfl, rfl, fun q hq => hq⟩
    · rw [if_neg hv] at h
      rcases hcf : dlookup cf v with _ | u
      · rw [hcf] at h
        cases h
        exact absurd rfl hne
      · rw [hcf] at h
        rcases ih u (v :: acc) p h (by
            intro hx
            subst hx
            exact hne rfl) with ⟨pre, hp, hh, hl, hcont⟩
        have hprene : pre ≠ [] := by
          intro hx
          rw [hx] at hh
          cases hh
        refine ⟨pre ++ [v], by rw [hp]; simp, ?_, List.getLast?_concat pre, ?_⟩
        · rwa [List.head?_append_of_ne_nil _ hprene]
        · intro q hq
          have hstep : List.Chain' (fun a b => b ∈ N a) (u :: v :: q) :=
            List.chain'_cons.mpr ⟨hedge v u hcf, hq⟩
          have := hcont (v :: q) hstep
          rwa [List.append_assoc, List.singleton_append]

theorem reconstruct_path_sound {N : Coord → List Coord} {cf : List (Coord × Coord)}
    {s g : Coord} {p : List Coord} (hedge : CFedge N cf)
    (h : reconstruct_path cf s g = some p) (hne : p ≠ []) :
    IsPathFromTo N p s g := by
  unfold reconstruct_path at h
  rcases reconstructAux_sound hedge _ g [] p h hne with ⟨pre, hp, hh, hl, hcont⟩
  rw [List.append_nil] at hp
  subst hp
  refine ⟨hh, hl, ?_⟩
  have := hcont [] (List.chain'_singleton g)
  rwa [List.append_nil] at this

theorem bfsNbrFold_CFedge {N : Coord → List Coord} {current : Coord} :
    ∀ (ns : List Coord) (st : List Coord × List Coord × List (Coord × Coord)),
      CFedge N st.2.2 → (∀ n ∈ ns, n ∈ N current) →
      CFedge N (bfsNbrFold current ns st).2.2 := by
  intro ns
  induction ns with
  | nil =>
    intro st h _
    exact h
  | cons n ns ih =>
    intro st h hns
    rcases st with ⟨q, vis, cf⟩
    unfold bfsNbrFold
    rw [List.foldl_cons]
    dsimp only
    split
    · exact ih (q, vis, cf) h (fun m hm => hns m (List.mem_cons_of_mem n hm))
    · exact ih (q ++ [n], n :: vis, (n, current) :: cf)
        (CFedge_cons h (hns n (List.mem_cons_self n ns)))
        (fun m hm => hns m (List.mem_cons_of_mem n hm))

theorem dfsNbrFold_CFedge {N : Coord → List Coord} {current : Coord} :
    ∀ (ns : List Coord) (st : List Coord × List Coord × List (Coord × Coord)),
      CFedge N st.2.2 → (∀ n ∈ ns, n ∈ N current) →
      CFedge N (dfsNbrFold current ns st).2.2 := by
  intro ns
  induction ns with
  | nil =>
    intro st h _
    exact h
  | cons n ns ih =>
    intro st h hns
    rcases st with ⟨stk, vis, cf⟩
    unfold dfsNbrFold
    rw [List.foldl_cons]
    dsimp only
    split
    · exact ih (stk, vis, cf) h (fun m hm => hns m (List.mem_cons_of_mem n hm))
    · exact ih (n :: stk, n :: vis, (n, current) :: cf)
        (CFedge_cons h (hns n (List.mem_cons_self n ns)))
        (fun m hm => hns m (List.mem_cons_of_mem n hm))

theorem greedyNbrFold_CFedge {N : Coord → List Coord} {goal current : Coord} :
    ∀ (ns : List Coord) (st : List (Nat × Coord) × List Coord × List (Coord × Coord)),
      CFedge N st.2.2 → (∀ n ∈ ns, n ∈ N current) →
      CFedge N (greedyNbrFold goal current ns st).2.2 := by
  intro ns
  induction ns with
  | nil =>
    intro st h _
    exact h
  | cons n ns ih =>
    intro st h hns
    rcases st with ⟨f, vis, cf⟩
    unfold greedyNbrFold
    rw [List.foldl_cons]
    dsimp only
    split
    · exact ih (f, vis, cf) h (fun m hm => hns m (List.mem_cons_of_mem n hm))
    · exact ih (f ++ [(manhattan n goal, n)], n :: vis, (n, current) :: cf)
        (CFedge_cons h (hns n (List.mem_cons_self n ns)))
        (fun m hm => hns m (List.mem_cons_of_mem n hm))

theorem ucsRelaxLoop_CFedge {N : Coord → List Coord} {current : Coord} :
    ∀ (ns : List Coord) (frontier : List (Nat × Coord)) (cf : List (Coord × Coord))
      (csf : List (Coord × Nat)) (evs : List HeapEvent) (out),
      ucsRelaxLoop current ns frontier cf csf evs = some out →
      CFedge N cf → (∀ n ∈ ns, n ∈ N current) →
      CFedge N out.2.1 := by
  intro ns
  induction ns with
  | nil =>
    intro frontier cf csf evs out h hcf _
    cases h
    exact hcf
  | cons n ns ih =>
    intro frontier cf csf evs out h hcf hns
    unfold ucsRelaxLoop at h
    rcases hc : dlookup csf current with _ | c
    · rw [hc] at h
      cases h
    · rw [hc] at h
      simp only [] at h
      split at h
      · exact ih _ _ _ _ _ h (CFedge_cons hcf (hns n (List.mem_cons_self n ns)))
          (fun m hm => hns m (List.mem_cons_of_mem n hm))
      · exact ih _ _ _ _ _ h hcf (fun m hm => hns m (List.mem_cons_of_mem n hm))

theorem astarRelaxLoop_CFedge {N : Coord → List Coord} {goal current : Coord} :
    ∀ (ns : List Coord) (frontier : List (Nat × Coord)) (cf : List (Coord × Coord))
      (gs : List (Coord × Nat)) (out),
      astarRelaxLoop goal current ns frontier cf gs = some out →
      CFedge N cf → (∀ n ∈ ns, n ∈ N current) →
      CFedge N out.2.1 := by
  intro ns
  induction ns with
  | nil =>
    intro frontier cf gs out h hcf _
    cases h
    exact hcf
  | cons n ns ih =>
    intro frontier cf gs out h hcf hns
    unfold astarRelaxLoop at h
    rcases hc : dlookup gs current with _ | c
    · rw [hc] at h
      cases h
    · rw [hc] at h
      simp only [] at h
      split at h
      · exact ih _ _ _ _ h (CFedge_cons hcf (hns n (List.mem_cons_self n ns)))
          (fun m hm => hns m (List.mem_cons_of_mem n hm))
      · exact ih _ _ _ _ h hcf (fun m hm => hns m (List.mem_cons_of_mem n hm))

theorem bfsAux_sound {N : Coord → List Coord} {s g : Coord} :
    ∀ (fuel : Nat) (q vis : List Coord) (cf : List (Coord × Coord)) (p : List Coord),
      CFedge N cf → bfsAux N s g fuel q vis cf = some p → p ≠ [] →
      IsPathFromTo N p s g := by
  intro fuel
  induction fuel with
  | zero =>
    intro q vis cf p _ h
    cases h
  | succ fuel ih =>
    intro q vis cf p hcf h hne
    rcases q with _ | ⟨current, qs⟩
    · cases h
      exact absurd rfl hne
    · unfold bfsAux at h
      split at h
      · exact reconstruct_path_sound hcf h hne
      · rcases hf : bfsNbrFold current (N current) (qs, vis, cf) with ⟨q', vis', cf'⟩
        rw [hf] at h
        have := @bfsNbrFold_CFedge N current (N current)
          (qs, vis, cf) hcf (fun n hn => hn)
        rw [hf] at this
        exact ih q' vis' cf' p this h hne

theorem dfsAux_sound {N : Coord → List Coord} {s g : Coord} :
    ∀ (fuel : Nat) (st vis : List Coord) (cf : List (Coord × Coord)) (p : List Coord),
      CFedge N cf → dfsAux N s g fuel st vis cf = some p → p ≠ [] →
      IsPathFromTo N p s g := by
  intro fuel
  induction fuel with
  | zero =>
    intro st vis cf p _ h
    cases h
  | succ fuel ih =>
    intro st vis cf p hcf h hne
    rcases st with _ | ⟨current, ss⟩
    · cases h
      exact absurd rfl hne
    · unfold dfsAux at h
      split at h
      · exact reconstruct_path_sound hcf h hne
      · rcases hf : dfsNbrFold current (N current) (ss, vis, cf) with ⟨st', vis', cf'⟩
        rw [hf] at h
        have := @dfsNbrFold_CFedge N current (N current)
          (ss, vis, cf) hcf (fun n hn => hn)
        rw [hf] at this
        exact ih st' vis' cf' p this h hne

theorem greedyAux_sound {N : Coord → List Coord} {s g : Coord} :
    ∀ (fuel : Nat) (frontier : List (Nat × Coord)) (vis : List Coord)
      (cf : List (Coord × Coord)) (p : List Coord),
      CFedge N cf → greedyAux N s g fuel frontier vis cf = some p → p ≠ [] →
      IsPathFromTo N p s g := by
  intro fuel
  induction fuel with
  | zero =>
    intro frontier vis cf p _ h
    cases h
  | succ fuel ih =>
    intro frontier vis cf p hcf h hne
    unfold greedyAux at h
    rcases hp : popMin frontier with _ | ⟨⟨k, current⟩, rest⟩
    · rw [hp] at h
      cases h
      exact absurd rfl hne
    · rw [hp] at h
      dsimp only at h
      split at h
      · exact reconstruct_path_sound hcf h hne
      · rcases hf : greedyNbrFold g current (N current) (rest, vis, cf)
          with ⟨f', vis', cf'⟩
        rw [hf] at h
        have := @greedyNbrFold_CFedge N g current
          (N current) (rest, vis, cf) hcf (fun n hn => hn)
        rw [hf] at this
        exact ih f' vis' cf' p this h hne

theorem ucsAux_sound {N : Coord → List Coord} {s g : Coord} :
    ∀ (fuel : Nat) (frontier : List (Nat × Coord)) (cf : List (Coord × Coord))
      (csf : List (Coord × Nat)) (evs : List HeapEvent) (out : List Coord × List HeapEvent),
      CFedge N cf → ucsAux N s g fuel frontier cf csf evs = some out → out.1 ≠ [] →
      IsPathFromTo N out.1 s g := by
  intro fuel
  induction fuel with
  | zero =>
    intro frontier cf csf evs out _ h
    cases h
  | succ fuel ih =>
    intro frontier cf csf evs out hcf h hne
    unfold ucsAux at h
    rcases hp : popMin frontier with _ | ⟨⟨k, current⟩, rest⟩
    · rw [hp] at h
      cases h
      exact absurd rfl hne
    · rw [hp] at h
      dsimp only at h
      split at h
      · rcases hrec : reconstruct_path cf s g with _ | p
        · rw [hrec] at h
          cases h
        · rw [hrec] at h
          cases h
          exact reconstruct_path_sound hcf hrec hne
      · rcases hr : ucsRelaxLoop current (N current) rest cf csf
            (evs ++ [HeapEvent.pop k current]) with _ | ⟨f', cf', csf', evs''⟩
        · rw [hr] at h
          cases h
        · rw [hr] at h
          have := @ucsRelaxLoop_CFedge N current (N current)
            rest cf csf (evs ++ [HeapEvent.pop k current]) _ hr hcf (fun n hn => hn)
          exact ih f' cf' csf' evs'' out this h hne

theorem astarAux_sound {N : Coord → List Coord} {s g : Coord} :
    ∀ (fuel : Nat) (frontier : List (Nat × Coord)) (cf : List (Coord × Coord))
      (gs : List (Coord × Nat)) (p : List Coord),
      CFedge N cf → astarAux N s g fuel frontier cf gs = some p → p ≠ [] →
      IsPathFromTo N p s g := by
  intro fuel
  induction fuel with
  | zero =>
    intro frontier cf gs p _ h
    cases h
  | succ fuel ih =>
    intro frontier cf gs p hcf h hne
    unfold astarAux at h
    rcases hp : popMin frontier with _ | ⟨⟨k, current⟩, rest⟩
    · rw [hp] at h
      cases h
      exact absurd rfl hne
    · rw [hp] at h
      dsimp only at h
      split at h
      · exact reconstruct_path_sound hcf h hne
      · rcases hr : astarRelaxLoop g current (N current) rest cf gs
          with _ | ⟨f', cf', gs'⟩
        · rw [hr] at h
          cases h
        · rw [hr] at h
          have := @astarRelaxLoop_CFedge N g current
            (N current) rest cf gs _ hr hcf (fun n hn => hn)
          exact ih f' cf' gs' p this h hne

/-- Soundness of all five top-level algorithms: a returned non-empty path is
an inclusive start→goal path along the neighbour function's edges. -/
theorem algorithms_sound {N : Coord → List Coord} {s g : Coord} {fuel : Nat}
    {p : List Coord} (hne : p ≠ []) :
    (bfs_neighbors s g N fuel = some p → IsPathFromTo N p s g) ∧
      (dfs_neighbors s g N fuel = some p → IsPathFromTo N p s g) ∧
      (ucs_neighbors s g N fuel = some p → IsPathFromTo N p s g) ∧
      (astar_neighbors s g N fuel = some p → IsPathFromTo N p s g) ∧
      (greedy_neighbors s g N fuel = some p → IsPathFromTo N p s g) := by
  refine ⟨fun h => ?_, fun h => ?_, fun h => ?_, fun h => ?_, fun h => ?_⟩
  · exact bfsAux_sound fuel [s] [s] [] p (CFedge_nil N) h hne
  · exact dfsAux_sound fuel [s] [s] [] p (CFedge_nil N) h hne
  · unfold ucs_neighbors ucsRun at h
    rcases hu : ucsAux N s g fuel [(0, s)] [] [(s, 0)] [HeapEvent.push 0 s]
      with _ | out
    · rw [hu] at h
      cases h
    · rw [hu] at h
      simp only [Option.map_some', Option.some.injEq] at h
      subst h
      exact ucsAux_sound fuel _ _ _ _ out (CFedge_nil N) hu hne
  · exact astarAux_sound fuel [(0, s)] [] [(s, 0)] p (CFedge_nil N) h hne
  · exact greedyAux_sound fuel [(manhattan s g, s)] [s] [] p (CFedge_nil N) h hne

/-! ### Parent chains and BFS optimality -/

/-- The parent chain of the `came_from` map: following lookups from `v`
reaches `s` in `d` steps. -/
inductive Chain (cf : List (Coord × Coord)) (s : Coord) : Coord → Nat → Prop where
  | base : Chain cf s s 0
  | step {v u : Coord} {d : Nat} :
      dlookup cf v = some u → Chain cf s u d → Chain cf s v (d + 1)

/-- Adding a binding for a key outside `vis` preserves chains whose nodes
lie in `vis`. -/
theorem chain_extend {cf : List (Coord × Coord)} {s : Coord} {vis : List Coord}
    (hvals : ∀ v u, dlookup cf v = some u → u ∈ vis) :
    ∀ {v d}, Chain cf s v d → v ∈ vis → ∀ {n : Coord} (x : Coord), n ∉ vis →
      Chain ((n, x) :: cf) s v d := by
  intro v d h
  induction h with
  | base =>
    intro _ n x _
    exact Chain.base
  | step hlk hch ih =>
    rename_i v u d
    intro hv n x hn
    have hvn : n ≠ v := by
      intro hx
      subst hx
      exact hn hv
    refine Chain.step ?_ (ih (hvals v u hlk) x hn)
    rw [dlookup_cons, if_neg hvn]
    exact hlk

theorem chain_reconstructAux {N : Coord → List Coord} {cf : List (Coord × Coord)}
    {s : Coord} (hedge : CFedge N cf) (hs : dlookup cf s = none) :
    ∀ {v : Coord} {d : Nat}, Chain cf s v d → ∀ (fuel : Nat) (acc : List Coord),
      d < fuel →
      ∃ pre, reconstructAux cf s fuel v acc = some (pre ++ acc) ∧
        pre.head? = some s ∧ pre.getLast? = some v ∧ pre.length = d + 1 ∧
        ∀ q, List.Chain' (fun a b => b ∈ N a) (v :: q) →
          List.Chain' (fun a b => b ∈ N a) (pre ++ q) := by
  intro v d h
  induction h with
  | base =>
    intro fuel acc hfuel
    rcases fuel with _ | fuel
    · omega
    · refine ⟨[s], ?_, rfl, rfl, rfl, fun q hq => hq⟩
      unfold reconstructAux
      rw [if_pos rfl]
      rfl
  | step hlk hch ih =>
    rename_i v u d
    intro fuel acc hfuel
    rcases fuel with _ | fuel
    · omega
    · have hvs : v ≠ s := by
        intro hx
        subst hx
        rw [hs] at hlk
        cases hlk
      rcases ih fuel (v :: acc) (by omega) with ⟨pre, hrun, hh, hl, hlen, hcont⟩
      have hprene : pre ≠ [] := by
        intro hx
        rw [hx] at hh
        cases hh
      refine ⟨pre ++ [v], ?_, ?_, List.getLast?_concat pre, ?_, ?_⟩
      · unfold reconstructAux
        rw [if_neg hvs, hlk]
        dsimp only
        rw [hrun, List.append_assoc, List.singleton_append]
      · rwa [List.head?_append_of_ne_nil _ hprene]
      · simp [hlen]
      · intro q hq
        have hstep : List.Chain' (fun a b => b ∈ N a) (u :: v :: q) :=
          List.chain'_cons.mpr ⟨hedge v u hlk, hq⟩
        have := hcont (v :: q) hstep
        rwa [List.append_assoc, List.singleton_append]

theorem chain_reconstruct {N : Coord → List Coord} {cf : List (Coord × Coord)}
    {s v : Coord} {d : Nat} (hedge : CFedge N cf) (hs : dlookup cf s = none)
    (h : Chain cf s v d) (hbound : d ≤ cf.length) :
    ∃ p, reconstruct_path cf s v = some p ∧ IsPathFromTo N p s v ∧
      p.length = d + 1 := by
  rcases chain_reconstructAux hedge hs h (cf.length + 1) [] (by omega)
    with ⟨pre, hrun, hh, hl, hlen, hcont⟩
  rw [List.append_nil] at hrun
  refine ⟨pre, hrun, ⟨hh, hl, ?_⟩, hlen⟩
  have := hcont [] (List.chain'_singleton v)
  rwa [List.append_nil] at this

/-- The least-distance successor lemma: the predecessor on a minimal
`(E+1)`-step route is itself at minimal distance `E`. -/
theorem MinDist_pred {N : Coord → List Coord} {s w u : Coord} {E : Nat}
    (hw : MinDist N s w (E + 1)) (hu : Reaches N s u E) (he : w ∈ N u) :
    MinDist N s u E :=
  ⟨hu, fun k hk => by
    have := hw.2 (k + 1) (Reaches.step hk he)
    omega⟩

/-- Saturation: with `s` seeded and every off-queue visited node fully
expanded, every node strictly closer than the whole queue has been visited
and fully expanded. -/
theorem bfs_saturation {N : Coord → List Coord} {s : Coord} {q vis : List Coord}
    (hsvis : s ∈ vis)
    (hpc : ∀ u ∈ vis, u ∉ q → ∀ w ∈ N u, w ∈ vis) :
    ∀ (n : Nat) (w : Coord), MinDist N s w n →
      (∀ x ∈ q, n < dist N s x) → w ∈ vis ∧ w ∉ q := by
  intro n
  induction n using Nat.strong_induction_on with
  | _ n ih =>
    intro w hw hq
    have hwnq : w ∉ q := by
      intro hx
      have := hq w hx
      rw [dist_eq_of_MinDist hw] at this
      omega
    cases n with
    | zero =>
      have : w = s := reaches_zero hw.1
      subst this
      exact ⟨hsvis, hwnq⟩
    | succ m =>
      rcases reaches_succ hw.1 with ⟨u, hu, he⟩
      have hud : MinDist N s u m := MinDist_pred hw hu he
      have ihu := ih m (by omega) u hud (fun x hx => by
        have := hq x hx
        omega)
      exact ⟨hpc u ihu.1 ihu.2 w he, hwnq⟩

/-- The BFS loop invariant. -/
structure BfsInv (N : Coord → List Coord) (s goal : Coord)
    (q vis : List Coord) (cf : List (Coord × Coord)) : Prop where
  sub : ∀ v ∈ q, v ∈ vis
  nodup : q.Nodup
  svis : s ∈ vis
  cfs : dlookup cf s = none
  keys : ∀ v, v ∈ vis ↔ (v = s ∨ dlookup cf v ≠ none)
  edge : CFedge N cf
  vals : ∀ v u, dlookup cf v = some u → u ∈ vis
  vdist : ∀ v ∈ vis, Reachable N s v ∧ Chain cf s v (dist N s v)
  dbound : ∀ v ∈ vis, dist N s v ≤ cf.length
  qsort : List.Pairwise (fun a b => dist N s a ≤ dist N s b) q
  qband : ∀ x ∈ q, ∀ y ∈ q, dist N s x ≤ dist N s y + 1
  pclose : ∀ u ∈ vis, u ∉ q → ∀ w ∈ N u, w ∈ vis
  gq : goal ∈ vis → goal ∈ q

/-- The invariant holding mid-way through expanding `current` (popped, its
neighbour list partially processed: `ns` remains). -/
structure MidInv (N : Coord → List Coord) (s goal current : Coord) (D : Nat)
    (ns : List Coord) (q vis : List Coord) (cf : List (Coord × Coord)) : Prop where
  sub : ∀ v ∈ q, v ∈ vis
  nodup : q.Nodup
  svis : s ∈ vis
  cfs : dlookup cf s = none
  keys : ∀ v, v ∈ vis ↔ (v = s ∨ dlookup cf v ≠ none)
  edge : CFedge N cf
  vals : ∀ v u, dlookup cf v = some u → u ∈ vis
  vdist : ∀ v ∈ vis, Reachable N s v ∧ Chain cf s v (dist N s v)
  dbound : ∀ v ∈ vis, dist N s v ≤ cf.length
  qsort : List.Pairwise (fun a b => dist N s a ≤ dist N s b) q
  qband : ∀ x ∈ q, ∀ y ∈ q, dist N s x ≤ dist N s y + 1
  qlow : ∀ x ∈ q, D ≤ dist N s x
  qhigh : ∀ x ∈ q, dist N s x ≤ D + 1
  curvis : current ∈ vis
  curq : current ∉ q
  curd : dist N s current = D
  nssub : ∀ x ∈ ns, x ∈ N current
  pcex : ∀ u ∈ vis, u ∉ q → u ≠ current → ∀ w ∈ N u, w ∈ vis
  pccur : ∀ w ∈ N current, w ∈ ns ∨ w ∈ vis
  gq : goal ∈ vis → goal ∈ q
  gcur : goal ≠ current

theorem bfsInv_pop {N : Coord → List Coord} {s goal current : Coord}
    {qs vis : List Coord} {cf : List (Coord × Coord)}
    (inv : BfsInv N s goal (current :: qs) vis cf) (hng : current ≠ goal) :
    MidInv N s goal current (dist N s current) (N current) qs vis cf := by
  have hcur : current ∈ vis := inv.sub current (List.mem_cons_self _ _)
  rcases List.pairwise_cons.mp inv.qsort with ⟨hhead, hrest⟩
  refine ⟨fun v hv => inv.sub v (List.mem_cons_of_mem _ hv),
    (List.nodup_cons.mp inv.nodup).2, inv.svis, inv.cfs, inv.keys, inv.edge,
    inv.vals, inv.vdist, inv.dbound, hrest,
    fun x hx y hy => inv.qband x (List.mem_cons_of_mem _ hx) y
      (List.mem_cons_of_mem _ hy),
    fun x hx => hhead x hx,
    fun x hx => inv.qband x (List.mem_cons_of_mem _ hx) current
      (List.mem_cons_self _ _),
    hcur, (List.nodup_cons.mp inv.nodup).1, rfl, fun x hx => hx,
    fun u hu hnq hne w hw => inv.pclose u hu (by
      intro hx
      rcases List.mem_cons.mp hx with hx | hx
      · exact hne hx
      · exact hnq hx) w hw,
    fun w hw => Or.inl hw,
    fun hg => ?_, fun hg => hng hg.symm⟩
  rcases List.mem_cons.mp (inv.gq hg) with hx | hx
  · exact absurd hx.symm hng
  · exact hx

theorem midInv_close {N : Coord → List Coord} {s goal current : Coord} {D : Nat}
    {q vis : List Coord} {cf : List (Coord × Coord)}
    (inv : MidInv N s goal current D [] q vis cf) :
    BfsInv N s goal q vis cf := by
  refine ⟨inv.sub, inv.nodup, inv.svis, inv.cfs, inv.keys, inv.edge, inv.vals,
    inv.vdist, inv.dbound, inv.qsort, inv.qband, ?_, inv.gq⟩
  intro u hu hnq w hw
  by_cases hc : u = current
  · subst hc
    rcases inv.pccur w hw with hx | hx
    · cases hx
    · exact hx
  · exact inv.pcex u hu hnq hc w hw

/-- A freshly discovered neighbour of `current` is at minimal distance
`D + 1`. -/
theorem midInv_new_mindist {N : Coord → List Coord} {s goal current : Coord}
    {D : Nat} {ns q vis : List Coord} {cf : List (Coord × Coord)}
    (inv : MidInv N s goal current D ns q vis cf) {w : Coord}
    (hw : w ∈ N current) (hwvis : w ∉ vis) : MinDist N s w (D + 1) := by
  have hcurReach : Reaches N s current D := by
    have := (inv.vdist current inv.curvis).1
    rcases this with ⟨n, hn⟩
    have hmd := MinDist_dist ⟨n, hn⟩
    rw [inv.curd] at hmd
    exact hmd.1
  have hreach : Reaches N s w (D + 1) := Reaches.step hcurReach hw
  refine ⟨hreach, ?_⟩
  intro m hm
  by_contra hlt
  push_neg at hlt
  have hwreach : Reachable N s w := ⟨m, hm⟩
  have hmd := MinDist_dist hwreach
  have hdw : dist N s w ≤ D := by
    have := hmd.2 m hm
    omega
  have hpc' : ∀ u ∈ vis, u ∉ current :: q → ∀ x ∈ N u, x ∈ vis := by
    intro u hu hnq x hx
    exact inv.pcex u hu (fun h => hnq (List.mem_cons_of_mem _ h))
      (fun h => hnq (h ▸ List.mem_cons_self _ _)) x hx
  rcases Nat.lt_or_ge (dist N s w) D with hcase | hcase
  · -- strictly closer than the whole extended queue: must be visited
    have hsat := bfs_saturation inv.svis hpc' (dist N s w) w hmd (by
      intro x hx
      rcases List.mem_cons.mp hx with hx | hx
      · rw [hx, inv.curd]
        exact hcase
      · have := inv.qlow x hx
        omega)
    exact hwvis hsat.1
  · have hdweq : dist N s w = D := by omega
    rcases hD : D with _ | E
    · -- distance zero: w is the start, already visited
      rw [hD] at hdweq
      have : Reaches N s w 0 := by
        have := hmd.1
        rwa [hdweq] at this
      exact hwvis ((reaches_zero this) ▸ inv.svis)
    · -- positive distance: the shortest-path predecessor is fully expanded
      rw [hD] at hdweq
      have hmdw : MinDist N s w (E + 1) := by
        rw [← hdweq]
        exact hmd
      rcases reaches_succ hmdw.1 with ⟨u, hu, he⟩
      have hud : MinDist N s u E := MinDist_pred hmdw hu he
      have hsat := bfs_saturation inv.svis hpc' E u hud (by
        intro x hx
        rcases List.mem_cons.mp hx with hx | hx
        · rw [hx, inv.curd, hD]
          omega
        · have := inv.qlow x hx
          rw [hD] at this
          omega)
      have hune : u ≠ current := by
        intro hx
        subst hx
        exact hsat.2 (List.mem_cons_self u q)
      exact hwvis (inv.pcex u hsat.1 (fun hx =>
        hsat.2 (List.mem_cons_of_mem _ hx)) hune w he)

theorem midInv_skip {N : Coord → List Coord} {s goal current : Coord} {D : Nat}
    {w : Coord} {ns q vis : List Coord} {cf : List (Coord × Coord)}
    (inv : MidInv N s goal current D (w :: ns) q vis cf) (hw : w ∈ vis) :
    MidInv N s goal current D ns q vis cf := by
  refine ⟨inv.sub, inv.nodup, inv.svis, inv.cfs, inv.keys, inv.edge, inv.vals,
    inv.vdist, inv.dbound, inv.qsort, inv.qband, inv.qlow, inv.qhigh,
    inv.curvis, inv.curq, inv.curd,
    fun x hx => inv.nssub x (List.mem_cons_of_mem _ hx), inv.pcex, ?_,
    inv.gq, inv.gcur⟩
  intro x hx
  rcases inv.pccur x hx with hm | hm
  · rcases List.mem_cons.mp hm with rfl | hm
    · exact Or.inr hw
    · exact Or.inl hm
  · exact Or.inr hm

theorem midInv_insert {N : Coord → List Coord} {s goal current : Coord} {D : Nat}
    {w : Coord} {ns q vis : List Coord} {cf : List (Coord × Coord)}
    (inv : MidInv N s goal current D (w :: ns) q vis cf) (hw : w ∉ vis) :
    MidInv N s goal current D ns (q ++ [w]) (w :: vis) ((w, current) :: cf) := by
  have hwN : w ∈ N current := inv.nssub w (List.mem_cons_self _ _)
  have hmd : MinDist N s w (D + 1) := Search.midInv_new_mindist inv hwN hw
  have hdw : dist N s w = D + 1 := dist_eq_of_MinDist hmd
  have hws : w ≠ s := fun hx => hw (hx ▸ inv.svis)
  have hwq : w ∉ q := fun hx => hw (inv.sub w hx)
  have hwc : w ≠ current := fun hx => hw (hx ▸ inv.curvis)
  have hDb : D ≤ cf.length := by
    have := inv.dbound current inv.curvis
    rwa [inv.curd] at this
  refine ⟨?_, ?_, List.mem_cons_of_mem _ inv.svis, ?_, ?_,
    CFedge_cons inv.edge hwN, ?_, ?_, ?_, ?_, ?_, ?_, ?_,
    List.mem_cons_of_mem _ inv.curvis, ?_, inv.curd,
    fun x hx => inv.nssub x (List.mem_cons_of_mem _ hx), ?_, ?_, ?_, inv.gcur⟩
  · intro v hv
    rcases List.mem_append.mp hv with hv | hv
    · exact List.mem_cons_of_mem _ (inv.sub v hv)
    · rcases List.mem_singleton.mp hv with rfl
      exact List.mem_cons_self _ _
  · rw [List.nodup_append]
    exact ⟨inv.nodup, List.nodup_singleton w,
      fun a ha hb => (List.mem_singleton.mp hb ▸ hwq) ha⟩
  · rw [dlookup_cons, if_neg hws]
    exact inv.cfs
  · intro v
    by_cases hv : v = w
    · subst hv
      rw [dlookup_cons, if_pos rfl]
      simp
    · rw [dlookup_cons, if_neg (fun hx => hv hx.symm)]
      constructor
      · intro hm
        rcases List.mem_cons.mp hm with rfl | hm
        · exact absurd rfl hv
        · exact (inv.keys v).mp hm
      · intro hm
        exact List.mem_cons_of_mem _ ((inv.keys v).mpr hm)
  · intro v u hvu
    rw [dlookup_cons] at hvu
    split at hvu
    · cases hvu
      exact List.mem_cons_of_mem _ inv.curvis
    · exact List.mem_cons_of_mem _ (inv.vals v u hvu)
  · intro v hv
    have hchainCur : Chain ((w, current) :: cf) s current D := by
      have hc := (inv.vdist current inv.curvis).2
      rw [inv.curd] at hc
      exact chain_extend inv.vals hc inv.curvis current hw
    rcases List.mem_cons.mp hv with rfl | hv
    · refine ⟨⟨D + 1, hmd.1⟩, ?_⟩
      rw [hdw]
      exact Chain.step (by rw [dlookup_cons, if_pos rfl]) hchainCur
    · rcases inv.vdist v hv with ⟨hr, hc⟩
      exact ⟨hr, chain_extend inv.vals hc hv current hw⟩
  · intro v hv
    rcases List.mem_cons.mp hv with rfl | hv
    · rw [hdw]
      simpa using Nat.succ_le_succ hDb
    · have := inv.dbound v hv
      simp only [List.length_cons]
      omega
  · rw [List.pairwise_append]
    refine ⟨inv.qsort, List.pairwise_singleton _ _, ?_⟩
    intro a ha b hb
    rcases List.mem_singleton.mp hb with rfl
    rw [hdw]
    exact inv.qhigh a ha
  · intro x hx y hy
    rcases List.mem_append.mp hx with hx1 | hx1
    · rcases List.mem_append.mp hy with hy1 | hy1
      · exact inv.qband x hx1 y hy1
      · rw [List.mem_singleton.mp hy1, hdw]
        have := inv.qhigh x hx1
        omega
    · rcases List.mem_append.mp hy with hy1 | hy1
      · rw [List.mem_singleton.mp hx1, hdw]
        have := inv.qlow y hy1
        omega
      · rw [List.mem_singleton.mp hx1, List.mem_singleton.mp hy1]
        omega
  · intro x hx
    rcases List.mem_append.mp hx with hx | hx
    · exact inv.qlow x hx
    · rcases List.mem_singleton.mp hx with rfl
      rw [hdw]
      omega
  · intro x hx
    rcases List.mem_append.mp hx with hx | hx
    · exact inv.qhigh x hx
    · rcases List.mem_singleton.mp hx with rfl
      rw [hdw]
  · intro hx
    rcases List.mem_append.mp hx with hx | hx
    · exact inv.curq hx
    · exact hwc (List.mem_singleton.mp hx).symm
  · intro u hu hnq hne x hx
    rcases List.mem_cons.mp hu with rfl | hu
    · exact absurd (List.mem_append.mpr (Or.inr (List.mem_singleton_self _))) hnq
    · exact List.mem_cons_of_mem _ (inv.pcex u hu
        (fun hq => hnq (List.mem_append.mpr (Or.inl hq))) hne x hx)
  · intro x hx
    rcases inv.pccur x hx with hm | hm
    · rcases List.mem_cons.mp hm with rfl | hm
      · exact Or.inr (List.mem_cons_self _ _)
      · exact Or.inl hm
    · exact Or.inr (List.mem_cons_of_mem _ hm)
  · intro hg
    rcases List.mem_cons.mp hg with rfl | hg
    · exact List.mem_append.mpr (Or.inr (List.mem_singleton_self _))
    · exact List.mem_append.mpr (Or.inl (inv.gq hg))

theorem midInv_fold {N : Coord → List Coord} {s goal current : Coord} {D : Nat} :
    ∀ (ns q vis : List Coord) (cf : List (Coord × Coord)),
      MidInv N s goal current D ns q vis cf →
      MidInv N s goal current D []
        (bfsNbrFold current ns (q, vis, cf)).1
        (bfsNbrFold current ns (q, vis, cf)).2.1
        (bfsNbrFold current ns (q, vis, cf)).2.2 := by
  intro ns
  induction ns with
  | nil =>
    intro q vis cf inv
    exact inv
  | cons w ns ih =>
    intro q vis cf inv
    by_cases hw : w ∈ vis
    · have hstep : bfsNbrFold current (w :: ns) (q, vis, cf) =
          bfsNbrFold current ns (q, vis, cf) := by
        unfold bfsNbrFold
        rw [List.foldl_cons]
        dsimp only
        rw [if_pos hw]
      rw [hstep]
      exact ih q vis cf (midInv_skip inv hw)
    · have hstep : bfsNbrFold current (w :: ns) (q, vis, cf) =
          bfsNbrFold current ns (q ++ [w], w :: vis, (w, current) :: cf) := by
        unfold bfsNbrFold
        rw [List.foldl_cons]
        dsimp only
        rw [if_neg hw]
      rw [hstep]
      exact ih _ _ _ (midInv_insert inv hw)

theorem bfsInv_init (N : Coord → List Coord) (s goal : Coord) :
    BfsInv N s goal [s] [s] [] := by
  refine ⟨fun v hv => hv, List.nodup_singleton s, List.mem_singleton_self s, rfl,
    ?_, CFedge_nil N, ?_, ?_, ?_, List.pairwise_singleton _ _, ?_, ?_, fun h => h⟩
  · intro v
    constructor
    · intro hv
      exact Or.inl (List.mem_singleton.mp hv)
    · intro hv
      rcases hv with h1 | h1
      · rw [h1]
        exact List.mem_singleton_self _
      · exact absurd rfl h1
  · intro v u hvu
    cases hvu
  · intro v hv
    rw [List.mem_singleton.mp hv]
    exact ⟨⟨0, Reaches.refl⟩, by rw [dist_s]; exact Chain.base⟩
  · intro v hv
    rw [List.mem_singleton.mp hv, dist_s]
    exact Nat.le_refl 0
  · intro x hx y hy
    rw [List.mem_singleton.mp hx, List.mem_singleton.mp hy]
    omega
  · intro u hu hnq
    exact absurd hu hnq

theorem bfsAux_correct {N : Coord → List Coord} {s goal : Coord} :
    ∀ (fuel : Nat) (q vis : List Coord) (cf : List (Coord × Coord)) (out : List Coord),
      BfsInv N s goal q vis cf → bfsAux N s goal fuel q vis cf = some out →
      (out = [] → ¬ Reachable N s goal) ∧
      (out ≠ [] → IsPathFromTo N out s goal ∧ MinDist N s goal (out.length - 1)) := by
  intro fuel
  induction fuel with
  | zero =>
    intro q vis cf out _ h
    cases h
  | succ fuel ih =>
    intro q vis cf out inv h
    rcases q with _ | ⟨current, qs⟩
    · unfold bfsAux at h
      cases h
      refine ⟨fun _ => ?_, fun hne => absurd rfl hne⟩
      rintro ⟨n, hn⟩
      have hmd := MinDist_dist ⟨n, hn⟩
      have hsat := bfs_saturation inv.svis (fun u hu hq => inv.pclose u hu hq)
          (dist N s goal) goal hmd (fun x hx => absurd hx (List.not_mem_nil x))
      exact (List.not_mem_nil goal) (inv.gq hsat.1)
    · unfold bfsAux at h
      by_cases hg : current = goal
      · rw [if_pos hg] at h
        subst hg
        have hcv : current ∈ vis := inv.sub current (List.mem_cons_self _ _)
        rcases inv.vdist current hcv with ⟨hr, hc⟩
        rcases chain_reconstruct inv.edge inv.cfs hc (inv.dbound current hcv) with
          ⟨p, hrec, hpath, hlen⟩
        rw [hrec] at h
        have hpo : p = out := Option.some_injective _ h
        subst hpo
        have hne : p ≠ [] := by
          intro hx
          rw [hx] at hlen
          simp only [List.length_nil] at hlen
          omega
        refine ⟨fun hx => absurd hx hne, fun _ => ⟨hpath, ?_⟩⟩
        have hl1 : p.length - 1 = dist N s current := by omega
        rw [hl1]
        exact MinDist_dist hr
      · rw [if_neg hg] at h
        rcases hf : bfsNbrFold current (N current) (qs, vis, cf) with ⟨q', vis', cf'⟩
        rw [hf] at h
        have hmid := midInv_fold (N current) qs vis cf (bfsInv_pop inv hg)
        rw [hf] at hmid
        exact ih q' vis' cf' out (midInv_close hmid) h

/-- BFS correctness: a returned non-empty path is a genuine shortest path
(by edge count) and a returned empty path means the goal is unreachable. -/
theorem bfs_neighbors_correct {N : Coord → List Coord} {s goal : Coord}
    {fuel : Nat} {out : List Coord} (h : bfs_neighbors s goal N fuel = some out) :
    (out = [] → ¬ Reachable N s goal) ∧
    (out ≠ [] → IsPathFromTo N out s goal ∧ MinDist N s goal (out.length - 1)) :=
  bfsAux_correct fuel [s] [s] [] out (bfsInv_init N s goal) h

/-! ### UCS (Dijkstra) optimality -/

theorem leKey_fst {a b : Nat × Coord} (h : leKey a b) : a.1 ≤ b.1 := by
  unfold leKey at h
  omega

theorem popMin_rest_sub {l : List (Nat × Coord)} {m : Nat × Coord}
    {rest : List (Nat × Coord)} (h : popMin l = some (m, rest)) :
    ∀ e ∈ rest, e ∈ l := by
  induction l generalizing m rest with
  | nil => cases h
  | cons e es ih =>
    unfold popMin at h
    rcases hp : popMin es with _ | ⟨m', rest'⟩
    · rw [hp] at h
      cases h
      intro x hx
      cases hx
    · rw [hp] at h
      dsimp only at h
      split at h
      · cases h
        intro x hx
        rcases List.mem_cons.mp hx with rfl | hx
        · exact List.mem_cons_self _ _
        · exact List.mem_cons_of_mem _ (ih hp x hx)
      · cases h
        intro x hx
        exact List.mem_cons_of_mem _ hx

theorem popMin_mem_rest {l : List (Nat × Coord)} {m : Nat × Coord}
    {rest : List (Nat × Coord)} (h : popMin l = some (m, rest)) :
    ∀ e ∈ l, e ≠ m → e ∈ rest := by
  induction l generalizing m rest with
  | nil => cases h
  | cons e es ih =>
    unfold popMin at h
    rcases hp : popMin es with _ | ⟨m', rest'⟩
    · rw [hp] at h
      cases h
      intro x hx hne
      rcases List.mem_cons.mp hx with rfl | hx
      · exact absurd rfl hne
      · rw [(popMin_none_iff es).mp hp] at hx
        cases hx
    · rw [hp] at h
      dsimp only at h
      split at h
      · cases h
        intro x hx hne
        rcases List.mem_cons.mp hx with rfl | hx
        · exact List.mem_cons_self _ _
        · exact List.mem_cons_of_mem _ (ih hp x hx hne)
      · cases h
        intro x hx hne
        rcases List.mem_cons.mp hx with rfl | hx
        · exact absurd rfl hne
        · exact hx

/-- The UCS loop invariant. -/
structure UcsInv (N : Coord → List Coord) (s goal : Coord)
    (frontier : List (Nat × Coord)) (cf : List (Coord × Coord))
    (csf : List (Coord × Nat)) : Prop where
  s0 : dlookup csf s = some 0
  cfs : dlookup cf s = none
  lab : ∀ v c, dlookup csf v = some c → Reaches N s v c
  cfcs : ∀ v u, dlookup cf v = some u → v ∈ N u ∧
      ∃ cv cu, dlookup csf v = some cv ∧ dlookup csf u = some cu ∧ cu + 1 ≤ cv
  keycf : ∀ v c, dlookup csf v = some c → v = s ∨ dlookup cf v ≠ none
  fresh : ∀ v c, dlookup csf v = some c →
      ((c, v) ∈ frontier ∨ ∀ w ∈ N v, ∃ cw, dlookup csf w = some cw ∧ cw ≤ c + 1)
  fkey : ∀ k v, (k, v) ∈ frontier →
      ∃ c, dlookup csf v = some c ∧ c ≤ k ∧ Reaches N s v k
  gfresh : ∀ c, dlookup csf goal = some c → (c, goal) ∈ frontier
  labbound : ∀ v c, dlookup csf v = some c → c ≤ cf.length

/-- The invariant mid-way through the relaxation loop of a popped node
`current` (labelled `c₀`, not the goal). -/
structure UcsMid (N : Coord → List Coord) (s goal current : Coord) (c₀ : Nat)
    (ns : List Coord) (frontier : List (Nat × Coord)) (cf : List (Coord × Coord))
    (csf : List (Coord × Nat)) : Prop where
  s0 : dlookup csf s = some 0
  cfs : dlookup cf s = none
  lab : ∀ v c, dlookup csf v = some c → Reaches N s v c
  cfcs : ∀ v u, dlookup cf v = some u → v ∈ N u ∧
      ∃ cv cu, dlookup csf v = some cv ∧ dlookup csf u = some cu ∧ cu + 1 ≤ cv
  keycf : ∀ v c, dlookup csf v = some c → v = s ∨ dlookup cf v ≠ none
  freshx : ∀ v c, dlookup csf v = some c → v ≠ current →
      ((c, v) ∈ frontier ∨ ∀ w ∈ N v, ∃ cw, dlookup csf w = some cw ∧ cw ≤ c + 1)
  fkey : ∀ k v, (k, v) ∈ frontier →
      ∃ c, dlookup csf v = some c ∧ c ≤ k ∧ Reaches N s v k
  gfresh : ∀ c, dlookup csf goal = some c → (c, goal) ∈ frontier
  labbound : ∀ v c, dlookup csf v = some c → c ≤ cf.length
  curlab : dlookup csf current = some c₀
  curfresh : ((c₀, current) ∈ frontier) ∨
      (∀ w ∈ N current, w ∈ ns ∨ ∃ cw, dlookup csf w = some cw ∧ cw ≤ c₀ + 1)
  nssub : ∀ x ∈ ns, x ∈ N current
  gcur : goal ≠ current

/-- Shield lemma: for every reachable node `w` there is a frontier entry no
more expensive than `dist w`, unless the prefix of some shortest path to `w`
is fully settled, in which case `w` itself carries an exact label and is
fully relaxed. -/
theorem ucs_frontier_low {N : Coord → List Coord} {s goal : Coord}
    {frontier : List (Nat × Coord)} {cf : List (Coord × Coord)}
    {csf : List (Coord × Nat)} (inv : UcsInv N s goal frontier cf csf) :
    ∀ (m : Nat) (w : Coord), MinDist N s w m →
      (∃ e ∈ frontier, e.1 ≤ m) ∨
      (∃ c, c ≤ m ∧ dlookup csf w = some c ∧
        ∀ x ∈ N w, ∃ cx, dlookup csf x = some cx ∧ cx ≤ c + 1) := by
  intro m
  induction m using Nat.strong_induction_on with
  | _ m ih =>
    intro w hw
    cases m with
    | zero =>
      have hws : w = s := reaches_zero hw.1
      subst hws
      rcases inv.fresh w 0 inv.s0 with he | hr
      · exact Or.inl ⟨(0, w), he, Nat.le_refl 0⟩
      · exact Or.inr ⟨0, Nat.le_refl 0, inv.s0, hr⟩
    | succ j =>
      rcases reaches_succ hw.1 with ⟨u, hu, he⟩
      have hud : MinDist N s u j := MinDist_pred hw hu he
      rcases ih j (by omega) u hud with hleft | ⟨c, hcj, hclab, hrelax⟩
      · rcases hleft with ⟨e, hem, hek⟩
        exact Or.inl ⟨e, hem, by omega⟩
      · rcases hrelax w he with ⟨cw, hcw, hcwle⟩
        rcases inv.fresh w cw hcw with hentry | hr
        · exact Or.inl ⟨(cw, w), hentry, by simp; omega⟩
        · exact Or.inr ⟨cw, by omega, hcw, hr⟩

/-- Every label admits a parent chain at most that long. -/
theorem ucs_chain {N : Coord → List Coord} {s goal : Coord}
    {frontier : List (Nat × Coord)} {cf : List (Coord × Coord)}
    {csf : List (Coord × Nat)} (inv : UcsInv N s goal frontier cf csf) :
    ∀ (c : Nat) (v : Coord), dlookup csf v = some c →
      ∃ d, d ≤ c ∧ Chain cf s v d := by
  intro c
  induction c using Nat.strong_induction_on with
  | _ c ih =>
    intro v hv
    by_cases hvs : v = s
    · subst hvs
      exact ⟨0, Nat.zero_le c, Chain.base⟩
    · rcases inv.keycf v c hv with hx | hx
      · exact absurd hx hvs
      · rcases hcf : dlookup cf v with _ | u
        · exact absurd hcf hx
        · rcases inv.cfcs v u hcf with ⟨_, cv, cu, hcv, hcu, hle⟩
          have hcveq : cv = c := by
            rw [hv] at hcv
            exact (Option.some_injective _ hcv).symm
          subst hcveq
          rcases ih cu (by omega) u hcu with ⟨d, hd, hchain⟩
          exact ⟨d + 1, by omega, Chain.step hcf hchain⟩

/-- Dijkstra exactness: when a goal entry is popped, the goal's label is the
true shortest distance. -/
theorem ucs_pop_exact {N : Coord → List Coord} {s goal : Coord}
    {frontier : List (Nat × Coord)} {cf : List (Coord × Coord)}
    {csf : List (Coord × Nat)} (inv : UcsInv N s goal frontier cf csf)
    {k : Nat} {rest : List (Nat × Coord)}
    (hpop : popMin frontier = some ((k, goal), rest)) :
    dlookup csf goal = some (dist N s goal) := by
  rcases popMin_spec hpop with ⟨hmem, hmin⟩
  rcases inv.fkey k goal hmem with ⟨c, hc, hck, hrk⟩
  have hreach : Reachable N s goal := ⟨k, hrk⟩
  have hmd := MinDist_dist hreach
  rcases ucs_frontier_low inv (dist N s goal) goal hmd with
    ⟨e, hem, hek⟩ | ⟨c', hc'm, hc'lab, _⟩
  · have hkle : k ≤ e.1 := leKey_fst (hmin e hem)
    have hkm : dist N s goal ≤ k := hmd.2 k hrk
    have hcm : dist N s goal ≤ c := hmd.2 c (inv.lab goal c hc)
    have : c = dist N s goal := by omega
    rwa [this] at hc
  · have hc'c : c' = c := by
      rw [hc] at hc'lab
      exact (Option.some_injective _ hc'lab).symm
    have hcm : dist N s goal ≤ c := hmd.2 c (inv.lab goal c hc)
    have : c = dist N s goal := by omega
    rwa [this] at hc

theorem ucsInv_pop {N : Coord → List Coord} {s goal : Coord}
    {frontier : List (Nat × Coord)} {cf : List (Coord × Coord)}
    {csf : List (Coord × Nat)} (inv : UcsInv N s goal frontier cf csf)
    {k : Nat} {current : Coord} {rest : List (Nat × Coord)}
    (hpop : popMin frontier = some ((k, current), rest)) (hgc : current ≠ goal) :
    ∃ c₀, UcsMid N s goal current c₀ (N current) rest cf csf := by
  rcases popMin_spec hpop with ⟨hmem, _⟩
  rcases inv.fkey k current hmem with ⟨c₀, hc₀, _, _⟩
  refine ⟨c₀, inv.s0, inv.cfs, inv.lab, inv.cfcs, inv.keycf, ?_, ?_, ?_,
    inv.labbound, hc₀, Or.inr (fun w hw => Or.inl hw), fun x hx => hx,
    fun hx => hgc hx.symm⟩
  · intro v c hv hvc
    rcases inv.fresh v c hv with he | hr
    · refine Or.inl (popMin_mem_rest hpop (c, v) he ?_)
      intro hx
      exact hvc (congrArg Prod.snd hx)
    · exact Or.inr hr
  · intro k' v' hv'
    exact inv.fkey k' v' (popMin_rest_sub hpop _ hv')
  · intro c hc
    refine popMin_mem_rest hpop (c, goal) (inv.gfresh c hc) ?_
    intro hx
    exact hgc (congrArg Prod.snd hx).symm

theorem ucsMid_skip {N : Coord → List Coord} {s goal current : Coord} {c₀ : Nat}
    {n : Coord} {ns : List Coord} {frontier : List (Nat × Coord)}
    {cf : List (Coord × Coord)} {csf : List (Coord × Nat)}
    (inv : UcsMid N s goal current c₀ (n :: ns) frontier cf csf)
    {cn : Nat} (hn : dlookup csf n = some cn) (hle : cn ≤ c₀ + 1) :
    UcsMid N s goal current c₀ ns frontier cf csf := by
  refine ⟨inv.s0, inv.cfs, inv.lab, inv.cfcs, inv.keycf, inv.freshx, inv.fkey,
    inv.gfresh, inv.labbound, inv.curlab, ?_,
    fun x hx => inv.nssub x (List.mem_cons_of_mem _ hx), inv.gcur⟩
  rcases inv.curfresh with he | hr
  · exact Or.inl he
  · refine Or.inr ?_
    intro w hw
    rcases hr w hw with hm | hb
    · rcases List.mem_cons.mp hm with rfl | hm
      · exact Or.inr ⟨cn, hn, hle⟩
      · exact Or.inl hm
    · exact Or.inr hb

theorem ucsMid_insert {N : Coord → List Coord} {s goal current : Coord} {c₀ : Nat}
    {n : Coord} {ns : List Coord} {frontier : List (Nat × Coord)}
    {cf : List (Coord × Coord)} {csf : List (Coord × Nat)}
    (inv : UcsMid N s goal current c₀ (n :: ns) frontier cf csf)
    (hcond : ∀ cn, dlookup csf n = some cn → c₀ + 1 < cn) :
    UcsMid N s goal current c₀ ns (frontier ++ [(c₀ + 1, n)])
      ((n, current) :: cf) ((n, c₀ + 1) :: csf) := by
  have hnN : n ∈ N current := inv.nssub n (List.mem_cons_self _ _)
  have hns : n ≠ s := by
    intro hx
    have := hcond 0 (hx ▸ inv.s0)
    omega
  have hnc : n ≠ current := by
    intro hx
    have := hcond c₀ (hx ▸ inv.curlab)
    omega
  have hlk : ∀ x, dlookup ((n, c₀ + 1) :: csf) x =
      if n = x then some (c₀ + 1) else dlookup csf x := fun x => dlookup_cons _ _ _ _
  have hlkc : ∀ x, dlookup ((n, current) :: cf) x =
      if n = x then some current else dlookup cf x := fun x => dlookup_cons _ _ _ _
  have hreachn : Reaches N s n (c₀ + 1) :=
    Reaches.step (inv.lab current c₀ inv.curlab) hnN
  have hc₀b : c₀ ≤ cf.length := inv.labbound current c₀ inv.curlab
  refine ⟨?_, ?_, ?_, ?_, ?_, ?_, ?_, ?_, ?_, ?_, ?_,
    fun x hx => inv.nssub x (List.mem_cons_of_mem _ hx), inv.gcur⟩
  · rw [hlk s, if_neg hns]
    exact inv.s0
  · rw [hlkc s, if_neg hns]
    exact inv.cfs
  · intro v c hv
    rw [hlk v] at hv
    split at hv
    · rename_i hx
      cases hv
      exact hx ▸ hreachn
    · exact inv.lab v c hv
  · intro v u hv
    rw [hlkc v] at hv
    split at hv
    · rename_i hx
      cases hv
      subst hx
      refine ⟨hnN, c₀ + 1, c₀, by rw [hlk n, if_pos rfl], ?_, Nat.le_refl _⟩
      rw [hlk current, if_neg hnc]
      exact inv.curlab
    · rename_i hx
      rcases inv.cfcs v u hv with ⟨he, cv, cu, hcv, hcu, hcle⟩
      refine ⟨he, cv, ?_⟩
      by_cases hu : n = u
      · subst hu
        have := hcond cu hcu
        refine ⟨c₀ + 1, by rw [hlk v, if_neg hx]; exact hcv,
          by rw [hlk n, if_pos rfl], by omega⟩
      · exact ⟨cu, by rw [hlk v, if_neg hx]; exact hcv,
          by rw [hlk u, if_neg hu]; exact hcu, hcle⟩
  · intro v c hv
    rw [hlk v] at hv
    split at hv
    · rename_i hx
      refine Or.inr ?_
      rw [hlkc v, if_pos hx]
      simp
    · rcases inv.keycf v c hv with hx | hx
      · exact Or.inl hx
      · refine Or.inr ?_
        rw [hlkc v]
        split
        · simp
        · exact hx
  · intro v c hv hvc
    rw [hlk v] at hv
    split at hv
    · rename_i hx
      cases hv
      subst hx
      exact Or.inl (List.mem_append.mpr (Or.inr (List.mem_singleton_self _)))
    · rename_i hx
      rcases inv.freshx v c hv hvc with he | hr
      · exact Or.inl (List.mem_append.mpr (Or.inl he))
      · refine Or.inr ?_
        intro w hw
        rcases hr w hw with ⟨cw, hcw, hcwle⟩
        by_cases hwn : n = w
        · subst hwn
          have := hcond cw hcw
          exact ⟨c₀ + 1, by rw [hlk n, if_pos rfl], by omega⟩
        · exact ⟨cw, by rw [hlk w, if_neg hwn]; exact hcw, hcwle⟩
  · intro k' v' hv'
    rcases List.mem_append.mp hv' with hm | hm
    · rcases inv.fkey k' v' hm with ⟨c, hc, hck, hrk⟩
      by_cases hvn : n = v'
      · subst hvn
        have := hcond c hc
        exact ⟨c₀ + 1, by rw [hlk n, if_pos rfl], by omega, hrk⟩
      · exact ⟨c, by rw [hlk v', if_neg hvn]; exact hc, hck, hrk⟩
    · rcases List.mem_singleton.mp hm with hm
      cases hm
      exact ⟨c₀ + 1, by rw [hlk n, if_pos rfl], Nat.le_refl _, hreachn⟩
  · intro c hc
    rw [hlk goal] at hc
    split at hc
    · rename_i hx
      cases hc
      rw [← hx]
      exact List.mem_append.mpr (Or.inr (List.mem_singleton_self _))
    · exact List.mem_append.mpr (Or.inl (inv.gfresh c hc))
  · intro v c hv
    rw [hlk v] at hv
    split at hv
    · cases hv
      simp only [List.length_cons]
      omega
    · have := inv.labbound v c hv
      simp only [List.length_cons]
      omega
  · rw [hlk current, if_neg hnc]
    exact inv.curlab
  · rcases inv.curfresh with he | hr
    · exact Or.inl (List.mem_append.mpr (Or.inl he))
    · refine Or.inr ?_
      intro w hw
      rcases hr w hw with hm | ⟨cw, hcw, hcwle⟩
      · rcases List.mem_cons.mp hm with rfl | hm
        · exact Or.inr ⟨c₀ + 1, by rw [hlk w, if_pos rfl], Nat.le_refl _⟩
        · exact Or.inl hm
      · by_cases hwn : n = w
        · exact Or.inr ⟨c₀ + 1, by rw [hlk w, if_pos hwn], Nat.le_refl _⟩
        · exact Or.inr ⟨cw, by rw [hlk w, if_neg hwn]; exact hcw, hcwle⟩

theorem ucsRelax_preserve {N : Coord → List Coord} {s goal current : Coord}
    {c₀ : Nat} :
    ∀ (ns : List Coord) (frontier : List (Nat × Coord)) (cf : List (Coord × Coord))
      (csf : List (Coord × Nat)) (evs : List HeapEvent)
      (out : List (Nat × Coord) × List (Coord × Coord) × List (Coord × Nat) × List HeapEvent),
      UcsMid N s goal current c₀ ns frontier cf csf →
      ucsRelaxLoop current ns frontier cf csf evs = some out →
      UcsMid N s goal current c₀ [] out.1 out.2.1 out.2.2.1 := by
  intro ns
  induction ns with
  | nil =>
    intro frontier cf csf evs out inv h
    cases h
    exact inv
  | cons n ns ih =>
    intro frontier cf csf evs out inv h
    unfold ucsRelaxLoop at h
    rw [inv.curlab] at h
    dsimp only at h
    rcases hn : dlookup csf n with _ | cn
    · rw [hn] at h
      dsimp only at h
      rw [if_pos rfl] at h
      exact ih _ _ _ _ _ (ucsMid_insert inv (fun cn' hcn' => by
        rw [hn] at hcn'
        cases hcn')) h
    · rw [hn] at h
      dsimp only at h
      by_cases hlt : c₀ + 1 < cn
      · rw [if_pos (decide_eq_true hlt)] at h
        exact ih _ _ _ _ _ (ucsMid_insert inv (fun cn' hcn' => by
          rw [hn] at hcn'
          cases hcn'
          exact hlt)) h
      · rw [if_neg (by simpa using hlt)] at h
        exact ih _ _ _ _ _ (ucsMid_skip inv hn (by omega)) h

theorem ucsMid_close {N : Coord → List Coord} {s goal current : Coord} {c₀ : Nat}
    {frontier : List (Nat × Coord)} {cf : List (Coord × Coord)}
    {csf : List (Coord × Nat)}
    (inv : UcsMid N s goal current c₀ [] frontier cf csf) :
    UcsInv N s goal frontier cf csf := by
  refine ⟨inv.s0, inv.cfs, inv.lab, inv.cfcs, inv.keycf, ?_, inv.fkey,
    inv.gfresh, inv.labbound⟩
  intro v c hv
  by_cases hvc : v = current
  · subst hvc
    have hceq : c = c₀ := by
      rw [inv.curlab] at hv
      exact (Option.some_injective _ hv).symm
    subst hceq
    rcases inv.curfresh with he | hr
    · exact Or.inl he
    · refine Or.inr ?_
      intro w hw
      rcases hr w hw with hm | hb
      · cases hm
      · exact hb
  · exact inv.freshx v c hv hvc

theorem ucsInv_init (N : Coord → List Coord) (s goal : Coord) :
    UcsInv N s goal [(0, s)] [] [(s, 0)] := by
  have hsl : dlookup [(s, 0)] s = some 0 := by
    rw [dlookup_cons, if_pos rfl]
  refine ⟨hsl, rfl, ?_, ?_, ?_, ?_, ?_, ?_, ?_⟩
  · intro v c hv
    rw [dlookup_cons] at hv
    split at hv
    · rename_i hx
      cases hv
      exact hx ▸ Reaches.refl
    · cases hv
  · intro v u hv
    cases hv
  · intro v c hv
    rw [dlookup_cons] at hv
    split at hv
    · rename_i hx
      exact Or.inl hx.symm
    · cases hv
  · intro v c hv
    rw [dlookup_cons] at hv
    split at hv
    · rename_i hx
      cases hv
      subst hx
      exact Or.inl (List.mem_singleton_self _)
    · cases hv
  · intro k v hv
    rcases List.mem_singleton.mp hv with hm
    cases hm
    exact ⟨0, hsl, Nat.le_refl 0, Reaches.refl⟩
  · intro c hc
    rw [dlookup_cons] at hc
    split at hc
    · rename_i hx
      cases hc
      rw [← hx]
      exact List.mem_singleton_self _
    · cases hc
  · intro v c hv
    rw [dlookup_cons] at hv
    split at hv
    · cases hv
      exact Nat.le_refl 0
    · cases hv

theorem ucsInv_empty_unreachable {N : Coord → List Coord} {s goal : Coord}
    {cf : List (Coord × Coord)} {csf : List (Coord × Nat)}
    (inv : UcsInv N s goal [] cf csf) : ¬ Reachable N s goal := by
  rintro ⟨n, hn⟩
  have hmd := MinDist_dist ⟨n, hn⟩
  rcases ucs_frontier_low inv _ goal hmd with ⟨e, he, _⟩ | ⟨c, _, hlab, _⟩
  · cases he
  · cases inv.gfresh c hlab

theorem ucsAux_correct {N : Coord → List Coord} {s goal : Coord} :
    ∀ (fuel : Nat) (frontier : List (Nat × Coord)) (cf : List (Coord × Coord))
      (csf : List (Coord × Nat)) (evs : List HeapEvent)
      (out : List Coord × List HeapEvent),
      UcsInv N s goal frontier cf csf →
      ucsAux N s goal fuel frontier cf csf evs = some out →
      (out.1 = [] → ¬ Reachable N s goal) ∧
      (out.1 ≠ [] → IsPathFromTo N out.1 s goal ∧
        MinDist N s goal (out.1.length - 1)) := by
  intro fuel
  induction fuel with
  | zero =>
    intro frontier cf csf evs out _ h
    cases h
  | succ fuel ih =>
    intro frontier cf csf evs out inv h
    unfold ucsAux at h
    rcases hpop : popMin frontier with _ | ⟨⟨k, current⟩, rest⟩
    · rw [hpop] at h
      cases h
      exact ⟨fun _ => ucsInv_empty_unreachable (by
        rw [(popMin_none_iff frontier).mp hpop] at inv
        exact inv), fun hne => absurd rfl hne⟩
    · rw [hpop] at h
      dsimp only at h
      by_cases hg : current = goal
      · rw [if_pos hg] at h
        subst hg
        have hlabel := ucs_pop_exact inv hpop
        rcases ucs_chain inv _ current hlabel with ⟨d, hd, hchain⟩
        have hedge : CFedge N cf := fun v u hvu => (inv.cfcs v u hvu).1
        have hbound : d ≤ cf.length := by
          have := inv.labbound current _ hlabel
          omega
        rcases chain_reconstruct hedge inv.cfs hchain hbound with
          ⟨p, hrec, hpath, hlen⟩
        rw [hrec] at h
        simp only [Option.map_some', Option.some.injEq] at h
        subst h
        have hreach : Reaches N s current (p.length - 1) := isPath_reaches hpath
        have hdd : d = dist N s current := by
          have hmd := MinDist_dist ⟨p.length - 1, hreach⟩
          have h1 : dist N s current ≤ p.length - 1 := hmd.2 _ hreach
          omega
        have hne : p ≠ [] := by
          intro hx
          rw [hx] at hlen
          simp only [List.length_nil] at hlen
          omega
        refine ⟨fun hx => absurd hx hne, fun _ => ⟨hpath, ?_⟩⟩
        have : p.length - 1 = dist N s current := by omega
        rw [this]
        exact MinDist_dist ⟨p.length - 1, hreach⟩
      · rw [if_neg hg] at h
        rcases ucsInv_pop inv hpop hg with ⟨c₀, hmid⟩
        rcases hr : ucsRelaxLoop current (N current) rest cf csf
            (evs ++ [HeapEvent.pop k current]) with _ | ⟨f', cf', csf', evs''⟩
        · rw [hr] at h
          cases h
        · rw [hr] at h
          have hmid' := ucsRelax_preserve (N current) rest cf csf
            (evs ++ [HeapEvent.pop k current]) _ hmid hr
          exact ih f' cf' csf' evs'' out (ucsMid_close hmid') h

/-- UCS correctness: a returned non-empty path is a genuine shortest path
(by edge count) and a returned empty path means the goal is unreachable. -/
theorem ucs_neighbors_correct {N : Coord → List Coord} {s goal : Coord}
    {fuel : Nat} {out : List Coord} (h : ucs_neighbors s goal N fuel = some out) :
    (out = [] → ¬ Reachable N s goal) ∧
    (out ≠ [] → IsPathFromTo N out s goal ∧ MinDist N s goal (out.length - 1)) := by
  unfold ucs_neighbors ucsRun at h
  rcases hu : ucsAux N s goal fuel [(0, s)] [] [(s, 0)] [HeapEvent.push 0 s]
    with _ | pr
  · rw [hu] at h
    cases h
  · rw [hu] at h
    simp only [Option.map_some', Option.some.injEq] at h
    subst h
    exact ucsAux_correct fuel _ _ _ _ pr (ucsInv_init N s goal) hu

end Search

/-- Witness for `claim_ucs_tiebreak_lex` on the tied frontier of the
counterexample run. -/
theorem claim_ucs_tiebreak_lex_witness :
    Search.popMin c9Frontier = some ((1, (0, 1)), [(1, (1, 0))]) ∧
      ((1, ((0 : Int), (1 : Int))) ∈ c9Frontier ∧
        ∀ e ∈ c9Frontier, Search.leKey (1, (0, 1)) e) :=
  ⟨by decide,
    claim_ucs_tiebreak_lex c9Frontier (1, (0, 1)) [(1, (1, 0))] (by decide)⟩

/-! ## Grid-field preservation and the full-scan coverage of `__init__` -/

theorem reveal_from_fields {g g' : Grid} {pos : Coord} {rev : List Coord}
    (h : g.reveal_from pos = some (rev, g')) :
    g'.grid = g.grid ∧ g'.height = g.height ∧ g'.width = g.width ∧
      g'.start = g.start ∧ g'.goal = g.goal := by
  unfold Grid.reveal_from at h
  split at h
  · cases h
  · split at h
    · exact Grid.revealLoop_fields h
    · rcases hset : g.setVisible pos.1 pos.2 with _ | g1
      · rw [hset] at h
        cases h
      · rw [hset] at h
        dsimp only at h
        obtain ⟨e1, e2, e3, e4, e5⟩ := Grid.revealLoop_fields h
        obtain ⟨f1, f2, f3, f4, f5, _⟩ := Grid.setVisible_fields hset
        exact ⟨e1.trans f1, e2.trans f2, e3.trans f3, e4.trans f4, e5.trans f5⟩

/-- The true passability graph depends only on the tile array and the
dimensions, not on the visibility mask. -/
theorem fullNbrs_congr {g g' : Grid} (h1 : g'.grid = g.grid)
    (h2 : g'.height = g.height) (h3 : g'.width = g.width) :
    g'.fullNbrs = g.fullNbrs := by
  have hib : g'.in_bounds = g.in_bounds := by
    funext r c
    unfold Grid.in_bounds
    rw [h2, h3]
  have hpass : g'.passable = g.passable := by
    funext r c
    unfold Grid.passable
    rw [hib, h1]
  funext p
  unfold Grid.fullNbrs Grid.neighbors4
  rw [hib, hpass]

/-- Every visible-filtered neighbour is a true passable neighbour. -/
theorem get_visible_neighbors_sub {g : Grid} {pos x : Coord}
    (h : x ∈ g.get_visible_neighbors pos) : x ∈ g.fullNbrs pos := by
  unfold Grid.get_visible_neighbors at h
  rcases List.mem_filter.mp h with ⟨hmem, hprop⟩
  simp only [Bool.and_eq_true, decide_eq_true_eq] at hprop
  exact List.mem_filter.mpr ⟨hmem, by simpa using hprop.2⟩

/-- On a well-formed grid, the raw tile read of the classification loops
succeeds at every in-bounds coordinate. -/
theorem tile_read_of_inb {g : Grid} (hwf : g.WFShape) {r c : Int}
    (hin : g.in_bounds r c = true) :
    ∃ t, ((pyGet g.grid r).bind fun row => pyGet row c) = some t := by
  rcases Grid.in_bounds_iff.mp hin with ⟨h0, h1, h2, h3⟩
  have h1' : r < (g.grid.length : Int) := by
    rw [hwf.1]
    exact h1
  obtain ⟨row, hrow, _⟩ := pyGet_eq_some_of_inb h0 h1'
  have hrl : row.length = g.width := hwf.2.1 row (pyGet_mem hrow)
  have h3' : c < (row.length : Int) := by
    rw [hrl]
    exact h3
  obtain ⟨t, ht, _⟩ := pyGet_eq_some_of_inb h2 h3'
  exact ⟨t, by rw [hrow, Option.some_bind, ht]⟩

namespace Agent

/-- One step of the `__init__` full-map classification fold. -/
def classifyCell (g : Grid) (st : List Coord × List Coord) (p : Coord) :
    List Coord × List Coord :=
  match (pyGet g.grid p.1).bind fun row => pyGet row p.2 with
  | none => st
  | some t =>
    if t = Tile.wall then (st.1, insertS p st.2) else (insertS p st.1, st.2)

theorem fullScan_eq (g : Grid) :
    fullScan g =
      (((List.range g.height).flatMap fun r =>
          (List.range g.width).map fun c => (((r : Int), (c : Int)) : Coord)).foldl
        (classifyCell g) ([], [])) := rfl

theorem self_mem_insertS (x : Coord) (s : List Coord) : x ∈ insertS x s := by
  unfold insertS
  split
  · assumption
  · exact List.mem_cons_self x s

theorem classifyCell_mono {g : Grid} {st : List Coord × List Coord} {p x : Coord}
    (h : x ∈ st.1 ∨ x ∈ st.2) :
    x ∈ (classifyCell g st p).1 ∨ x ∈ (classifyCell g st p).2 := by
  unfold classifyCell
  split
  · exact h
  · split
    · rcases h with h | h
      · exact Or.inl h
      · exact Or.inr (mem_insertS h)
    · rcases h with h | h
      · exact Or.inl (mem_insertS h)
      · exact Or.inr h

theorem classifyFold_mono {g : Grid} {x : Coord} :
    ∀ (l : List Coord) (st : List Coord × List Coord),
      x ∈ st.1 ∨ x ∈ st.2 →
      x ∈ (l.foldl (classifyCell g) st).1 ∨ x ∈ (l.foldl (classifyCell g) st).2 := by
  intro l
  induction l with
  | nil => exact fun st h => h
  | cons p l ih =>
    intro st h
    exact ih (classifyCell g st p) (classifyCell_mono h)

theorem classifyFold_cover {g : Grid} {p : Coord} {t : Tile}
    (ht : ((pyGet g.grid p.1).bind fun row => pyGet row p.2) = some t) :
    ∀ (l : List Coord) (st : List Coord × List Coord), p ∈ l →
      p ∈ (l.foldl (classifyCell g) st).1 ∨ p ∈ (l.foldl (classifyCell g) st).2 := by
  intro l
  induction l with
  | nil =>
    intro st h
    cases h
  | cons q l ih =>
    intro st h
    rcases List.mem_cons.mp h with rfl | h
    · refine classifyFold_mono l (classifyCell g st p) ?_
      unfold classifyCell
      rw [ht]
      dsimp only
      split
      · exact Or.inr (self_mem_insertS p _)
      · exact Or.inl (self_mem_insertS p _)
    · exact ih (classifyCell g st q) h

/-- After the full-map seeding scan every in-bounds cell is known, either as
passable or as a wall. -/
theorem fullScan_cover {g : Grid} (hwf : g.WFShape) {r c : Int}
    (hin : g.in_bounds r c = true) :
    ((r, c) : Coord) ∈ (fullScan g).1 ∨ ((r, c) : Coord) ∈ (fullScan g).2 := by
  rcases Grid.in_bounds_iff.mp hin with ⟨h0, h1, h2, h3⟩
  obtain ⟨t, ht⟩ := tile_read_of_inb hwf hin
  rw [fullScan_eq]
  refine classifyFold_cover ht _ _ ?_
  have hc : ((r, c) : Coord) = (((r.toNat : Nat) : Int), ((c.toNat : Nat) : Int)) := by
    rw [Int.toNat_of_nonneg h0, Int.toNat_of_nonneg h2]
  rw [hc]
  refine List.mem_flatMap.mpr ⟨r.toNat, ?_, ?_⟩
  · exact List.mem_range.mpr (by omega)
  · refine List.mem_map.mpr ⟨((c.toNat : Nat) : Int), ?_, rfl⟩
    show ((c.toNat : Nat) : Int) ∈
      (List.range g.width).flatMap fun a => [((a : Nat) : Int)]
    exact List.mem_flatMap.mpr
      ⟨c.toNat, List.mem_range.mpr (by omega), List.mem_singleton_self _⟩

/-- When every in-bounds cell is already known, the frontier BFS can never
return a frontier cell: it exhausts its queue (or its fuel). -/
theorem chooseFrontierAux_covered {g : Grid} {kp kw : List Coord}
    (hcov : ∀ nb : Coord, g.in_bounds nb.1 nb.2 = true → nb ∈ kp ∨ nb ∈ kw) :
    ∀ (fuel : Nat) (q vis : List Coord) (r : Coord),
      chooseFrontierAux g kp kw fuel q vis ≠ some (some r) := by
  intro fuel
  induction fuel with
  | zero =>
    intro q vis r h
    cases h
  | succ fuel ih =>
    intro q vis r h
    match q with
    | [] => cases h
    | cur :: q =>
      unfold chooseFrontierAux at h
      rw [if_neg] at h
      · rcases hst : (knownNeighbors kp cur).foldl
            (fun st n => if n ∈ st.2 then st else (st.1 ++ [n], n :: st.2))
            (q, vis) with ⟨q', vis'⟩
        rw [hst] at h
        exact ih q' vis' r h
      · intro hany
        rcases List.any_eq_true.mp hany with ⟨nb, _, hnb⟩
        simp only [Bool.and_eq_true, Bool.not_eq_true', decide_eq_false_iff_not]
          at hnb
        rcases hcov nb hnb.1.1 with hm | hm
        · exact hnb.1.2 hm
        · exact hnb.2 hm

theorem perceive_fields {g g' : Grid} {s s' : AgentState}
    (h : perceive g s = some (g', s')) :
    g'.grid = g.grid ∧ g'.height = g.height ∧ g'.width = g.width := by
  unfold perceive at h
  rcases hrf : g.reveal_from s.current with _ | ⟨newly, g1⟩
  · rw [hrf] at h
    cases h
  · rw [hrf] at h
    dsimp only at h
    rcases hcl : classifyLoop g1 newly s.known_passable s.known_walls with _ | ⟨kp, kw⟩
    · rw [hcl] at h
      cases h
    · rw [hcl] at h
      dsimp only at h
      cases h
      obtain ⟨e1, e2, e3, _, _⟩ := reveal_from_fields hrf
      exact ⟨e1, e2, e3⟩

theorem perceivePhase_fields {b : Bool} {g g' : Grid} {s s' : AgentState}
    (h : (if b then some (g, s) else perceive g s) = some (g', s')) :
    g'.grid = g.grid ∧ g'.height = g.height ∧ g'.width = g.width := by
  by_cases hfm : b = true
  · rw [if_pos hfm] at h
    cases h
    exact ⟨rfl, rfl, rfl⟩
  · rw [if_neg hfm] at h
    exact perceive_fields h

/-- Invariant of a fog-mode agent relative to the original grid `g`: the tile
array and dimensions never change, the mode and goal are fixed, the current
position is genuinely reachable from the start, and any pending plan starts
at the current position and follows true passable edges. -/
structure FogInv (g : Grid) (gp : Grid) (s : AgentState) : Prop where
  tiles : gp.grid = g.grid
  hh : gp.height = g.height
  hw : gp.width = g.width
  sgoal : s.goal = g.goal
  fog : s.full_map = false
  reach : Search.Reachable g.fullNbrs g.start s.current
  plan : s.current_plan = [] ∨
    (s.current_plan.head? = some s.current ∧
      List.Chain' (fun a b => b ∈ g.fullNbrs a) s.current_plan)

theorem planPhase_fog_inv {g : Grid} {fuel cfFuel : Nat} {g1 : Grid}
    {s1 s2 : AgentState} (inv : FogInv g g1 s1)
    (h : planPhase (astarSearch fuel) cfFuel g1 s1 = some (some s2)) :
    FogInv g g1 s2 := by
  have hfn : g1.fullNbrs = g.fullNbrs := fullNbrs_congr inv.tiles inv.hh inv.hw
  unfold planPhase at h
  split at h
  · rcases hpt : planTo (astarSearch fuel) g1 s1 s1.goal with _ | path
    · rw [hpt] at h
      cases h
    · rw [hpt] at h
      unfold planTo at hpt
      simp only [] at hpt
      rw [inv.fog, if_neg Bool.false_ne_true] at hpt
      dsimp only at h
      split at h
      · rename_i hne'
        cases h
        have hne : path ≠ [] := by
          intro hx
          rw [hx] at hne'
          cases hne'
        obtain ⟨hh', _, hc⟩ := (Search.algorithms_sound hne).2.2.2.1 hpt
        refine ⟨inv.tiles, inv.hh, inv.hw, inv.sgoal, inv.fog, inv.reach, Or.inr ⟨hh', ?_⟩⟩
        refine hc.imp fun a b hb => ?_
        rw [← hfn]
        exact get_visible_neighbors_sub hb
      · rcases hcf : chooseFrontier g1 s1 cfFuel with _ | (_ | f)
        · rw [hcf] at h
          cases h
        · rw [hcf] at h
          dsimp only at h
          cases h
        · rw [hcf] at h
          dsimp only at h
          rcases hpt2 : planTo (astarSearch fuel) g1 s1 f with _ | plan
          · rw [hpt2] at h
            cases h
          · rw [hpt2] at h
            unfold planTo at hpt2
            simp only [] at hpt2
            rw [inv.fog, if_neg Bool.false_ne_true] at hpt2
            dsimp only at h
            split at h
            · rename_i hne'
              cases h
              have hne : plan ≠ [] := by
                intro hx
                rw [hx] at hne'
                cases hne'
              obtain ⟨hh', _, hc⟩ := (Search.algorithms_sound hne).2.2.2.1 hpt2
              refine ⟨inv.tiles, inv.hh, inv.hw, inv.sgoal, inv.fog, inv.reach,
                Or.inr ⟨hh', ?_⟩⟩
              refine hc.imp fun a b hb => ?_
              rw [← hfn]
              exact get_visible_neighbors_sub hb
            · cases h
  · cases h
    exact inv

theorem actPhase_fog_inv {g g1 : Grid} {s2 : AgentState}
    {r : (Grid × AgentState) × Bool} (inv : FogInv g g1 s2)
    (h : actPhase g1 s2 = some r) : FogInv g r.1.1 r.1.2 := by
  rcases hcp : s2.current_plan with _ | ⟨n0, t⟩
  · unfold actPhase at h
    rw [hcp] at h
    dsimp only at h
    cases h
    exact ⟨inv.tiles, inv.hh, inv.hw, inv.sgoal, inv.fog, inv.reach, Or.inl rfl⟩
  · rcases t with _ | ⟨n1, rest⟩
    · unfold actPhase at h
      rw [hcp] at h
      dsimp only at h
      cases h
      exact ⟨inv.tiles, inv.hh, inv.hw, inv.sgoal, inv.fog, inv.reach, Or.inl rfl⟩
    · have hplan := inv.plan
      rw [hcp] at hplan
      rcases hplan with hplan | ⟨hhd, hch⟩
      · cases hplan
      · have hn0 : n0 = s2.current := by
          simp only [List.head?_cons, Option.some.injEq] at hhd
          exact hhd
        have hedge : n1 ∈ g.fullNbrs n0 := (List.chain'_cons.mp hch).1
        have hch' : List.Chain' (fun a b => b ∈ g.fullNbrs a) (n1 :: rest) :=
          (List.chain'_cons.mp hch).2
        unfold actPhase at h
        rw [hcp] at h
        dsimp only at h
        split at h
        · cases h
          exact ⟨inv.tiles, inv.hh, inv.hw, inv.sgoal, inv.fog, inv.reach, Or.inl rfl⟩
        · rw [inv.fog, if_neg Bool.false_ne_true] at h
          split at h
          · cases h
          · rename_i g2 s4 heq
            cases h
            obtain ⟨f1, f2, f3⟩ := perceive_fields heq
            obtain ⟨e1, e2, _, e4, _, e6, _, _⟩ := perceive_spec heq
            refine ⟨f1.trans inv.tiles, f2.trans inv.hh, f3.trans inv.hw,
              ?_, ?_, ?_, ?_⟩
            · rw [e2]
              exact inv.sgoal
            · rw [e4]
            · rw [e1]
              show Search.Reachable g.fullNbrs g.start n1
              rcases inv.reach with ⟨n, hn⟩
              exact ⟨n + 1, Search.Reaches.step hn (hn0 ▸ hedge)⟩
            · refine Or.inr ⟨?_, ?_⟩
              · rw [e6, e1]
                rfl
              · rw [e6]
                exact hch'

theorem step_fog_inv {g : Grid} {fuel cfFuel : Nat} {g1 : Grid} {s1 : AgentState}
    {r : (Grid × AgentState) × Bool} (inv : FogInv g g1 s1)
    (h : step (astarSearch fuel) cfFuel g1 s1 = some r) : FogInv g r.1.1 r.1.2 := by
  unfold step at h
  rcases hpp : (if s1.full_map then some (g1, s1) else perceive g1 s1)
    with _ | ⟨g1', s1'⟩
  · rw [hpp] at h
    cases h
  · rw [hpp] at h
    dsimp only at h
    obtain ⟨f1, f2, f3⟩ := perceivePhase_fields hpp
    obtain ⟨e1, e2, _, e4, _, e6, _, _⟩ := perceivePhase_spec hpp
    have inv1 : FogInv g g1' s1' := by
      refine ⟨f1.trans inv.tiles, f2.trans inv.hh, f3.trans inv.hw,
        e2.trans inv.sgoal, e4.trans inv.fog, ?_, ?_⟩
      · rw [e1]
        exact inv.reach
      · rw [e6, e1]
        exact inv.plan
    split at h
    · cases h
      exact ⟨inv1.tiles, inv1.hh, inv1.hw, inv1.sgoal, inv1.fog, inv1.reach,
        by rcases inv1.plan with hx | hx
           · exact Or.inl hx
           · exact Or.inr hx⟩
    · rcases hpl : planPhase (astarSearch fuel) cfFuel g1' s1' with _ | (_ | s2)
      · rw [hpl] at h
        cases h
      · rw [hpl] at h
        dsimp only at h
        cases h
        exact inv1
      · rw [hpl] at h
        dsimp only at h
        exact actPhase_fog_inv (planPhase_fog_inv inv1 hpl) h

theorem runAux_fog_inv {g : Grid} {fuel cfFuel : Nat} :
    ∀ (n : Nat) (g1 : Grid) (s1 : AgentState) (out : Grid × AgentState),
      FogInv g g1 s1 → runAux (astarSearch fuel) cfFuel n g1 s1 = some out →
      FogInv g out.1 out.2 := by
  intro n
  induction n with
  | zero =>
    intro g1 s1 out inv h
    cases h
    exact inv
  | succ n ih =>
    intro g1 s1 out inv h
    unfold runAux at h
    rcases hst : step (astarSearch fuel) cfFuel g1 s1 with _ | ⟨⟨g', s'⟩, cont⟩
    · rw [hst] at h
      cases h
    · rw [hst] at h
      dsimp only at h
      have inv' := step_fog_inv inv hst
      cases cont with
      | false =>
        rw [if_neg Bool.false_ne_true] at h
        cases h
        exact inv'
      | true =>
        rw [if_pos rfl] at h
        exact ih g' s' out inv' h

theorem mkAgent_fog_inv {g g₀ : Grid} {s₀ : AgentState}
    (h : mkAgent g false = some (g₀, s₀)) : FogInv g g₀ s₀ := by
  unfold mkAgent at h
  simp only [] at h
  rw [if_neg Bool.false_ne_true] at h
  rcases hrf : g.reveal_from g.start with _ | ⟨newly, g'⟩
  · rw [hrf] at h
    cases h
  · rw [hrf] at h
    dsimp only at h
    rcases hcl : classifyLoop g' newly [] [] with _ | ⟨kp, kw⟩
    · rw [hcl] at h
      cases h
    · rw [hcl] at h
      dsimp only at h
      cases h
      obtain ⟨e1, e2, e3, _, _⟩ := reveal_from_fields hrf
      exact ⟨e1, e2, e3, rfl, rfl, ⟨0, Search.Reaches.refl⟩, Or.inl rfl⟩

end Agent

/-! ## C3: optimality of BFS / UCS / A* over an arbitrary neighbour function -/

/-- A neighbour function on which the Manhattan heuristic is inadmissible:
the direct two-edge route to the goal runs through the far-away node
`(10, 10)`, while a three-edge detour stays heuristically close. -/
def c3N : Coord → List Coord := fun p =>
  if p = ((0, 0) : Coord) then [(10, 10), (0, 1)]
  else if p = ((0, 1) : Coord) then [(0, 2)]
  else if p = ((0, 2) : Coord) then [(0, 3)]
  else if p = ((10, 10) : Coord) then [(0, 3)]
  else []

/-- C3, counterexample: on `c3N` BFS and UCS both return the optimal
three-node (two-edge) path through `(10, 10)`, but A* with the Manhattan
heuristic returns a four-node path — the heuristic is not admissible for an
arbitrary neighbour function, so the three algorithms do not return paths of
equal length. -/
theorem claim_search_optimality_counterexample :
    Search.bfs_neighbors (0, 0) (0, 3) c3N 20 =
      some [(0, 0), (10, 10), (0, 3)] ∧
    Search.ucs_neighbors (0, 0) (0, 3) c3N 20 =
      some [(0, 0), (10, 10), (0, 3)] ∧
    Search.astar_neighbors (0, 0) (0, 3) c3N 20 =
      some [(0, 0), (0, 1), (0, 2), (0, 3)] ∧
    (Search.astar_neighbors (0, 0) (0, 3) c3N 20).map List.length = some 4 ∧
    (Search.bfs_neighbors (0, 0) (0, 3) c3N 20).map List.length = some 3 :=
  ⟨by decide, by decide, by decide, by decide, by decide⟩

/-- C3 (amended): for every (start, goal, neighbour function), whenever
`bfs_neighbors` and `ucs_neighbors` terminate they agree — each returns `[]`
exactly when the goal is unreachable, each non-empty result is a path from
start to goal of minimal length (shortest by edge count), and the two paths
have equal length.  (A* with the Manhattan heuristic is excluded: by
`claim_search_optimality_counterexample` it can return a longer path.) -/
theorem claim_bfs_ucs_optimal {N : Coord → List Coord} {s goal : Coord}
    {fuel₁ fuel₂ : Nat} {p q : List Coord}
    (hb : Search.bfs_neighbors s goal N fuel₁ = some p)
    (hu : Search.ucs_neighbors s goal N fuel₂ = some q) :
    (p = [] ↔ ¬ Search.Reachable N s goal) ∧
    (q = [] ↔ ¬ Search.Reachable N s goal) ∧
    (p ≠ [] → Search.IsPathFromTo N p s goal ∧
      Search.MinDist N s goal (p.length - 1)) ∧
    (q ≠ [] → Search.IsPathFromTo N q s goal ∧
      Search.MinDist N s goal (q.length - 1)) ∧
    p.length = q.length := by
  have Hb := Search.bfs_neighbors_correct hb
  have Hu := Search.ucs_neighbors_correct hu
  have hbiff : p = [] ↔ ¬ Search.Reachable N s goal := by
    constructor
    · exact Hb.1
    · intro hnr
      by_contra hne
      exact hnr ⟨p.length - 1, Search.isPath_reaches (Hb.2 hne).1⟩
  have huiff : q = [] ↔ ¬ Search.Reachable N s goal := by
    constructor
    · exact Hu.1
    · intro hnr
      by_contra hne
      exact hnr ⟨q.length - 1, Search.isPath_reaches (Hu.2 hne).1⟩
  refine ⟨hbiff, huiff, Hb.2, Hu.2, ?_⟩
  by_cases hp : p = []
  · have hq : q = [] := huiff.mpr (hbiff.mp hp)
    rw [hp, hq]
  · have hq : q ≠ [] := fun hq => hp (hbiff.mpr (huiff.mp hq))
    have h1 := (Hb.2 hp).2
    have h2 := (Hu.2 hq).2
    have := Search.MinDist_unique h1 h2
    have hpl : 1 ≤ p.length := List.length_pos.mpr hp
    have hql : 1 ≤ q.length := List.length_pos.mpr hq
    omega

/-- Witness for `claim_bfs_ucs_optimal` on the graph `c3N`. -/
theorem claim_bfs_ucs_optimal_witness :
    (([(0, 0), (10, 10), (0, 3)] : List Coord) = [] ↔
      ¬ Search.Reachable c3N (0, 0) (0, 3)) ∧
    (([(0, 0), (10, 10), (0, 3)] : List Coord) = [] ↔
      ¬ Search.Reachable c3N (0, 0) (0, 3)) ∧
    (([(0, 0), (10, 10), (0, 3)] : List Coord) ≠ [] →
      Search.IsPathFromTo c3N [(0, 0), (10, 10), (0, 3)] (0, 0) (0, 3) ∧
      Search.MinDist c3N (0, 0) (0, 3)
        (([(0, 0), (10, 10), (0, 3)] : List Coord).length - 1)) ∧
    (([(0, 0), (10, 10), (0, 3)] : List Coord) ≠ [] →
      Search.IsPathFromTo c3N [(0, 0), (10, 10), (0, 3)] (0, 0) (0, 3) ∧
      Search.MinDist c3N (0, 0) (0, 3)
        (([(0, 0), (10, 10), (0, 3)] : List Coord).length - 1)) ∧
    ([(0, 0), (10, 10), (0, 3)] : List Coord).length =
      ([(0, 0), (10, 10), (0, 3)] : List Coord).length :=
  @claim_bfs_ucs_optimal c3N (0, 0) (0, 3) 20 20
    [(0, 0), (10, 10), (0, 3)] [(0, 0), (10, 10), (0, 3)]
    (by decide) (by decide)

/-! ## C5: behaviour when the goal is walled off -/

/-- A 1×4 grid `S,0,1,G`: the wall at `(0, 2)` separates the goal from the
start. -/
def walledGrid : Grid :=
  { grid := [[Tile.start, Tile.free, Tile.wall, Tile.goal]]
    start := (0, 0)
    goal := (0, 3)
    visible := [[false, false, false, false]]
    height := 1
    width := 4 }

/-- In full-map mode with an unreachable goal, `step()` either raises or
immediately returns the done signal without changing any state: the goal
plan comes back empty and the frontier search finds nothing because every
in-bounds cell is already known. -/
theorem fullmap_step_stuck {g : Grid} {fuel cfFuel : Nat} {s : Agent.AgentState}
    (hfm : s.full_map = true) (hplan : s.current_plan = [])
    (hcur : s.current = g.start) (hsgoal : s.goal = g.goal)
    (hne : g.start ≠ g.goal)
    (hastar0 : ∀ p, Search.astar_neighbors g.start g.goal g.fullNbrs fuel = some p →
      p = [])
    (hcov : ∀ nb : Coord, g.in_bounds nb.1 nb.2 = true →
      nb ∈ s.known_passable ∨ nb ∈ s.known_walls) :
    Agent.step (astarSearch fuel) cfFuel g s = none ∨
      Agent.step (astarSearch fuel) cfFuel g s = some ((g, s), false) := by
  unfold Agent.step
  rw [hfm, if_pos rfl]
  dsimp only
  rw [hcur, hsgoal, if_neg hne]
  rcases hpl : Agent.planPhase (astarSearch fuel) cfFuel g s with _ | (_ | s2)
  · exact Or.inl rfl
  · exact Or.inr rfl
  · exfalso
    unfold Agent.planPhase at hpl
    rw [hplan] at hpl
    rw [if_pos List.isEmpty_nil] at hpl
    rcases hpt : Agent.planTo (astarSearch fuel) g s s.goal with _ | path
    · rw [hpt] at hpl
      cases hpl
    · rw [hpt] at hpl
      have hpt' : Search.astar_neighbors g.start g.goal g.fullNbrs fuel = some path := by
        unfold Agent.planTo at hpt
        simp only [] at hpt
        rw [hfm, if_pos rfl, hcur, hsgoal] at hpt
        exact hpt
      have hpath := hastar0 path hpt'
      subst hpath
      dsimp only at hpl
      rw [if_neg (by decide : ¬((!List.isEmpty ([] : List Coord)) = true))] at hpl
      rcases hcf : Agent.chooseFrontier g s cfFuel with _ | (_ | f)
      · rw [hcf] at hpl
        cases hpl
      · rw [hcf] at hpl
        simp at hpl
      · unfold Agent.chooseFrontier at hcf
        exact Agent.chooseFrontierAux_covered hcov cfFuel [s.current] [s.current] f hcf

/-- C5, counterexample: on `walledGrid` the goal is unreachable, yet the
fog-mode agent explores its known region before giving up and finishes with
`steps = 1` and `cost = 1` — not `steps = 0, cost = 0` as claimed for both
modes (`reached_goal` is indeed `false`). -/
theorem claim_unreachable_goal_counterexample :
    ¬ Search.Reachable walledGrid.fullNbrs walledGrid.start walledGrid.goal ∧
    ((Agent.mkAgent walledGrid false).bind fun gs =>
        (Agent.run (astarSearch 20) 20 gs.1 gs.2 20).map fun out =>
          (out.2.metrics.steps, out.2.metrics.cost, out.2.metrics.reached_goal)) =
      some (1, 1, false) := by
  constructor
  · exact (Search.bfs_neighbors_correct (by decide :
      Search.bfs_neighbors walledGrid.start walledGrid.goal walledGrid.fullNbrs 20 =
        some [])).1 rfl
  · decide

/-- C5 (amended): when the goal is walled off from the start, every
algorithm that terminates returns an empty path, and an `OnlineAgent` run in
full-knowledge mode terminates with `steps = 0`, `cost = 0` and
`reached_goal = false`; a fog-mode run still ends with
`reached_goal = false`, but (by `claim_unreachable_goal_counterexample`) it
may take exploration steps first, so its `steps` and `cost` need not be
zero. -/
theorem claim_unreachable_goal {g : Grid} (hwf : g.WFShape)
    (hunreach : ¬ Search.Reachable g.fullNbrs g.start g.goal)
    {fuel cfFuel max_steps : Nat} :
    (∀ p, Search.bfs_neighbors g.start g.goal g.fullNbrs fuel = some p → p = []) ∧
    (∀ p, Search.dfs_neighbors g.start g.goal g.fullNbrs fuel = some p → p = []) ∧
    (∀ p, Search.ucs_neighbors g.start g.goal g.fullNbrs fuel = some p → p = []) ∧
    (∀ p, Search.astar_neighbors g.start g.goal g.fullNbrs fuel = some p → p = []) ∧
    (∀ p, Search.greedy_neighbors g.start g.goal g.fullNbrs fuel = some p → p = []) ∧
    (∀ g₀ s₀ out, Agent.mkAgent g true = some (g₀, s₀) →
      Agent.run (astarSearch fuel) cfFuel g₀ s₀ max_steps = some out →
      out.2.metrics.steps = 0 ∧ out.2.metrics.cost = 0 ∧
        out.2.metrics.reached_goal = false) ∧
    (∀ g₀ s₀ out, Agent.mkAgent g false = some (g₀, s₀) →
      Agent.run (astarSearch fuel) cfFuel g₀ s₀ max_steps = some out →
      out.2.metrics.reached_goal = false) := by
  have hne : g.start ≠ g.goal := fun hx => hunreach ⟨0, hx ▸ Search.Reaches.refl⟩
  have hempty : ∀ (p : List Coord), p ≠ [] →
      ¬ Search.IsPathFromTo g.fullNbrs p g.start g.goal := by
    intro p _ hpath
    exact hunreach ⟨p.length - 1, Search.isPath_reaches hpath⟩
  refine ⟨?_, ?_, ?_, ?_, ?_, ?_, ?_⟩
  · intro p hp
    by_contra hnp
    exact hempty p hnp ((Search.algorithms_sound hnp).1 hp)
  · intro p hp
    by_contra hnp
    exact hempty p hnp ((Search.algorithms_sound hnp).2.1 hp)
  · intro p hp
    by_contra hnp
    exact hempty p hnp ((Search.algorithms_sound hnp).2.2.1 hp)
  · intro p hp
    by_contra hnp
    exact hempty p hnp ((Search.algorithms_sound hnp).2.2.2.1 hp)
  · intro p hp
    by_contra hnp
    exact hempty p hnp ((Search.algorithms_sound hnp).2.2.2.2 hp)
  · -- full-knowledge mode
    intro g₀ s₀ out hmk hrun
    have hastar0 : ∀ p,
        Search.astar_neighbors g.start g.goal g.fullNbrs fuel = some p → p = [] := by
      intro p hp
      by_contra hnp
      exact hempty p hnp ((Search.algorithms_sound hnp).2.2.2.1 hp)
    unfold Agent.mkAgent at hmk
    simp only [] at hmk
    rw [if_pos trivial] at hmk
    rcases hfs : Agent.fullScan g with ⟨kp, kw⟩
    rw [hfs] at hmk
    dsimp only at hmk
    injection hmk with hmk1
    injection hmk1 with hg hs
    have hfm : s₀.full_map = true := by rw [← hs]
    have hplan : s₀.current_plan = [] := by rw [← hs]
    have hcur : s₀.current = g.start := by rw [← hs]
    have hsg0 : s₀.goal = g.goal := by rw [← hs]
    have hmetrics : s₀.metrics = Agent.Metrics.init g.start g.goal := by rw [← hs]
    have hkp : s₀.known_passable = kp := by rw [← hs]
    have hkw : s₀.known_walls = kw := by rw [← hs]
    have hcov : ∀ nb : Coord, g.in_bounds nb.1 nb.2 = true →
        nb ∈ s₀.known_passable ∨ nb ∈ s₀.known_walls := by
      intro nb hin
      have h2 := Agent.fullScan_cover hwf hin
      rw [hfs] at h2
      rw [hkp, hkw]
      exact h2
    have hstep := @fullmap_step_stuck g fuel cfFuel s₀ hfm hplan hcur hsg0 hne
      hastar0 hcov
    rw [← hg] at hrun
    have hra : Agent.runAux (astarSearch fuel) cfFuel max_steps g s₀ = none ∨
        Agent.runAux (astarSearch fuel) cfFuel max_steps g s₀ = some (g, s₀) := by
      cases max_steps with
      | zero => exact Or.inr rfl
      | succ n =>
        unfold Agent.runAux
        rcases hstep with hst | hst
        · rw [hst]
          exact Or.inl rfl
        · rw [hst]
          dsimp only
          rw [if_neg Bool.false_ne_true]
          exact Or.inr rfl
    unfold Agent.run at hrun
    rcases hra with hra | hra
    · rw [hra] at hrun
      simp at hrun
    · rw [hra] at hrun
      simp only [Option.map_some'] at hrun
      cases hrun
      refine ⟨?_, ?_, ?_⟩
      · dsimp only
        rw [hmetrics]
        rfl
      · dsimp only
        rw [hmetrics]
        rfl
      · dsimp only
        rw [hmetrics, hcur, hsg0]
        exact decide_eq_false hne
  · -- fog mode
    intro g₀ s₀ out hmk hrun
    have inv₀ := Agent.mkAgent_fog_inv hmk
    unfold Agent.run at hrun
    rcases hra : Agent.runAux (astarSearch fuel) cfFuel max_steps g₀ s₀ with _ | gs
    · rw [hra] at hrun
      simp at hrun
    · rw [hra] at hrun
      simp only [Option.map_some'] at hrun
      have invf := Agent.runAux_fog_inv max_steps g₀ s₀ gs inv₀ hra
      have hne2 : gs.2.current ≠ gs.2.goal := by
        rw [invf.sgoal]
        intro hx
        exact hunreach (hx ▸ invf.reach)
      cases hrun
      dsimp only
      split
      · exact decide_eq_false hne2
      · exact decide_eq_false hne2

/-- Witness for `claim_unreachable_goal` on `walledGrid`. -/
theorem claim_unreachable_goal_witness :
    (∀ p, Search.bfs_neighbors walledGrid.start walledGrid.goal
        walledGrid.fullNbrs 20 = some p → p = []) ∧
    (∀ p, Search.dfs_neighbors walledGrid.start walledGrid.goal
        walledGrid.fullNbrs 20 = some p → p = []) ∧
    (∀ p, Search.ucs_neighbors walledGrid.start walledGrid.goal
        walledGrid.fullNbrs 20 = some p → p = []) ∧
    (∀ p, Search.astar_neighbors walledGrid.start walledGrid.goal
        walledGrid.fullNbrs 20 = some p → p = []) ∧
    (∀ p, Search.greedy_neighbors walledGrid.start walledGrid.goal
        walledGrid.fullNbrs 20 = some p → p = []) ∧
    (∀ g₀ s₀ out, Agent.mkAgent walledGrid true = some (g₀, s₀) →
      Agent.run (astarSearch 20) 20 g₀ s₀ 20 = some out →
      out.2.metrics.steps = 0 ∧ out.2.metrics.cost = 0 ∧
        out.2.metrics.reached_goal = false) ∧
    (∀ g₀ s₀ out, Agent.mkAgent walledGrid false = some (g₀, s₀) →
      Agent.run (astarSearch 20) 20 g₀ s₀ 20 = some out →
      out.2.metrics.reached_goal = false) :=
  @claim_unreachable_goal walledGrid (by decide)
    ((Search.bfs_neighbors_correct (by decide :
      Search.bfs_neighbors walledGrid.start walledGrid.goal walledGrid.fullNbrs 20 =
        some [])).1 rfl) 20 20 20

end Fog
